import Mathlib

/-!
# The `acttab` packer of LEMON (`src/action.c`, `src/action.h`)

A shallow embedding of the routines that build the `yy_action[]` table:
`acttab_alloc`, `acttab_action` and `acttab_insert`.

Conventions of the embedding.

* C `int` values that carry data (lookaheads, actions, offsets, the index `k`)
  are `Int`; the claims proved here never approach the 32-bit limits.
  The counters `nAction`, `nActionAlloc`, `nLookahead`, `nLookaheadAlloc`
  are never negative in the source and are `Nat`.
* The heap blocks `aAction` and `aLookahead` are lists whose length is the
  number of allocated cells.  Every read and write is bounds-checked: an
  access outside the block is undefined behaviour in C and is reported here
  as `Fault.outOfBounds`.  A failed `assert` is `Fault.assertion`.
* `calloc`/`realloc` are assumed to succeed (the `exit(1)` paths are not
  modelled).  Cells that `realloc` leaves indeterminate are filled with
  `indeterminate`; the source never reads one before writing it.
* A `for` loop whose body may `break` is a recursive function on the number of
  iterations that remain; it returns the value of the loop variable at exit.
-/

namespace Lemon

/-- The two ways a call can fail to return. -/
inductive Fault where
  | assertion
  | outOfBounds
deriving DecidableEq

/-- The `struct lookahead_action` of `action.h`. -/
structure lookahead_action where
  lookahead : Int
  action : Int
deriving DecidableEq

/-- The `struct acttab` of `action.h`. -/
structure acttab where
  nAction : Nat
  nActionAlloc : Nat
  aAction : List lookahead_action
  aLookahead : List lookahead_action
  mnLookahead : Int
  mnAction : Int
  mxLookahead : Int
  nLookahead : Nat
  nLookaheadAlloc : Nat
deriving DecidableEq

/-- The constant `NO_OFFSET`, defined as `(-2147483647)` in `struct.h`. -/
def NO_OFFSET : Int := -2147483647

/-- The empty slot written by the capacity step: `lookahead = -1`, `action = -1`. -/
def emptySlot : lookahead_action := ⟨-1, -1⟩

/-- Stand-in for the content of a cell that `realloc` has not initialised. -/
def indeterminate : lookahead_action := ⟨0, 0⟩

/-- Read of `a[k]`. -/
def rd (a : List lookahead_action) (k : Int) : Except Fault lookahead_action :=
  if k < 0 then .error .outOfBounds
  else match a[k.toNat]? with
    | some s => .ok s
    | none => .error .outOfBounds

/-- Write `a[k] = v`. -/
def wr (a : List lookahead_action) (k : Int) (v : lookahead_action) :
    Except Fault (List lookahead_action) :=
  if k < 0 ∨ (a.length : Int) ≤ k then .error .outOfBounds
  else .ok (a.set k.toNat v)

/-- Block returned by `realloc(a, n * sizeof(a[0]))`: the old cells that still fit, then
indeterminate cells. -/
def realloc (a : List lookahead_action) (n : Nat) : List lookahead_action :=
  a.take n ++ List.replicate (n - a.length) indeterminate

/-- Loops `for(j=lo; j<lo+n; j++){ if( brk j ) break; }`: value of `j` at exit. -/
def scanUp (brk : Nat → Except Fault Bool) : Nat → Nat → Except Fault Nat
  | 0, j => .ok j
  | n + 1, j =>
    match brk j with
    | .error e => .error e
    | .ok true => .ok j
    | .ok false => scanUp brk n (j + 1)

/-- Loops `for(i=n-1; i>=0; i--){ if( brk i ) break; }`: `some i` when left by `break`,
`none` when the loop ran out with `i<0`. -/
def scanDown (brk : Nat → Except Fault Bool) : Nat → Except Fault (Option Nat)
  | 0 => .ok none
  | n + 1 =>
    match brk n with
    | .error e => .error e
    | .ok true => .ok (some n)
    | .ok false => scanDown brk n

/-- The routine `acttab_alloc`: `calloc` zeroes every field; both arrays are null. -/
def acttab_alloc : acttab :=
  { nAction := 0, nActionAlloc := 0, aAction := [], aLookahead := [],
    mnLookahead := 0, mnAction := 0, mxLookahead := 0, nLookahead := 0,
    nLookaheadAlloc := 0 }

/-- The accessor `acttab_size(X)` of `action.h`. -/
def acttab_size (p : acttab) : Nat := p.nAction

/-- The routine `acttab_action(p, lookahead, action)` (lines 132-156). -/
def acttab_action (p : acttab) (lookahead action : Int) : Except Fault acttab :=
  let p1 : acttab :=
    if p.nLookahead ≥ p.nLookaheadAlloc then
      { p with nLookaheadAlloc := p.nLookaheadAlloc + 25,
               aLookahead := realloc p.aLookahead (p.nLookaheadAlloc + 25) }
    else p
  let p2 : acttab :=
    if p1.nLookahead = 0 then
      { p1 with mxLookahead := lookahead, mnLookahead := lookahead, mnAction := action }
    else
      let q : acttab :=
        if p1.mxLookahead < lookahead then { p1 with mxLookahead := lookahead } else p1
      if q.mnLookahead > lookahead then
        { q with mnLookahead := lookahead, mnAction := action }
      else q
  match wr p2.aLookahead p2.nLookahead ⟨lookahead, action⟩ with
  | .error e => .error e
  | .ok a => .ok { p2 with aLookahead := a, nLookahead := p2.nLookahead + 1 }

/-- The loop `for(i=oldAlloc; i<p->nActionAlloc; i++)` of the capacity step, which sets each
new cell to the empty slot; `n` cells remain, `i` is the next one. -/
def fillEmpty : Nat → Nat → List lookahead_action → Except Fault (List lookahead_action)
  | 0, _, a => .ok a
  | n + 1, i, a =>
    match wr a i emptySlot with
    | .error e => .error e
    | .ok a1 => fillEmpty n (i + 1) a1

/-- The capacity step of `acttab_insert` (lines 173-187). -/
def growTable (p : acttab) : Except Fault acttab :=
  let n : Int := p.mxLookahead + 1
  if (p.nAction : Int) + n ≥ p.nActionAlloc then
    let oldAlloc := p.nActionAlloc
    let newAlloc : Nat := ((p.nAction : Int) + n + p.nActionAlloc + 20).toNat
    match fillEmpty (newAlloc - oldAlloc) oldAlloc (realloc p.aAction newAlloc) with
    | .error e => .error e
    | .ok a => .ok { p with nActionAlloc := newAlloc, aAction := a }
  else .ok p

/-- Body of the loop at lines 200-205 for candidate `i`: `true` when it breaks at `j`. -/
def matchBreak (p : acttab) (i : Nat) (j : Nat) : Except Fault Bool :=
  match rd p.aLookahead j with
  | .error e => .error e
  | .ok e =>
    let k : Int := e.lookahead - p.mnLookahead + i
    if k < 0 ∨ k ≥ p.nAction then .ok true
    else match rd p.aAction k with
      | .error e => .error e
      | .ok t =>
        if e.lookahead ≠ t.lookahead then .ok true
        else if e.action ≠ t.action then .ok true
        else .ok false

/-- The counting loop at lines 210-214: `n` cells remain, `j` is the next one, `acc` is the
running value of the C variable `n`. -/
def countClaimed (p : acttab) (i : Nat) : Nat → Nat → Nat → Except Fault Nat
  | 0, _, acc => .ok acc
  | n + 1, j, acc =>
    match rd p.aAction j with
    | .error e => .error e
    | .ok t =>
      if t.lookahead < 0 then countClaimed p i n (j + 1) acc
      else if t.lookahead = (j : Int) + p.mnLookahead - i then countClaimed p i n (j + 1) (acc + 1)
      else countClaimed p i n (j + 1) acc

/-- Body of the exact-match loop (lines 196-218) for index `i`: `true` when the loop is
left by the `break` at line 216, `false` when it goes on to `i-1`. -/
def matchAt (p : acttab) (i : Nat) : Except Fault Bool :=
  match rd p.aAction i with
  | .error e => .error e
  | .ok s =>
    if s.lookahead = p.mnLookahead then
      if s.action ≠ p.mnAction then .ok false
      else match scanUp (matchBreak p i) p.nLookahead 0 with
        | .error e => .error e
        | .ok j =>
          if j < p.nLookahead then .ok false
          else match countClaimed p i p.nAction 0 0 with
            | .error e => .error e
            | .ok n => if n = p.nLookahead then .ok true else .ok false
    else .ok false

/-- Body of the loop at lines 232-236 for candidate `i`: `true` when it breaks at `j`. -/
def holeBreak (p : acttab) (i : Nat) (j : Nat) : Except Fault Bool :=
  match rd p.aLookahead j with
  | .error e => .error e
  | .ok e =>
    let k : Int := e.lookahead - p.mnLookahead + i
    if k < 0 then .ok true
    else match rd p.aAction k with
      | .error e => .error e
      | .ok t => if t.lookahead ≥ 0 then .ok true else .ok false

/-- Body of the loop at lines 238-240 for candidate `i`: `true` when it breaks at `j`. -/
def stealBreak (p : acttab) (i : Nat) (j : Nat) : Except Fault Bool :=
  match rd p.aAction j with
  | .error e => .error e
  | .ok t => if t.lookahead = (j : Int) + p.mnLookahead - i then .ok true else .ok false

/-- Body of the hole-search loop (lines 231-244) for index `i`: `true` when the loop is left
by the `break` at line 242, `false` when it goes on to `i+1`. -/
def holeAt (p : acttab) (i : Nat) : Except Fault Bool :=
  match rd p.aAction i with
  | .error e => .error e
  | .ok s =>
    if s.lookahead < 0 then
      match scanUp (holeBreak p i) p.nLookahead 0 with
      | .error e => .error e
      | .ok j =>
        if j < p.nLookahead then .ok false
        else match scanUp (stealBreak p i) p.nAction 0 with
          | .error e => .error e
          | .ok j2 => if j2 = p.nAction then .ok true else .ok false
    else .ok false

/-- The insertion loop at lines 248-252: `n` entries remain, `j` is the next one. -/
def writeback (i : Nat) : Nat → Nat → acttab → Except Fault acttab
  | 0, _, p => .ok p
  | n + 1, j, p =>
    match rd p.aLookahead j with
    | .error e => .error e
    | .ok e =>
      let k : Int := e.lookahead - p.mnLookahead + i
      match wr p.aAction k e with
      | .error e => .error e
      | .ok a =>
        let p1 : acttab := { p with aAction := a }
        let p2 : acttab := if k ≥ p1.nAction then { p1 with nAction := (k + 1).toNat } else p1
        writeback i n (j + 1) p2

/-- The value of `i` after lines 195-246: the exact-match index, or else the outcome of the
hole search, which runs `i` from `0` while `i < nActionAlloc - mxLookahead`. -/
def findIndex (p : acttab) : Except Fault Nat :=
  match scanDown (matchAt p) p.nAction with
  | .error e => .error e
  | .ok (some i) => .ok i
  | .ok none => scanUp (holeAt p) ((p.nActionAlloc : Int) - p.mxLookahead).toNat 0

/-- The routine `acttab_insert(p)` (lines 165-258): the table after the call and the returned
offset. -/
def acttab_insert (p : acttab) : Except Fault (acttab × Int) :=
  if p.nLookahead = 0 then .error .assertion
  else match growTable p with
    | .error e => .error e
    | .ok p1 =>
      match findIndex p1 with
      | .error e => .error e
      | .ok i =>
        match writeback i p1.nLookahead 0 p1 with
        | .error e => .error e
        | .ok p2 => .ok ({ p2 with nLookahead := 0 }, (i : Int) - p2.mnLookahead)

/-- One transaction: `acttab_action` for each pair of `t` in order. -/
def emitAll : acttab → List lookahead_action → Except Fault acttab
  | p, [] => .ok p
  | p, e :: t =>
    match acttab_action p e.lookahead e.action with
    | .error f => .error f
    | .ok p1 => emitAll p1 t

/-- One state of the driver: emit the pairs of `t`, then `acttab_insert`. -/
def commit (p : acttab) (t : List lookahead_action) : Except Fault (acttab × Int) :=
  match emitAll p t with
  | .error f => .error f
  | .ok p1 => acttab_insert p1

/-- Commit the transactions of `ts` in order; the offsets are returned in the same order. -/
def commitAll : acttab → List (List lookahead_action) → Except Fault (acttab × List Int)
  | p, [] => .ok (p, [])
  | p, t :: ts =>
    match commit p t with
    | .error f => .error f
    | .ok (p1, o) =>
      match commitAll p1 ts with
      | .error f => .error f
      | .ok (p2, os) => .ok (p2, o :: os)

/-! ## Vocabulary of the statements -/

/-- The pending transaction: the used cells `aLookahead[0..nLookahead)`. -/
def txn (p : acttab) : List lookahead_action := p.aLookahead.take p.nLookahead

/-- The states that calls of `acttab_action` (lookahead `≥ 0`) and `acttab_insert` reach from
`acttab_alloc`. -/
inductive Reachable : acttab → Prop
  | alloc : Reachable acttab_alloc
  | action {p q : acttab} {l a : Int} :
      Reachable p → 0 ≤ l → acttab_action p l a = .ok q → Reachable q
  | insert {p q : acttab} {o : Int} :
      Reachable p → acttab_insert p = .ok (q, o) → Reachable q

/-- A transaction the driver may commit: at least one pair, lookaheads `≥ 0` and pairwise
distinct. -/
def ValidTxn (t : List lookahead_action) : Prop :=
  t ≠ [] ∧ (∀ e ∈ t, 0 ≤ e.lookahead) ∧ (t.map (fun e => e.lookahead)).Nodup

/-- Transaction `t` committed at offset `o` reads back from table `p`: every pair `(L, A)` of
`t` has `0 ≤ o + L < nAction` and `aAction[o + L] = (L, A)`. -/
def ReadsBack (p : acttab) (o : Int) (t : List lookahead_action) : Prop :=
  ∀ e ∈ t, 0 ≤ o + e.lookahead ∧ o + e.lookahead < p.nAction ∧
    p.aAction[(o + e.lookahead).toNat]? = some e

/-- Shape of the table and of the transaction buffer between calls. -/
structure TabInv (p : acttab) : Prop where
  len : p.aAction.length = p.nActionAlloc
  le : p.nAction ≤ p.nActionAlloc
  tail : ∀ (k : Nat) (s : lookahead_action),
    p.nAction ≤ k → p.aAction[k]? = some s → s = emptySlot
  pop : ∀ (k : Nat) (s : lookahead_action),
    p.aAction[k]? = some s → s = emptySlot ∨ 0 ≤ s.lookahead
  last : 0 < p.nAction → ∃ s, p.aAction[p.nAction - 1]? = some s ∧ 0 ≤ s.lookahead
  bufLen : p.aLookahead.length = p.nLookaheadAlloc
  bufLe : p.nLookahead ≤ p.nLookaheadAlloc

/-- What `mnLookahead`, `mxLookahead` and `mnAction` record about the pending transaction:
the least and the greatest lookahead, and the action of the first entry with the least. -/
structure Tracked (p : acttab) : Prop where
  lo : ∀ e ∈ txn p, p.mnLookahead ≤ e.lookahead
  hi : ∀ e ∈ txn p, e.lookahead ≤ p.mxLookahead
  first : 0 < p.nLookahead →
    (txn p).find? (fun e => decide (e.lookahead = p.mnLookahead)) =
      some ⟨p.mnLookahead, p.mnAction⟩
  mxIn : 0 < p.nLookahead → ∃ e ∈ txn p, e.lookahead = p.mxLookahead

/-- The pending transaction is tracked and its lookaheads are `≥ 0`. -/
structure TxnInv (p : acttab) : Prop where
  nonneg : ∀ e ∈ txn p, 0 ≤ e.lookahead
  lo : ∀ e ∈ txn p, p.mnLookahead ≤ e.lookahead
  hi : ∀ e ∈ txn p, e.lookahead ≤ p.mxLookahead
  first : 0 < p.nLookahead →
    (txn p).find? (fun e => decide (e.lookahead = p.mnLookahead)) =
      some ⟨p.mnLookahead, p.mnAction⟩
  mxIn : 0 < p.nLookahead → ∃ e ∈ txn p, e.lookahead = p.mxLookahead

/-- The index `k = L - mnLookahead + i` of lines 201, 233 and 249: the slot of lookahead `l`
when the minimum lookahead is placed at `i`. -/
def slotOf (p : acttab) (i : Nat) (l : Int) : Int := l - p.mnLookahead + i

/-- Slot `j` is populated and `aAction[j].lookahead = j + mnLookahead - i` (lines 212-213):
the offset `i - mnLookahead` claims slot `j`. -/
def claims (p : acttab) (i j : Nat) : Bool :=
  match p.aAction[j]? with
  | some t => decide (0 ≤ t.lookahead ∧ t.lookahead = (j : Int) + p.mnLookahead - i)
  | none => false

/-- Number of slots in `[0, nAction)` that the offset `i - mnLookahead` claims. -/
def claimCount (p : acttab) (i : Nat) : Nat := (List.range p.nAction).countP (claims p i)

/-- Every pending entry `(L, A)` is found at slot `L - mnLookahead + i` inside `[0, nAction)`. -/
def HostedAt (p : acttab) (i : Nat) : Prop :=
  ∀ e ∈ txn p, 0 ≤ slotOf p i e.lookahead ∧ slotOf p i e.lookahead < p.nAction ∧
    p.aAction[(slotOf p i e.lookahead).toNat]? = some e

/-- The test of the exact-match phase at index `i`: `aAction[i]` is `(mnLookahead, mnAction)`,
every pending entry is hosted, and the number of claimed slots equals `nLookahead`. -/
def ExactAt (p : acttab) (i : Nat) : Prop :=
  p.aAction[i]? = some ⟨p.mnLookahead, p.mnAction⟩ ∧ HostedAt p i ∧
    claimCount p i = p.nLookahead

/-- The test of the hole search at index `i` (lines 231-243): slot `i` is empty, the slot of
every pending entry is at a non-negative index and empty, and no slot `j` in `[0, nAction)`
has `aAction[j].lookahead = j + mnLookahead - i`. -/
def FitsAt (p : acttab) (i : Nat) : Prop :=
  (∃ s, p.aAction[i]? = some s ∧ s.lookahead < 0) ∧
  (∀ e ∈ txn p, 0 ≤ slotOf p i e.lookahead ∧
    ∃ t, p.aAction[(slotOf p i e.lookahead).toNat]? = some t ∧ t.lookahead < 0) ∧
  (∀ (j : Nat) (t : lookahead_action), j < p.nAction → p.aAction[j]? = some t →
    t.lookahead ≠ (j : Int) + p.mnLookahead - i)

/-- The bound of the hole search: it runs while `i < nActionAlloc - mxLookahead`. -/
def holeBound (p : acttab) : Nat := ((p.nActionAlloc : Int) - p.mxLookahead).toNat

/-- The exact-match phase stops at `i`: the test holds at `i` and at no higher index. -/
def ExactCase (p : acttab) (i : Nat) : Prop :=
  i < p.nAction ∧ ExactAt p i ∧ ∀ x, i < x → x < p.nAction → ¬ ExactAt p x

/-- The exact-match phase finds nothing and the hole search stops at `i`: either at the
first index below the bound that passes its test, or at the bound itself. -/
def HoleCase (p : acttab) (i : Nat) : Prop :=
  (∀ x, x < p.nAction → ¬ ExactAt p x) ∧ i ≤ holeBound p ∧
    (∀ x, x < i → ¬ FitsAt p x) ∧ (i < holeBound p → FitsAt p i) ∧
    (i = holeBound p → 1 ≤ p.mnLookahead)

/-- One run of `acttab_insert` from `p`: `p1` is the state after the capacity step, `i` the
index chosen by the two searches, `q` the state at return. -/
structure Step (p p1 q : acttab) (i : Nat) : Prop where
  grow : growTable p = .ok p1
  same1 : p1 = { p with nActionAlloc := p1.nActionAlloc, aAction := p1.aAction }
  inv1 : TabInv p1
  cap : (p.nAction : Int) + p.mxLookahead + 1 < p1.nActionAlloc
  mono : p.nActionAlloc ≤ p1.nActionAlloc
  old : ∀ k : Nat, k < p.nActionAlloc → p1.aAction[k]? = p.aAction[k]?
  fresh : ∀ (k : Nat) (s : lookahead_action), p.nActionAlloc ≤ k → p1.aAction[k]? = some s →
    s = emptySlot
  find : findIndex p1 = .ok i
  cases : ExactCase p1 i ∨ HoleCase p1 i
  same2 : q = { p1 with aAction := q.aAction, nAction := q.nAction, nLookahead := 0 }
  len : q.aAction.length = p1.aAction.length
  keep : ∀ k : Nat, (∀ e ∈ txn p, slotOf p i e.lookahead ≠ k) → q.aAction[k]? = p1.aAction[k]?
  put : ∀ e ∈ txn p, ∃ e2 ∈ txn p, slotOf p i e2.lookahead = slotOf p i e.lookahead ∧
    q.aAction[(slotOf p i e.lookahead).toNat]? = some e2
  inb : ∀ e ∈ txn p, 0 ≤ slotOf p i e.lookahead ∧ slotOf p i e.lookahead < p1.nActionAlloc
  nle : p.nAction ≤ q.nAction
  nlt : ∀ e ∈ txn p, slotOf p i e.lookahead < q.nAction
  nEq : q.nAction = p.nAction ∨ ∃ e ∈ txn p, (q.nAction : Int) = slotOf p i e.lookahead + 1

/-- Table `q` keeps what table `p` holds: `nAction` has not shrunk and every populated slot
of `p` has the same content in `q`. -/
def Keeps (p q : acttab) : Prop :=
  p.nAction ≤ q.nAction ∧
    ∀ (k : Nat) (s : lookahead_action), p.aAction[k]? = some s → 0 ≤ s.lookahead →
      q.aAction[k]? = some s

/-- The state reached from `acttab_alloc` by committing the transactions of `ts` and then
emitting the pairs of `t` (which are left pending). -/
def stateAfter (ts : List (List lookahead_action)) (t : List lookahead_action) : acttab :=
  match commitAll acttab_alloc ts with
  | .ok (p, _) =>
    match emitAll p t with
    | .ok q => q
    | .error _ => p
  | .error _ => acttab_alloc

/-- A probe of table `p` at offset `o` for lookahead `l` hits: the index `o + l` is inside
`[0, nAction)` and the slot there carries lookahead `l`. -/
def ProbeHits (p : acttab) (o l : Int) : Prop :=
  0 ≤ o + l ∧ o + l < p.nAction ∧
    (p.aAction[(o + l).toNat]?).map (fun s => s.lookahead) = some l

/-- No slot is claimed by two different committed states: `os` are the returned offsets of
the transactions `ts`, in commit order. -/
def NoCollision (os : List Int) (ts : List (List lookahead_action)) : Prop :=
  ∀ (n1 n2 : Nat) (o1 o2 : Int) (t1 t2 : List lookahead_action) (e1 e2 : lookahead_action),
    n1 ≠ n2 → (os.zip ts)[n1]? = some (o1, t1) → (os.zip ts)[n2]? = some (o2, t2) →
    e1 ∈ t1 → e2 ∈ t2 → o1 + e1.lookahead ≠ o2 + e2.lookahead

/-- Slot `k` exists and is empty (`lookahead < 0`). -/
def isEmptyAt (p : acttab) (k : Int) : Bool :=
  decide (0 ≤ k) &&
    match p.aAction[k.toNat]? with
    | some t => decide (t.lookahead < 0)
    | none => false

/-- The constraints of the hole search in the words of the specification: (1) slot `i` is
empty, (2) the slot of every pending entry is empty, (3) no populated slot `j` in
`[0, nAction)` has `aAction[j].lookahead = j + mnLookahead - i`. -/
def SpecFitsAt (p : acttab) (i : Nat) : Prop :=
  isEmptyAt p i = true ∧ (∀ e ∈ txn p, isEmptyAt p (slotOf p i e.lookahead) = true) ∧
    ∀ j, j < p.nAction → claims p i j = false

instance (t : List lookahead_action) : Decidable (ValidTxn t) := by
  unfold ValidTxn
  infer_instance

instance (p : acttab) (o l : Int) : Decidable (ProbeHits p o l) := by
  unfold ProbeHits
  infer_instance

instance (p : acttab) (i : Nat) : Decidable (HostedAt p i) := by
  unfold HostedAt
  infer_instance

instance (p : acttab) (i : Nat) : Decidable (ExactAt p i) := by
  unfold ExactAt
  infer_instance

instance (p : acttab) (i : Nat) : Decidable (SpecFitsAt p i) := by
  unfold SpecFitsAt
  infer_instance

/-! ## The action comparator (`src/action.c`, lines 34-54)

`actioncmp` reads four things of a `struct action`: the index of its lookahead symbol, its
`type`, the `index` of the rule `x.rp` (only for `REDUCE` and `SHIFTREDUCE`), and its address.
The address of a record is modelled by its position `addr` in units of `struct action`, so
that the pointer difference `ap2 - ap1` is `ap2.addr - ap1.addr`.  Each `int` subtraction and
the cast `(int)(ap2 - ap1)` is taken modulo `2^32` into `[-2^31, 2^31)`. -/

/-- The `enum e_action` of `struct.h`, in the order of its declaration. -/
inductive e_action where
  | SHIFT
  | ACCEPT
  | REDUCE
  | ERROR
  | SSCONFLICT
  | SRCONFLICT
  | RRCONFLICT
  | SH_RESOLVED
  | RD_RESOLVED
  | NOT_USED
  | SHIFTREDUCE
deriving DecidableEq

/-- The value `(int)type` of an enumerator: its position in the declaration. -/
def e_action.toInt : e_action → Int
  | .SHIFT => 0
  | .ACCEPT => 1
  | .REDUCE => 2
  | .ERROR => 3
  | .SSCONFLICT => 4
  | .SRCONFLICT => 5
  | .RRCONFLICT => 6
  | .SH_RESOLVED => 7
  | .RD_RESOLVED => 8
  | .NOT_USED => 9
  | .SHIFTREDUCE => 10

/-- The field of `struct symbol` that the comparator reads. -/
structure symbol where
  index : Int
deriving DecidableEq

/-- The fields of `struct rule` used here: `index` ("an index number for this rule"),
`iRule` ("rule number as used in the generated tables") and whether `code` is non-null. -/
structure rule where
  index : Int
  iRule : Int
  code : Bool
deriving DecidableEq

/-- The fields of `struct action` that `actioncmp` reads, and the position of the record. -/
structure action where
  sp : symbol
  type : e_action
  x_rp : rule
  addr : Int
deriving DecidableEq

/-- Conversion of an integer to a 32-bit `int`. -/
def toInt32 (x : Int) : Int := (x + 2147483648) % 4294967296 - 2147483648

/-- The comparator `actioncmp(ap1, ap2)` (lines 38-54). -/
def actioncmp (ap1 ap2 : action) : Int :=
  let rc0 : Int := toInt32 (ap1.sp.index - ap2.sp.index)
  let rc1 : Int := if rc0 = 0 then toInt32 (ap1.type.toInt - ap2.type.toInt) else rc0
  let rc2 : Int :=
    if rc1 = 0 ∧ (ap1.type = e_action.REDUCE ∨ ap1.type = e_action.SHIFTREDUCE) then
      toInt32 (ap1.x_rp.index - ap2.x_rp.index)
    else rc1
  let rc3 : Int := if rc2 = 0 then toInt32 (ap2.addr - ap1.addr) else rc2
  rc3

/-- The ordinal of a kind in the enumeration of the specification: `SHIFT`, `SHIFTREDUCE`,
`REDUCE`, `ACCEPT`, `ERROR`, `NOT_USED`, then the conflict variants `SSCONFLICT`,
`SRCONFLICT`, `RRCONFLICT`, `SH_RESOLVED`, `RD_RESOLVED`. -/
def specOrdinal : e_action → Int
  | .SHIFT => 0
  | .SHIFTREDUCE => 1
  | .REDUCE => 2
  | .ACCEPT => 3
  | .ERROR => 4
  | .NOT_USED => 5
  | .SSCONFLICT => 6
  | .SRCONFLICT => 7
  | .RRCONFLICT => 8
  | .SH_RESOLVED => 9
  | .RD_RESOLVED => 10

/-- A value of a non-negative `int`. -/
def NonNegInt (x : Int) : Prop := 0 ≤ x ∧ x < 2147483648

/-- The symbol index and the rule index of the record are non-negative `int`s. -/
def action.InRange (a : action) : Prop := NonNegInt a.sp.index ∧ NonNegInt a.x_rp.index

/-- The difference of the positions of two records fits in an `int`. -/
def AddrFits (a b : action) : Prop :=
  -2147483648 ≤ b.addr - a.addr ∧ b.addr - a.addr < 2147483648

/-- The key that the comparator uses at its third step: the rule index for `REDUCE` and
`SHIFTREDUCE`, nothing (`0`) for the other kinds. -/
def ruleKey (a : action) : Int :=
  if a.type = e_action.REDUCE ∨ a.type = e_action.SHIFTREDUCE then a.x_rp.index else 0

instance (x : Int) : Decidable (NonNegInt x) := by
  unfold NonNegInt
  infer_instance

instance (a : action) : Decidable (action.InRange a) := by
  unfold action.InRange
  infer_instance

instance (a b : action) : Decidable (AddrFits a b) := by
  unfold AddrFits
  infer_instance

/-! ## Sorting the rule list (`src/main.c`, lines 173-219)

A list of rules linked through `next` is a `List rule`; the null pointer is `[]`. -/

/-- The loop of `Rule_merge` (lines 177-187) followed by lines 188-192; `n` bounds the number
of iterations that remain.  Each iteration moves the head of `pA` (when its `iRule` is
smaller) or else the head of `pB` to the end of the merged list. -/
def mergeLoop : Nat → List rule → List rule → List rule
  | _, [], pB => pB
  | _, a :: pA, [] => a :: pA
  | 0, _ :: _, _ :: _ => []
  | n + 1, a :: pA, b :: pB =>
    if a.iRule < b.iRule then a :: mergeLoop n pA (b :: pB)
    else b :: mergeLoop n (a :: pA) pB

/-- The routine `Rule_merge(pA, pB)`: the loop runs at most once per rule of either list. -/
def Rule_merge (pA pB : List rule) : List rule :=
  mergeLoop (pA.length + pB.length) pA pB

/-- The loop at lines 207-210 and the store `x[i] = rp` of line 211, on the cells `x[i..32)`.
The loop stops at the first null cell; when there is none, `i` reaches `32` and line 211
writes past the end of `x`. -/
def carry : List (List rule) → List rule → Except Fault (List (List rule))
  | [], _ => .error .outOfBounds
  | [] :: xs, rp => .ok (rp :: xs)
  | (r :: b) :: xs, rp =>
    match carry xs (Rule_merge (r :: b) rp) with
    | .error e => .error e
    | .ok xs1 => .ok ([] :: xs1)

/-- The loop at lines 204-213: each rule of the list is cut off (`rp->next = 0`) and carried
into the array `x`. -/
def sortLoop : List rule → List (List rule) → Except Fault (List (List rule))
  | [], x => .ok x
  | r :: rest, x =>
    match carry x [r] with
    | .error e => .error e
    | .ok x1 => sortLoop rest x1

/-- The routine `Rule_sort(rp)` (lines 199-219): `x` starts as 32 null cells, and the final
loop merges the cells in order of their index. -/
def Rule_sort (rp : List rule) : Except Fault (List rule) :=
  match sortLoop rp (List.replicate 32 []) with
  | .error e => .error e
  | .ok x => .ok (x.foldl (fun acc b => Rule_merge b acc) [])

/-- The list is in non-decreasing `iRule` order. -/
def RuleSorted (l : List rule) : Prop := l.Pairwise (fun a b => a.iRule ≤ b.iRule)

/-- Shape of the cells `x[k..)` of the array of `Rule_sort`: cell `k + i` is null or a sorted
list of `2^(k+i)` rules. -/
def Buckets : Nat → List (List rule) → Prop
  | _, [] => True
  | k, b :: xs => (b = [] ∨ b.length = 2 ^ k) ∧ RuleSorted b ∧ Buckets (k + 1) xs

/-! ## Text formatting (`main.c`)

A `char` buffer is a list of byte values; a `char *` argument is the block of bytes that
starts at the pointer.  Reads and writes outside the block are faults. -/

/-- Read the byte `z[k]`. -/
def rdc (z : List Nat) (k : Int) : Except Fault Nat :=
  if k < 0 then .error .outOfBounds
  else match z[k.toNat]? with
    | some c => .ok c
    | none => .error .outOfBounds

/-- Write the byte `z[k] = c`. -/
def wrc (z : List Nat) (k : Int) (c : Nat) : Except Fault (List Nat) :=
  if k < 0 ∨ (z.length : Int) ≤ k then .error .outOfBounds
  else .ok (z.set k.toNat c)

/-- The loop `for(nIn=0; zIn[nIn]; nIn++){}` of line 30, on the bytes from `zIn[nIn]` on. -/
def strlenLoop : List Nat → Int → Except Fault Int
  | [], _ => .error .outOfBounds
  | c :: rest, nIn => if c = 0 then .ok nIn else strlenLoop rest (nIn + 1)

/-- The padding loops of lines 31 and 35, `zBuf[(*pnUsed)++] = ' '`, with the number of
rounds left. -/
def padLoop : Nat → List Nat → Int → Except Fault (List Nat × Int)
  | 0, zBuf, nUsed => .ok (zBuf, nUsed)
  | n + 1, zBuf, nUsed =>
    match wrc zBuf nUsed 32 with
    | .error e => .error e
    | .ok zBuf1 => padLoop n zBuf1 (nUsed + 1)

/-- The call `memcpy(&zBuf[nUsed], zIn, nIn)` of line 33, byte by byte; the first argument
is the number of bytes left and `k` the number already copied. -/
def memcpyLoop : Nat → List Nat → Int → List Nat → Int → Except Fault (List Nat)
  | 0, zBuf, _, _, _ => .ok zBuf
  | n + 1, zBuf, nUsed, zIn, k =>
    match rdc zIn k with
    | .error e => .error e
    | .ok c =>
      match wrc zBuf (nUsed + k) c with
      | .error e => .error e
      | .ok zBuf1 => memcpyLoop n zBuf1 nUsed zIn (k + 1)

/-- The routine `lemon_addtext(zBuf, pnUsed, zIn, nIn, iWidth)` (lines 23-37); the result is
the buffer and `*pnUsed` after the call. -/
def lemon_addtext (zBuf : List Nat) (nUsed : Int) (zIn : List Nat) (nIn iWidth : Int) :
    Except Fault (List Nat × Int) :=
  match (if nIn < 0 then strlenLoop zIn 0 else .ok nIn) with
  | .error e => .error e
  | .ok nIn1 =>
    match padLoop (iWidth - nIn1).toNat zBuf nUsed with
    | .error e => .error e
    | .ok (zBuf1, nUsed1) =>
      let iWidth1 : Int := if iWidth > nIn1 then nIn1 else iWidth
      if nIn1 = 0 then .ok (zBuf1, nUsed1)
      else
        match memcpyLoop nIn1.toNat zBuf1 nUsed1 zIn 0 with
        | .error e => .error e
        | .ok zBuf2 =>
          match padLoop (-iWidth1 - nIn1).toNat zBuf2 (nUsed1 + nIn1) with
          | .error e => .error e
          | .ok (zBuf3, nUsed3) =>
            match wrc zBuf3 nUsed3 0 with
            | .error e => .error e
            | .ok zBuf4 => .ok (zBuf4, nUsed3)

/-- Every populated slot `k` of table `p` holds a pair `(L, A)` of one of the committed
transactions `l` (pairs of returned offset and transaction), whose offset is `k - L`. -/
def Owned (p : acttab) (l : List (Int × List lookahead_action)) : Prop :=
  ∀ (k : Nat) (s : lookahead_action), p.aAction[k]? = some s → 0 ≤ s.lookahead →
    ∃ ot ∈ l, s ∈ ot.2 ∧ ot.1 = (k : Int) - s.lookahead

/-- Two states that differ at most in the order in which the pending entries were emitted:
the table and the tracked values agree and the pending transactions have the same pairs. -/
structure SameTxn (p p2 : acttab) : Prop where
  nAction : p.nAction = p2.nAction
  nActionAlloc : p.nActionAlloc = p2.nActionAlloc
  aAction : p.aAction = p2.aAction
  mn : p.mnLookahead = p2.mnLookahead
  mnAction : p.mnAction = p2.mnAction
  mx : p.mxLookahead = p2.mxLookahead
  nLookahead : p.nLookahead = p2.nLookahead
  mem : ∀ e, e ∈ txn p ↔ e ∈ txn p2

/-! ## Rule numbers (`main.c`, lines 316-324) -/

/-- The loop of lines 317-319, `rp->iRule = rp->code ? i++ : -1`, over the list linked
through `next`: the list after the loop and the value of `i` at exit. -/
def numberCoded : List rule → Int → List rule × Int
  | [], i => ([], i)
  | rp :: rest, i =>
    if rp.code then
      ({ rp with iRule := i } :: (numberCoded rest (i + 1)).1, (numberCoded rest (i + 1)).2)
    else
      ({ rp with iRule := -1 } :: (numberCoded rest i).1, (numberCoded rest i).2)

/-- The loop of lines 320-322, `if( rp->iRule<0 ) rp->iRule = i++`: the list after the loop
and the value of `i` at exit. -/
def numberUncoded : List rule → Int → List rule × Int
  | [], i => ([], i)
  | rp :: rest, i =>
    if rp.iRule < 0 then
      ({ rp with iRule := i } :: (numberUncoded rest (i + 1)).1,
        (numberUncoded rest (i + 1)).2)
    else
      (rp :: (numberUncoded rest i).1, (numberUncoded rest i).2)

/-- Lines 317-322 of `main`: the first loop starts at `i = 0`, the second goes on from the
value of `i` the first one left. -/
def numberRules (l : List rule) : List rule :=
  (numberUncoded (numberCoded l 0).1 (numberCoded l 0).2).1

/-! ## The formatter `lemon_vsprintf` (`main.c`, lines 38-97)

The format and every string argument are blocks of bytes that end in a `0` byte.  The
variable arguments are a list that `va_arg` consumes from the front.  `int` arithmetic that
can leave the 32-bit range (`-v`, `iWidth*10 + ..`) is taken modulo `2^32`. -/

/-- One variable argument: an `int`, or a `const char *` given by the bytes it points to. -/
inductive VaArg where
  | int (v : Int)
  | str (z : List Nat)
deriving DecidableEq

/-- The ways `lemon_vsprintf` can fail to return: a fault, the `exit(1)` of line 82
("illegal format"), or a `va_arg` that finds no argument of the type it asks for. -/
inductive Halt where
  | fault (f : Fault)
  | illegalFormat
  | vaArg
deriving DecidableEq

/-- A call of `lemon_addtext` inside `lemon_vsprintf`. -/
def addtext (zBuf : List Nat) (nUsed : Int) (zIn : List Nat) (nIn iWidth : Int) :
    Except Halt (List Nat × Int) :=
  match lemon_addtext zBuf nUsed zIn nIn iWidth with
  | .error e => .error (.fault e)
  | .ok r => .ok r

/-- The macro `ISDIGIT(X)` of `config.h`, `isdigit((unsigned char)(X))`. -/
def ISDIGIT (c : Nat) : Bool := decide (48 ≤ c ∧ c ≤ 57)

/-- The loop of line 51, `while( ISDIGIT(zFormat[i]) ) iWidth = iWidth*10 + zFormat[i++] - '0'`:
the values of `i` and `iWidth` at exit.  The first argument is the number of bytes of the
block from `zFormat[i]` on, plus one. -/
def widthLoop : Nat → List Nat → Nat → Int → Except Halt (Nat × Int)
  | 0, _, _, _ => .error (.fault .outOfBounds)
  | n + 1, zFormat, i, iWidth =>
    match rdc zFormat i with
    | .error e => .error (.fault e)
    | .ok c =>
      if ISDIGIT c then widthLoop n zFormat (i + 1) (toInt32 (iWidth * 10 + c - 48))
      else .ok (i, iWidth)

/-- Lines 49-54: the optional field width after `%`.  `i` is the index of the byte `c` that
follows the `%`; the result is the new `i`, `iWidth` and the conversion byte `c`. -/
def parseWidth (zFormat : List Nat) (i : Nat) (c : Nat) : Except Halt (Nat × Int × Nat) :=
  let test : Except Halt Bool :=
    if ISDIGIT c then .ok true
    else if c = 45 then
      match rdc zFormat (i + 1) with
      | .error e => .error (.fault e)
      | .ok d => .ok (ISDIGIT d)
    else .ok false
  match test with
  | .error e => .error e
  | .ok false => .ok (i, 0, c)
  | .ok true =>
    let i1 : Nat := if c = 45 then i + 1 else i
    match widthLoop (zFormat.length + 1 - i1) zFormat i1 0 with
    | .error e => .error e
    | .ok (i2, w) =>
      let iWidth : Int := if c = 45 then toInt32 (-w) else w
      match rdc zFormat i2 with
      | .error e => .error (.fault e)
      | .ok c2 => .ok (i2, iWidth, c2)

/-- The loop of lines 64-68, which stores the digits of `v` from the end of `zTemp[50]`
backwards: the bytes `zTemp[50-k .. 50)` at exit.  The first argument is the number of cells
of `zTemp` still free. -/
def digitLoop : Nat → Int → List Nat → Except Halt (List Nat)
  | 0, v, zTemp => if v > 0 then .error (.fault .outOfBounds) else .ok zTemp
  | n + 1, v, zTemp =>
    if v > 0 then digitLoop n (v / 10) ((v % 10 + 48).toNat :: zTemp) else .ok zTemp

/-- The conversion `%d` (lines 55-69) for the argument `v`. -/
def fmtInt (str : List Nat) (nUsed : Int) (v iWidth : Int) : Except Halt (List Nat × Int) :=
  let sign : Except Halt ((List Nat × Int) × Int) :=
    if v < 0 then
      match addtext str nUsed [45, 0] 1 iWidth with
      | .error e => .error e
      | .ok r => .ok (r, toInt32 (-v))
    else if v = 0 then
      match addtext str nUsed [48, 0] 1 iWidth with
      | .error e => .error e
      | .ok r => .ok (r, v)
    else .ok ((str, nUsed), v)
  match sign with
  | .error e => .error e
  | .ok ((str1, nUsed1), v1) =>
    match digitLoop 50 v1 [] with
    | .error e => .error e
    | .ok zTemp => addtext str1 nUsed1 zTemp zTemp.length iWidth

/-- The conversion selected by the byte `c` at `zFormat[i]` (lines 55-83): the buffer,
`nUsed`, the arguments left and `i` after it. -/
def convert (zFormat : List Nat) (ap : List VaArg) (i : Nat) (c : Nat) (iWidth : Int)
    (str : List Nat) (nUsed : Int) : Except Halt (List Nat × Int × List VaArg × Nat) :=
  if c = 100 then
    match ap with
    | .int v :: ap1 =>
      match fmtInt str nUsed v iWidth with
      | .error e => .error e
      | .ok (str1, nUsed1) => .ok (str1, nUsed1, ap1, i)
    | _ => .error .vaArg
  else if c = 115 then
    match ap with
    | .str z :: ap1 =>
      match addtext str nUsed z (-1) iWidth with
      | .error e => .error e
      | .ok (str1, nUsed1) => .ok (str1, nUsed1, ap1, i)
    | _ => .error .vaArg
  else
    let dotStar : Except Halt Bool :=
      if c = 46 then
        match rdc zFormat (i + 1), rdc zFormat (i + 2) with
        | .ok c1, .ok c2 => .ok (decide (c1 = 42 ∧ c2 = 115))
        | _, _ => .error (.fault .outOfBounds)
      else .ok false
    match dotStar with
    | .error e => .error e
    | .ok true =>
      match ap with
      | .int k :: .str z :: ap1 =>
        match addtext str nUsed z k iWidth with
        | .error e => .error e
        | .ok (str1, nUsed1) => .ok (str1, nUsed1, ap1, i + 2)
      | _ => .error .vaArg
    | .ok false =>
      if c = 37 then
        match addtext str nUsed [37, 0] 1 0 with
        | .error e => .error e
        | .ok (str1, nUsed1) => .ok (str1, nUsed1, ap, i)
      else .error .illegalFormat

/-- The loop of lines 44-86 and the call of line 87.  The first argument is the number of
bytes of the format from `zFormat[i]` on, plus one. -/
def fmtLoop : Nat → List Nat → List VaArg → Nat → Nat → List Nat → Int →
    Except Halt (List Nat × Int)
  | 0, _, _, _, _, _, _ => .error (.fault .outOfBounds)
  | n + 1, zFormat, ap, i, j, str, nUsed =>
    match rdc zFormat i with
    | .error e => .error (.fault e)
    | .ok c =>
      if c = 0 then addtext str nUsed (zFormat.drop j) ((i : Int) - j) 0
      else if c = 37 then
        match addtext str nUsed (zFormat.drop j) ((i : Int) - j) 0 with
        | .error e => .error e
        | .ok (str1, nUsed1) =>
          match rdc zFormat (i + 1) with
          | .error e => .error (.fault e)
          | .ok c1 =>
            match parseWidth zFormat (i + 1) c1 with
            | .error e => .error e
            | .ok (i2, iWidth, c2) =>
              match convert zFormat ap i2 c2 iWidth str1 nUsed1 with
              | .error e => .error e
              | .ok (str2, nUsed2, ap2, i3) =>
                fmtLoop n zFormat ap2 (i3 + 1) (i3 + 1) str2 nUsed2
      else fmtLoop n zFormat ap (i + 1) j str nUsed

/-- The routine `lemon_vsprintf(str, zFormat, ap)` (lines 38-89): the buffer after the call
and the returned count. -/
def lemon_vsprintf (str : List Nat) (zFormat : List Nat) (ap : List VaArg) :
    Except Halt (List Nat × Int) :=
  match wrc str 0 0 with
  | .error e => .error (.fault e)
  | .ok str1 => fmtLoop (zFormat.length + 1) zFormat ap 0 0 str1 0

/-- The routine `lemon_sprintf(str, format, ...)` (lines 90-97). -/
def lemon_sprintf (str : List Nat) (format : List Nat) (ap : List VaArg) :
    Except Halt (List Nat × Int) :=
  lemon_vsprintf str format ap

/-- The bytes of a text, without terminator. -/
def text (s : String) : List Nat := s.toList.map Char.toNat

/-- The block of a string literal: its bytes and the terminating `0`. -/
def cstr (s : String) : List Nat := text s ++ [0]

/-! ## Memory accesses -/

theorem rd_eq_ok {a : List lookahead_action} {k : Int} {s : lookahead_action} :
    rd a k = .ok s ↔ 0 ≤ k ∧ a[k.toNat]? = some s := by
  unfold rd
  by_cases hk : k < 0
  · simp [hk]
  · simp only [hk, if_false]
    cases h : a[k.toNat]? with
    | none => simp
    | some t => simp; omega

theorem rd_of_get {a : List lookahead_action} {k : Int} {s : lookahead_action}
    (hk : 0 ≤ k) (h : a[k.toNat]? = some s) : rd a k = .ok s :=
  rd_eq_ok.mpr ⟨hk, h⟩

theorem rd_nat {a : List lookahead_action} {i : Nat} {s : lookahead_action}
    (h : a[i]? = some s) : rd a (i : Int) = .ok s :=
  rd_eq_ok.mpr ⟨by omega, by simpa using h⟩

theorem wr_ok {a : List lookahead_action} {k : Int} (v : lookahead_action)
    (h0 : 0 ≤ k) (h1 : k < a.length) : wr a k v = .ok (a.set k.toNat v) := by
  unfold wr
  rw [if_neg]
  omega

theorem wr_nat {a : List lookahead_action} {i : Nat} (v : lookahead_action)
    (h1 : i < a.length) : wr a (i : Int) v = .ok (a.set i v) := by
  rw [wr_ok v (by omega) (by omega)]
  simp

theorem get_of_lt {a : List lookahead_action} {i : Nat} (h : i < a.length) :
    ∃ s, a[i]? = some s :=
  ⟨a[i], List.getElem?_eq_getElem h⟩

theorem lt_of_get {a : List lookahead_action} {i : Nat} {s : lookahead_action}
    (h : a[i]? = some s) : i < a.length := by
  rcases List.getElem?_eq_some.mp h with ⟨h1, _⟩
  exact h1

/-! ## Loops -/

theorem scanUp_spec (brk : Nat → Except Fault Bool) (P : Nat → Prop) :
    ∀ n j, (∀ x, j ≤ x → x < j + n → ∃ b, brk x = .ok b ∧ (b = true ↔ P x)) →
      ∃ r, scanUp brk n j = .ok r ∧ j ≤ r ∧ r ≤ j + n ∧
        (∀ x, j ≤ x → x < r → ¬ P x) ∧ (r < j + n → P r) := by
  intro n
  induction n with
  | zero =>
    intro j _
    exact ⟨j, rfl, le_refl _, le_refl _, fun x h1 h2 => by omega, fun h => by omega⟩
  | succ n ih =>
    intro j h
    obtain ⟨b, hb, hP⟩ := h j (le_refl _) (by omega)
    cases b with
    | true =>
      refine ⟨j, ?_, le_refl _, by omega, fun x h1 h2 => by omega, fun _ => hP.mp rfl⟩
      simp [scanUp, hb]
    | false =>
      obtain ⟨r, hr, h1, h2, h3, h4⟩ := ih (j + 1) (fun x hx1 hx2 => h x (by omega) (by omega))
      refine ⟨r, ?_, by omega, by omega, ?_, fun hlt => h4 (by omega)⟩
      · simp [scanUp, hb, hr]
      · intro x hx1 hx2
        by_cases hxj : x = j
        · subst hxj
          intro hp
          have := hP.mpr hp
          simp at this
        · exact h3 x (by omega) hx2

theorem scanDown_spec (brk : Nat → Except Fault Bool) (P : Nat → Prop) :
    ∀ n, (∀ x, x < n → ∃ b, brk x = .ok b ∧ (b = true ↔ P x)) →
      (∃ i, scanDown brk n = .ok (some i) ∧ i < n ∧ P i ∧ ∀ x, i < x → x < n → ¬ P x) ∨
      (scanDown brk n = .ok none ∧ ∀ x, x < n → ¬ P x) := by
  intro n
  induction n with
  | zero =>
    intro _
    exact Or.inr ⟨rfl, fun x hx => by omega⟩
  | succ n ih =>
    intro h
    obtain ⟨b, hb, hP⟩ := h n (by omega)
    cases b with
    | true =>
      refine Or.inl ⟨n, ?_, by omega, hP.mp rfl, fun x h1 h2 => by omega⟩
      simp [scanDown, hb]
    | false =>
      have hn : ¬ P n := fun hp => by
        have := hP.mpr hp
        simp at this
      rcases ih (fun x hx => h x (by omega)) with ⟨i, hi, h1, h2, h3⟩ | ⟨hi, h1⟩
      · refine Or.inl ⟨i, ?_, by omega, h2, ?_⟩
        · simp [scanDown, hb, hi]
        · intro x hx1 hx2
          by_cases hxn : x = n
          · subst hxn; exact hn
          · exact h3 x hx1 (by omega)
      · refine Or.inr ⟨?_, ?_⟩
        · simp [scanDown, hb, hi]
        · intro x hx
          by_cases hxn : x = n
          · subst hxn; exact hn
          · exact h1 x (by omega)

/-! ## The transaction buffer -/

theorem realloc_of_le {a : List lookahead_action} {n : Nat} (h : a.length ≤ n) :
    realloc a n = a ++ List.replicate (n - a.length) indeterminate := by
  unfold realloc
  rw [List.take_of_length_le h]

theorem txn_length {p : acttab} (h : p.nLookahead ≤ p.aLookahead.length) :
    (txn p).length = p.nLookahead := by
  simp [txn, h]

theorem txn_get {p : acttab} {j : Nat} (h : j < p.nLookahead) :
    (txn p)[j]? = p.aLookahead[j]? := by
  simp [txn, List.getElem?_take, h]

theorem mem_txn_iff {p : acttab} {e : lookahead_action} :
    e ∈ txn p ↔ ∃ j, j < p.nLookahead ∧ p.aLookahead[j]? = some e := by
  constructor
  · intro h
    obtain ⟨j, hj⟩ := List.getElem?_of_mem h
    have hlt : j < p.nLookahead := by
      have := lt_of_get hj
      simp [txn] at this
      omega
    exact ⟨j, hlt, by rw [← txn_get hlt]; exact hj⟩
  · rintro ⟨j, hlt, hj⟩
    exact List.getElem?_mem (by rw [txn_get hlt]; exact hj)

theorem txn_eq_nil {p : acttab} (h : p.nLookahead = 0) : txn p = [] := by
  simp [txn, h]

theorem txnInv_of_empty {p : acttab} (h : p.nLookahead = 0) : TxnInv p := by
  have hn := txn_eq_nil h
  constructor
  · intro e he; rw [hn] at he; cases he
  · intro e he; rw [hn] at he; cases he
  · intro e he; rw [hn] at he; cases he
  · intro h0; omega
  · intro h0; omega

/-- The cell written by `acttab_action` extends the pending transaction by one entry. -/
theorem take_set_succ (b : List lookahead_action) (n : Nat) (v : lookahead_action)
    (h : n < b.length) : (b.set n v).take (n + 1) = b.take n ++ [v] := by
  rw [List.take_succ]
  have h1 : (b.set n v)[n]? = some v := by
    rw [List.getElem?_set_self h]
  rw [h1]
  have h2 : (b.set n v).take n = b.take n := by
    apply List.ext_getElem?
    intro m
    by_cases hm : m < n
    · rw [List.getElem?_take_of_lt hm, List.getElem?_take_of_lt hm,
        List.getElem?_set_ne (by omega)]
    · rw [List.getElem?_eq_none (by simp; omega), List.getElem?_eq_none (by simp; omega)]
  rw [h2]
  rfl

/-- Effect of one `acttab_action` on a well-formed state. -/
theorem action_spec {p : acttab} (hb : p.aLookahead.length = p.nLookaheadAlloc)
    (hl : p.nLookahead ≤ p.nLookaheadAlloc) (l a : Int) :
    ∃ b A, acttab_action p l a = .ok
        { p with
          aLookahead := b, nLookaheadAlloc := A, nLookahead := p.nLookahead + 1,
          mnLookahead := if p.nLookahead = 0 then l else min p.mnLookahead l,
          mxLookahead := if p.nLookahead = 0 then l else max p.mxLookahead l,
          mnAction := if p.nLookahead = 0 ∨ l < p.mnLookahead then a else p.mnAction } ∧
      b.length = A ∧ p.nLookahead + 1 ≤ A ∧ b.take (p.nLookahead + 1) = txn p ++ [⟨l, a⟩] := by
  by_cases hfull : p.nLookahead ≥ p.nLookaheadAlloc
  · -- the buffer is reallocated
    have hre : realloc p.aLookahead (p.nLookaheadAlloc + 25) =
        p.aLookahead ++ List.replicate 25 indeterminate := by
      rw [realloc_of_le (by omega)]
      congr 2
      omega
    have hlen : p.nLookahead < (p.aLookahead ++ List.replicate 25 indeterminate).length := by
      simp; omega
    refine ⟨(p.aLookahead ++ List.replicate 25 indeterminate).set p.nLookahead ⟨l, a⟩,
      p.nLookaheadAlloc + 25, ?_, by simp; omega, by omega, ?_⟩
    · unfold acttab_action
      simp only [if_pos hfull, hre]
      by_cases h0 : p.nLookahead = 0
      · simp only [if_pos h0, wr_nat _ hlen]
        simp [h0]
      · by_cases h1 : p.mxLookahead < l <;> by_cases h2 : l < p.mnLookahead <;>
          simp only [if_neg h0, h1, h2, if_true, if_false, gt_iff_lt, wr_nat _ hlen] <;>
          simp [h0, h1, h2] <;> omega
    · rw [take_set_succ _ _ _ hlen]
      congr 1
      unfold txn
      rw [List.take_append_of_le_length (by omega)]
  · have hlen : p.nLookahead < p.aLookahead.length := by omega
    refine ⟨p.aLookahead.set p.nLookahead ⟨l, a⟩, p.nLookaheadAlloc, ?_, by simp; omega,
      by omega, ?_⟩
    · unfold acttab_action
      simp only [if_neg hfull]
      by_cases h0 : p.nLookahead = 0
      · simp only [if_pos h0, wr_nat _ hlen]
        simp [h0]
      · by_cases h1 : p.mxLookahead < l <;> by_cases h2 : l < p.mnLookahead <;>
          simp only [if_neg h0, h1, h2, if_true, if_false, gt_iff_lt, wr_nat _ hlen] <;>
          simp [h0, h1, h2] <;> omega
    · rw [take_set_succ _ _ _ hlen]
      rfl

/-- One `acttab_action` appends its pair to the transaction and keeps `mnLookahead`,
`mxLookahead` and `mnAction` up to date. -/
theorem action_tracked {p : acttab} (hb : p.aLookahead.length = p.nLookaheadAlloc)
    (hl : p.nLookahead ≤ p.nLookaheadAlloc) (hX : Tracked p) (l a : Int) :
    ∃ q, acttab_action p l a = .ok q ∧ Tracked q ∧
      txn q = txn p ++ [⟨l, a⟩] ∧ q.nLookahead = p.nLookahead + 1 ∧
      q.nAction = p.nAction ∧ q.nActionAlloc = p.nActionAlloc ∧ q.aAction = p.aAction ∧
      q.aLookahead.length = q.nLookaheadAlloc ∧ q.nLookahead ≤ q.nLookaheadAlloc := by
  obtain ⟨b, A, hq, hbA, hA, htake⟩ := action_spec hb hl l a
  refine ⟨_, hq, ?_, htake, rfl, rfl, rfl, rfl, hbA, hA⟩
  · have hmem : ∀ e, e ∈ txn p ++ [(⟨l, a⟩ : lookahead_action)] →
        e ∈ txn p ∨ e = ⟨l, a⟩ := by
      intro e he
      simpa using he
    by_cases h0 : p.nLookahead = 0
    · have hnil : txn p = [] := txn_eq_nil h0
      constructor
      · intro e he
        have he2 : e ∈ txn p ++ [(⟨l, a⟩ : lookahead_action)] := htake ▸ he
        rcases hmem e he2 with h | h
        · rw [hnil] at h; cases h
        · subst h; simp [h0]
      · intro e he
        have he2 : e ∈ txn p ++ [(⟨l, a⟩ : lookahead_action)] := htake ▸ he
        rcases hmem e he2 with h | h
        · rw [hnil] at h; cases h
        · subst h; simp [h0]
      · intro _
        show List.find? _ (List.take (p.nLookahead + 1) b) = _
        rw [htake, hnil]
        simp [h0]
      · intro _
        refine ⟨⟨l, a⟩, ?_, by simp [h0]⟩
        show _ ∈ List.take (p.nLookahead + 1) b
        rw [htake]
        simp
    · have hpos : 0 < p.nLookahead := Nat.pos_of_ne_zero h0
      constructor
      · intro e he
        have he2 : e ∈ txn p ++ [(⟨l, a⟩ : lookahead_action)] := htake ▸ he
        rcases hmem e he2 with h | h
        · have := hX.lo e h
          simp only [if_neg h0]
          exact le_trans (min_le_left _ _) this
        · subst h
          simp only [if_neg h0]
          exact min_le_right _ _
      · intro e he
        have he2 : e ∈ txn p ++ [(⟨l, a⟩ : lookahead_action)] := htake ▸ he
        rcases hmem e he2 with h | h
        · have := hX.hi e h
          simp only [if_neg h0]
          exact le_trans this (le_max_left _ _)
        · subst h
          simp only [if_neg h0]
          exact le_max_right _ _
      · intro _
        show List.find? _ (List.take (p.nLookahead + 1) b) = _
        rw [htake, List.find?_append]
        simp only [if_neg h0]
        by_cases hlt : l < p.mnLookahead
        · have hmin : min p.mnLookahead l = l := min_eq_right (le_of_lt hlt)
          have hnone : List.find? (fun e => decide (e.lookahead = l)) (txn p) = none := by
            rw [List.find?_eq_none]
            intro e he
            have := hX.lo e he
            simp
            omega
          rw [hmin, hnone]
          simp [hlt]
        · have hmin : min p.mnLookahead l = p.mnLookahead := min_eq_left (by omega)
          rw [hmin, hX.first hpos]
          simp [h0, hlt]
      · intro _
        by_cases hlt : p.mxLookahead < l
        · refine ⟨⟨l, a⟩, ?_, ?_⟩
          · show _ ∈ List.take (p.nLookahead + 1) b
            rw [htake]
            simp
          · simp only [if_neg h0]
            exact (max_eq_right (le_of_lt hlt)).symm
        · obtain ⟨e, he, hemx⟩ := hX.mxIn hpos
          refine ⟨e, ?_, ?_⟩
          · show _ ∈ List.take (p.nLookahead + 1) b
            rw [htake]
            simp [he]
          · simp only [if_neg h0]
            rw [hemx]
            exact (max_eq_left (by omega)).symm


theorem tracked_of_empty {p : acttab} (h : p.nLookahead = 0) : Tracked p := by
  have hn := txn_eq_nil h
  constructor
  · intro e he; rw [hn] at he; cases he
  · intro e he; rw [hn] at he; cases he
  · intro h0; omega
  · intro h0; omega

/-- One `acttab_action` keeps the invariants and appends its pair to the transaction. -/
theorem action_inv {p : acttab} (hT : TabInv p) (hX : TxnInv p) {l : Int} (hl : 0 ≤ l)
    (a : Int) :
    ∃ q, acttab_action p l a = .ok q ∧ TabInv q ∧ TxnInv q ∧
      txn q = txn p ++ [⟨l, a⟩] ∧ q.nLookahead = p.nLookahead + 1 ∧
      q.nAction = p.nAction ∧ q.nActionAlloc = p.nActionAlloc ∧ q.aAction = p.aAction := by
  obtain ⟨q, hq, hTr, htx, hn, h1, h2, h3, h4, h5⟩ :=
    action_tracked hT.bufLen hT.bufLe ⟨hX.lo, hX.hi, hX.first, hX.mxIn⟩ l a
  refine ⟨q, hq, ?_, ?_, htx, hn, h1, h2, h3⟩
  · refine ⟨by rw [h3, h2]; exact hT.len, by rw [h1, h2]; exact hT.le, ?_, ?_, ?_, h4, h5⟩
    · intro k s hk hs
      rw [h3] at hs
      rw [h1] at hk
      exact hT.tail k s hk hs
    · intro k s hs
      rw [h3] at hs
      exact hT.pop k s hs
    · intro hpos
      rw [h1] at hpos ⊢
      rw [h3]
      exact hT.last hpos
  · refine ⟨?_, hTr.lo, hTr.hi, hTr.first, hTr.mxIn⟩
    intro e he
    rw [htx] at he
    rcases List.mem_append.mp he with h | h
    · exact hX.nonneg e h
    · rw [List.mem_singleton.mp h]
      exact hl

/-- Emitting a whole transaction. -/
theorem emitAll_spec (t : List lookahead_action) :
    ∀ {p : acttab}, TabInv p → TxnInv p → (∀ e ∈ t, 0 ≤ e.lookahead) →
    ∃ q, emitAll p t = .ok q ∧ TabInv q ∧ TxnInv q ∧
      txn q = txn p ++ t ∧ q.nLookahead = p.nLookahead + t.length ∧
      q.nAction = p.nAction ∧ q.nActionAlloc = p.nActionAlloc ∧ q.aAction = p.aAction ∧
      (Reachable p → Reachable q) := by
  induction t with
  | nil =>
    intro p hT hX _
    exact ⟨p, rfl, hT, hX, by simp, by simp, rfl, rfl, rfl, id⟩
  | cons e t ih =>
    intro p hT hX hnn
    obtain ⟨q1, hq1, hT1, hX1, htx1, hn1, h1, h2, h3⟩ :=
      action_inv hT hX (hnn e (by simp)) e.action
    obtain ⟨q, hq, hT2, hX2, htx2, hn2, h4, h5, h6, hR⟩ :=
      ih hT1 hX1 (fun x hx => hnn x (by simp [hx]))
    refine ⟨q, ?_, hT2, hX2, ?_, ?_, by omega, by omega, by rw [h6, h3], ?_⟩
    · simp [emitAll, hq1, hq]
    · rw [htx2, htx1]
      simp
    · rw [hn2, hn1]
      simp
      omega
    · intro hr
      exact hR (Reachable.action hr (hnn e (by simp)) hq1)

/-! ## The capacity step -/

theorem fillEmpty_spec : ∀ (n i : Nat) (a : List lookahead_action), i + n ≤ a.length →
    ∃ a1, fillEmpty n i a = .ok a1 ∧ a1.length = a.length ∧
      ∀ k : Nat, a1[k]? = if i ≤ k ∧ k < i + n then some emptySlot else a[k]? := by
  intro n
  induction n with
  | zero =>
    intro i a _
    refine ⟨a, rfl, rfl, fun k => ?_⟩
    rw [if_neg (by omega)]
  | succ n ih =>
    intro i a h
    have hi : i < a.length := by omega
    obtain ⟨a1, h1, h2, h3⟩ := ih (i + 1) (a.set i emptySlot) (by simp; omega)
    refine ⟨a1, ?_, by simpa using h2, fun k => ?_⟩
    · simp [fillEmpty, wr_nat _ hi, h1]
    · rw [h3 k]
      by_cases hk : k = i
      · subst hk
        rw [if_neg (by omega), if_pos (by omega), List.getElem?_set_self hi]
      · rw [List.getElem?_set_ne (fun h => hk h.symm)]
        by_cases hk2 : i + 1 ≤ k ∧ k < i + 1 + n
        · rw [if_pos hk2, if_pos (by omega)]
        · rw [if_neg hk2, if_neg (by omega)]

/-- The capacity step returns, leaves the used part of the table alone and makes room for
an append: `nAction + mxLookahead + 1 < nActionAlloc`. -/
theorem growTable_spec {p : acttab} (hT : TabInv p) :
    ∃ A a, growTable p = .ok { p with nActionAlloc := A, aAction := a } ∧
      TabInv { p with nActionAlloc := A, aAction := a } ∧
      (p.nAction : Int) + p.mxLookahead + 1 < A ∧ p.nActionAlloc ≤ A ∧
      (∀ k : Nat, k < p.nActionAlloc → a[k]? = p.aAction[k]?) ∧
      (∀ (k : Nat) (s : lookahead_action), p.nActionAlloc ≤ k → a[k]? = some s →
        s = emptySlot) := by
  by_cases hg : (p.nAction : Int) + (p.mxLookahead + 1) ≥ p.nActionAlloc
  · -- the table is reallocated
    obtain ⟨A, hA⟩ : ∃ A : Nat,
        A = ((p.nAction : Int) + (p.mxLookahead + 1) + p.nActionAlloc + 20).toNat := ⟨_, rfl⟩
    have hAlt : p.nActionAlloc ≤ A := by omega
    have hre : realloc p.aAction A =
        p.aAction ++ List.replicate (A - p.nActionAlloc) indeterminate := by
      rw [realloc_of_le (by rw [hT.len]; exact hAlt), hT.len]
    have hlen : (p.aAction ++ List.replicate (A - p.nActionAlloc) indeterminate).length = A := by
      simp [hT.len]; omega
    obtain ⟨a, ha, halen, hget⟩ := fillEmpty_spec (A - p.nActionAlloc) p.nActionAlloc
      (p.aAction ++ List.replicate (A - p.nActionAlloc) indeterminate) (by rw [hlen]; omega)
    have hold : ∀ k : Nat, k < p.nActionAlloc → a[k]? = p.aAction[k]? := by
      intro k hk
      rw [hget k, if_neg (by omega), List.getElem?_append_left (by rw [hT.len]; exact hk)]
    have hnew : ∀ (k : Nat) (s : lookahead_action), p.nActionAlloc ≤ k → a[k]? = some s →
        s = emptySlot := by
      intro k s hk hs
      have hkA : k < A := by
        have := lt_of_get hs
        omega
      rw [hget k, if_pos (by omega)] at hs
      exact (Option.some.inj hs).symm
    refine ⟨A, a, ?_, ?_, by omega, hAlt, hold, hnew⟩
    · unfold growTable
      simp only [if_pos hg, ← hA, hre, ha]
    · refine ⟨by simp [halen, hlen], ?_, ?_, ?_, ?_, hT.bufLen, hT.bufLe⟩
      · have := hT.le
        show p.nAction ≤ A
        omega
      · intro k s hk hs
        by_cases hk2 : k < p.nActionAlloc
        · exact hT.tail k s hk (by rw [← hold k hk2]; exact hs)
        · exact hnew k s (by omega) hs
      · intro k s hs
        by_cases hk2 : k < p.nActionAlloc
        · exact hT.pop k s (by rw [← hold k hk2]; exact hs)
        · exact Or.inl (hnew k s (by omega) hs)
      · intro hpos
        have hpos2 : 0 < p.nAction := hpos
        obtain ⟨s, hs, hs2⟩ := hT.last hpos2
        have := hT.le
        refine ⟨s, ?_, hs2⟩
        show a[p.nAction - 1]? = some s
        rw [hold _ (by omega)]
        exact hs
  · refine ⟨p.nActionAlloc, p.aAction, ?_, hT, by omega, le_refl _, fun _ _ => rfl, ?_⟩
    · unfold growTable
      simp only [if_neg hg]
    · intro k s hk hs
      have := lt_of_get hs
      rw [hT.len] at this
      omega

/-! ## The exact-match phase -/

theorem matchBreak_spec {p : acttab} (i : Nat) {j : Nat} {e : lookahead_action}
    (hlen : p.nAction ≤ p.aAction.length) (he : p.aLookahead[j]? = some e) :
    ∃ b, matchBreak p i j = .ok b ∧
      (b = true ↔ ¬ (0 ≤ slotOf p i e.lookahead ∧ slotOf p i e.lookahead < p.nAction ∧
        p.aAction[(slotOf p i e.lookahead).toNat]? = some e)) := by
  unfold matchBreak slotOf
  rw [rd_nat he]
  simp only
  by_cases hk : e.lookahead - p.mnLookahead + (i : Int) < 0 ∨
      e.lookahead - p.mnLookahead + (i : Int) ≥ p.nAction
  · rw [if_pos hk]
    refine ⟨true, rfl, ?_⟩
    simp only [true_iff]
    rintro ⟨h1, h2, _⟩
    omega
  · rw [if_neg hk]
    have hk0 : 0 ≤ e.lookahead - p.mnLookahead + (i : Int) := by omega
    have hk1 : (e.lookahead - p.mnLookahead + (i : Int)).toNat < p.aAction.length := by omega
    obtain ⟨t, ht⟩ := get_of_lt hk1
    rw [rd_of_get hk0 ht]
    simp only
    by_cases h1 : e.lookahead ≠ t.lookahead
    · rw [if_pos h1]
      refine ⟨true, rfl, ?_⟩
      simp only [true_iff]
      rintro ⟨_, _, h3⟩
      rw [ht] at h3
      exact h1 (by rw [Option.some.inj h3])
    · rw [if_neg h1]
      by_cases h2 : e.action ≠ t.action
      · rw [if_pos h2]
        refine ⟨true, rfl, ?_⟩
        simp only [true_iff]
        rintro ⟨_, _, h3⟩
        rw [ht] at h3
        exact h2 (by rw [Option.some.inj h3])
      · rw [if_neg h2]
        refine ⟨false, rfl, ?_⟩
        simp only [Bool.false_eq_true, false_iff, not_not]
        refine ⟨hk0, by omega, ?_⟩
        rw [ht]
        have h1' : e.lookahead = t.lookahead := not_not.mp h1
        have h2' : e.action = t.action := not_not.mp h2
        cases e
        cases t
        simp_all

theorem countClaimed_spec (p : acttab) (i : Nat) : ∀ (n j acc : Nat),
    j + n ≤ p.aAction.length →
    countClaimed p i n j acc = .ok (acc + (List.range' j n).countP (claims p i)) := by
  intro n
  induction n with
  | zero =>
    intro j acc _
    simp [countClaimed]
  | succ n ih =>
    intro j acc h
    obtain ⟨t, ht⟩ := get_of_lt (show j < p.aAction.length by omega)
    unfold countClaimed
    rw [rd_nat ht]
    simp only
    rw [List.range'_succ, List.countP_cons]
    by_cases h1 : t.lookahead < 0
    · rw [if_pos h1, ih (j + 1) acc (by omega)]
      have hc : claims p i j = false := by
        unfold claims
        rw [ht]
        simp
        omega
      simp [hc]
    · rw [if_neg h1]
      by_cases h2 : t.lookahead = (j : Int) + p.mnLookahead - i
      · rw [if_pos h2, ih (j + 1) (acc + 1) (by omega)]
        have hc : claims p i j = true := by
          unfold claims
          rw [ht]
          simp
          exact ⟨by omega, h2⟩
        simp [hc]
        omega
      · rw [if_neg h2, ih (j + 1) acc (by omega)]
        have hc : claims p i j = false := by
          unfold claims
          rw [ht]
          simp
          intro _
          exact h2
        simp [hc]

/-- The body of the exact-match loop decides `ExactAt`. -/
theorem matchAt_spec {p : acttab} (hlen : p.nAction ≤ p.aAction.length)
    (hbuf : p.nLookahead ≤ p.aLookahead.length) {i : Nat} (hi : i < p.nAction) :
    ∃ b, matchAt p i = .ok b ∧ (b = true ↔ ExactAt p i) := by
  obtain ⟨s, hs⟩ := get_of_lt (show i < p.aAction.length by omega)
  unfold matchAt
  rw [rd_nat hs]
  simp only
  by_cases h1 : s.lookahead = p.mnLookahead
  · rw [if_pos h1]
    by_cases h2 : s.action ≠ p.mnAction
    · rw [if_pos h2]
      refine ⟨false, rfl, ?_⟩
      simp only [Bool.false_eq_true, false_iff]
      rintro ⟨h3, _, _⟩
      rw [hs] at h3
      exact h2 (by rw [Option.some.inj h3])
    · rw [if_neg h2]
      have hsEq : p.aAction[i]? = some ⟨p.mnLookahead, p.mnAction⟩ := by
        rw [hs]
        cases s
        simp_all
      obtain ⟨r, hr, _, hr2, hr3, hr4⟩ := scanUp_spec (matchBreak p i)
        (fun x => ∀ e, p.aLookahead[x]? = some e →
          ¬ (0 ≤ slotOf p i e.lookahead ∧ slotOf p i e.lookahead < p.nAction ∧
            p.aAction[(slotOf p i e.lookahead).toNat]? = some e))
        p.nLookahead 0 (by
          intro x _ hx
          obtain ⟨e, he⟩ := get_of_lt (show x < p.aLookahead.length by omega)
          obtain ⟨b, hb, hb2⟩ := matchBreak_spec i hlen he
          refine ⟨b, hb, hb2.trans ⟨fun h e2 he2 => ?_, fun h => h e he⟩⟩
          rw [he] at he2
          rw [← Option.some.inj he2]
          exact h)
      rw [hr]
      simp only
      by_cases h3 : r < p.nLookahead
      · rw [if_pos h3]
        refine ⟨false, rfl, ?_⟩
        simp only [Bool.false_eq_true, false_iff]
        rintro ⟨_, h4, _⟩
        obtain ⟨e, he⟩ := get_of_lt (show r < p.aLookahead.length by omega)
        exact hr4 (by omega) e he (h4 e (mem_txn_iff.mpr ⟨r, h3, he⟩))
      · rw [if_neg h3]
        have hhost : HostedAt p i := by
          intro e he
          obtain ⟨j, hj, hje⟩ := mem_txn_iff.mp he
          have := hr3 j (by omega) (by omega)
          by_contra hcon
          exact this (fun e2 he2 => by
            rw [hje] at he2
            rw [← Option.some.inj he2]
            exact hcon)
        rw [countClaimed_spec p i p.nAction 0 0 (by omega)]
        simp only [Nat.zero_add]
        have hcnt : (List.range' 0 p.nAction).countP (claims p i) = claimCount p i := by
          unfold claimCount
          rw [List.range_eq_range']
        rw [hcnt]
        by_cases h4 : claimCount p i = p.nLookahead
        · rw [if_pos h4]
          exact ⟨true, rfl, by simp only [true_iff]; exact ⟨hsEq, hhost, h4⟩⟩
        · rw [if_neg h4]
          refine ⟨false, rfl, ?_⟩
          simp only [Bool.false_eq_true, false_iff]
          rintro ⟨_, _, h5⟩
          exact h4 h5
  · rw [if_neg h1]
    refine ⟨false, rfl, ?_⟩
    simp only [Bool.false_eq_true, false_iff]
    rintro ⟨h3, _, _⟩
    rw [hs] at h3
    exact h1 (by rw [Option.some.inj h3])

/-! ## The hole search -/

theorem holeBreak_spec {p : acttab} (i : Nat) {j : Nat} {e : lookahead_action}
    (he : p.aLookahead[j]? = some e)
    (hin : 0 ≤ slotOf p i e.lookahead → (slotOf p i e.lookahead).toNat < p.aAction.length) :
    ∃ b, holeBreak p i j = .ok b ∧
      (b = true ↔ ¬ (0 ≤ slotOf p i e.lookahead ∧
        ∃ t, p.aAction[(slotOf p i e.lookahead).toNat]? = some t ∧ t.lookahead < 0)) := by
  unfold holeBreak
  unfold slotOf at hin ⊢
  rw [rd_nat he]
  simp only
  by_cases hk : e.lookahead - p.mnLookahead + (i : Int) < 0
  · rw [if_pos hk]
    refine ⟨true, rfl, ?_⟩
    simp only [true_iff]
    rintro ⟨h1, _⟩
    omega
  · rw [if_neg hk]
    have hk0 : 0 ≤ e.lookahead - p.mnLookahead + (i : Int) := by omega
    obtain ⟨t, ht⟩ := get_of_lt (hin hk0)
    rw [rd_of_get hk0 ht]
    simp only
    by_cases h1 : t.lookahead ≥ 0
    · rw [if_pos h1]
      refine ⟨true, rfl, ?_⟩
      simp only [true_iff]
      rintro ⟨_, t2, h3, h4⟩
      rw [ht] at h3
      rw [← Option.some.inj h3] at h4
      omega
    · rw [if_neg h1]
      refine ⟨false, rfl, ?_⟩
      simp only [Bool.false_eq_true, false_iff, not_not]
      exact ⟨hk0, t, ht, by omega⟩

theorem stealBreak_spec {p : acttab} (i : Nat) {j : Nat} (hj : j < p.aAction.length) :
    ∃ b, stealBreak p i j = .ok b ∧
      (b = true ↔ ∃ t, p.aAction[j]? = some t ∧ t.lookahead = (j : Int) + p.mnLookahead - i) := by
  obtain ⟨t, ht⟩ := get_of_lt hj
  unfold stealBreak
  rw [rd_nat ht]
  simp only
  by_cases h1 : t.lookahead = (j : Int) + p.mnLookahead - i
  · rw [if_pos h1]
    exact ⟨true, rfl, by simp only [true_iff]; exact ⟨t, ht, h1⟩⟩
  · rw [if_neg h1]
    refine ⟨false, rfl, ?_⟩
    simp only [Bool.false_eq_true, false_iff]
    rintro ⟨t2, h2, h3⟩
    rw [ht] at h2
    rw [← Option.some.inj h2] at h3
    exact h1 h3

/-- The body of the hole-search loop decides `FitsAt`, for every index below the bound. -/
theorem holeAt_spec {p : acttab} (hT : TabInv p) (hX : TxnInv p) (hpos : 0 < p.nLookahead)
    {i : Nat} (hi : i < holeBound p) :
    ∃ b, holeAt p i = .ok b ∧ (b = true ↔ FitsAt p i) := by
  have hmn : 0 ≤ p.mnLookahead := hX.nonneg _ (List.mem_of_find?_eq_some (hX.first hpos))
  have hmx : p.mnLookahead ≤ p.mxLookahead :=
    hX.hi _ (List.mem_of_find?_eq_some (hX.first hpos))
  have hbl := hT.bufLe
  have hbn := hT.bufLen
  have hlen := hT.len
  have hle := hT.le
  unfold holeBound at hi
  obtain ⟨s, hs⟩ := get_of_lt (show i < p.aAction.length by omega)
  unfold holeAt
  rw [rd_nat hs]
  simp only
  by_cases h1 : s.lookahead < 0
  · rw [if_pos h1]
    obtain ⟨r, hr, _, hr2, hr3, hr4⟩ := scanUp_spec (holeBreak p i)
      (fun x => ∀ e, p.aLookahead[x]? = some e →
        ¬ (0 ≤ slotOf p i e.lookahead ∧
          ∃ t, p.aAction[(slotOf p i e.lookahead).toNat]? = some t ∧ t.lookahead < 0))
      p.nLookahead 0 (by
        intro x _ hx
        obtain ⟨e, he⟩ := get_of_lt (show x < p.aLookahead.length by omega)
        have hemem : e ∈ txn p := mem_txn_iff.mpr ⟨x, by omega, he⟩
        have hehi := hX.hi e hemem
        obtain ⟨b, hb, hb2⟩ := holeBreak_spec i he (by
          intro _
          unfold slotOf
          omega)
        refine ⟨b, hb, hb2.trans ⟨fun h e2 he2 => ?_, fun h => h e he⟩⟩
        rw [he] at he2
        rw [← Option.some.inj he2]
        exact h)
    rw [hr]
    simp only
    by_cases h3 : r < p.nLookahead
    · rw [if_pos h3]
      refine ⟨false, rfl, ?_⟩
      simp only [Bool.false_eq_true, false_iff]
      rintro ⟨_, h4, _⟩
      obtain ⟨e, he⟩ := get_of_lt (show r < p.aLookahead.length by omega)
      exact hr4 (by omega) e he (h4 e (mem_txn_iff.mpr ⟨r, h3, he⟩))
    · rw [if_neg h3]
      have hfree : ∀ e ∈ txn p, 0 ≤ slotOf p i e.lookahead ∧
          ∃ t, p.aAction[(slotOf p i e.lookahead).toNat]? = some t ∧ t.lookahead < 0 := by
        intro e he
        obtain ⟨j, hj, hje⟩ := mem_txn_iff.mp he
        have := hr3 j (by omega) (by omega)
        by_contra hcon
        exact this (fun e2 he2 => by
          rw [hje] at he2
          rw [← Option.some.inj he2]
          exact hcon)
      obtain ⟨r2, hr2', _, hr22, hr23, hr24⟩ := scanUp_spec (stealBreak p i)
        (fun x => ∃ t, p.aAction[x]? = some t ∧ t.lookahead = (x : Int) + p.mnLookahead - i)
        p.nAction 0 (by
          intro x _ hx
          exact stealBreak_spec i (by omega))
      rw [hr2']
      simp only
      by_cases h4 : r2 = p.nAction
      · rw [if_pos h4]
        refine ⟨true, rfl, ?_⟩
        simp only [true_iff]
        refine ⟨⟨s, hs, h1⟩, hfree, ?_⟩
        intro j t hj ht hEq
        exact hr23 j (by omega) (by omega) ⟨t, ht, hEq⟩
      · rw [if_neg h4]
        refine ⟨false, rfl, ?_⟩
        simp only [Bool.false_eq_true, false_iff]
        rintro ⟨_, _, h5⟩
        obtain ⟨t, ht, hEq⟩ := hr24 (by omega)
        exact h5 r2 t (by omega) ht hEq
  · rw [if_neg h1]
    refine ⟨false, rfl, ?_⟩
    simp only [Bool.false_eq_true, false_iff]
    rintro ⟨⟨s2, h3, h4⟩, _, _⟩
    rw [hs] at h3
    rw [← Option.some.inj h3] at h4
    exact h1 h4

/-- With `mnLookahead = 0` the index `nAction` always passes the test of the hole search. -/
theorem fitsAt_nAction {p : acttab} (hT : TabInv p) (hX : TxnInv p) (hpos : 0 < p.nLookahead)
    (hcap : (p.nAction : Int) + p.mxLookahead + 1 < p.nActionAlloc)
    (hmn : p.mnLookahead = 0) : FitsAt p p.nAction := by
  have hlen := hT.len
  have hmx : p.mnLookahead ≤ p.mxLookahead :=
    hX.hi _ (List.mem_of_find?_eq_some (hX.first hpos))
  refine ⟨?_, ?_, ?_⟩
  · obtain ⟨s, hs⟩ := get_of_lt (show p.nAction < p.aAction.length by omega)
    refine ⟨s, hs, ?_⟩
    rw [hT.tail _ s (le_refl _) hs]
    decide
  · intro e he
    have h1 := hX.lo e he
    have h2 := hX.hi e he
    unfold slotOf
    refine ⟨by omega, ?_⟩
    obtain ⟨t, ht⟩ := get_of_lt
      (show (e.lookahead - p.mnLookahead + (p.nAction : Int)).toNat < p.aAction.length by omega)
    refine ⟨t, ht, ?_⟩
    rw [hT.tail _ t (by omega) ht]
    decide
  · intro j t hj ht hEq
    by_cases hlast : j = p.nAction - 1
    · obtain ⟨s, hs, hs2⟩ := hT.last (by omega)
      rw [← hlast, ht] at hs
      rw [← Option.some.inj hs] at hs2
      omega
    · rcases hT.pop j t ht with h | h
      · rw [h] at hEq
        simp [emptySlot] at hEq
        omega
      · omega

/-- Outcome of lines 195-246: the value of `i` handed to the insertion loop. -/
theorem findIndex_spec {p : acttab} (hT : TabInv p) (hX : TxnInv p) (hpos : 0 < p.nLookahead)
    (hcap : (p.nAction : Int) + p.mxLookahead + 1 < p.nActionAlloc) :
    ∃ i, findIndex p = .ok i ∧
      ((i < p.nAction ∧ ExactAt p i ∧ ∀ x, i < x → x < p.nAction → ¬ ExactAt p x) ∨
       ((∀ x, x < p.nAction → ¬ ExactAt p x) ∧ i ≤ holeBound p ∧
         (∀ x, x < i → ¬ FitsAt p x) ∧ (i < holeBound p → FitsAt p i) ∧
         (i = holeBound p → 1 ≤ p.mnLookahead))) := by
  have hlen := hT.len
  have hle := hT.le
  have hbl := hT.bufLe
  have hbn := hT.bufLen
  unfold findIndex
  rcases scanDown_spec (matchAt p) (ExactAt p) p.nAction
      (fun x hx => matchAt_spec (by omega) (by omega) hx) with ⟨i, hi, h1, h2, h3⟩ | ⟨hi, h1⟩
  · rw [hi]
    exact ⟨i, rfl, Or.inl ⟨h1, h2, h3⟩⟩
  · rw [hi]
    simp only
    obtain ⟨r, hr, _, hr2, hr3, hr4⟩ := scanUp_spec (holeAt p) (FitsAt p) (holeBound p) 0
      (fun x _ hx => holeAt_spec hT hX hpos (by omega))
    refine ⟨r, hr, Or.inr ⟨h1, by omega, fun x hx => hr3 x (by omega) hx,
      fun h => hr4 (by omega), ?_⟩⟩
    intro hEq
    have hmn : 0 ≤ p.mnLookahead := hX.nonneg _ (List.mem_of_find?_eq_some (hX.first hpos))
    by_contra hcon
    have hfit := fitsAt_nAction hT hX hpos hcap (by omega)
    have hb : p.nAction < holeBound p := by
      unfold holeBound
      omega
    exact hr3 p.nAction (by omega) (by omega) hfit

/-! ## The insertion loop -/

/-- The insertion loop, run on entries `j .. j+n-1` whose slots all lie inside the block:
it returns; a slot that is no entry's target keeps its content; the target of an entry holds
the last entry written there; `nAction` becomes the larger of its old value and one past the
highest target. -/
theorem writeback_spec (i : Nat) : ∀ (n j : Nat) (p : acttab),
    j + n ≤ p.aLookahead.length →
    (∀ (x : Nat) (e : lookahead_action), j ≤ x → x < j + n → p.aLookahead[x]? = some e →
      0 ≤ slotOf p i e.lookahead ∧ slotOf p i e.lookahead < p.aAction.length) →
    ∃ a2 n2, writeback i n j p = .ok { p with aAction := a2, nAction := n2 } ∧
      a2.length = p.aAction.length ∧
      (∀ k : Nat, (∀ (x : Nat) (e : lookahead_action), j ≤ x → x < j + n →
          p.aLookahead[x]? = some e → slotOf p i e.lookahead ≠ k) → a2[k]? = p.aAction[k]?) ∧
      (∀ (x : Nat) (e : lookahead_action), j ≤ x → x < j + n → p.aLookahead[x]? = some e →
        ∃ (y : Nat) (e2 : lookahead_action), x ≤ y ∧ y < j + n ∧ p.aLookahead[y]? = some e2 ∧
          slotOf p i e2.lookahead = slotOf p i e.lookahead ∧
          a2[(slotOf p i e.lookahead).toNat]? = some e2) ∧
      p.nAction ≤ n2 ∧
      (∀ (x : Nat) (e : lookahead_action), j ≤ x → x < j + n → p.aLookahead[x]? = some e →
        slotOf p i e.lookahead < n2) ∧
      (n2 = p.nAction ∨ ∃ (x : Nat) (e : lookahead_action), j ≤ x ∧ x < j + n ∧
        p.aLookahead[x]? = some e ∧ (n2 : Int) = slotOf p i e.lookahead + 1) := by
  intro n
  induction n with
  | zero =>
    intro j p _ _
    refine ⟨p.aAction, p.nAction, rfl, rfl, fun _ _ => rfl, ?_, le_refl _, ?_, Or.inl rfl⟩
    · intro x e h1 h2
      omega
    · intro x e h1 h2
      omega
  | succ n ih =>
    intro j p hbuf hin
    obtain ⟨e, he⟩ := get_of_lt (show j < p.aLookahead.length by omega)
    obtain ⟨hk0, hk1⟩ := hin j e (le_refl _) (by omega) he
    have hk0' : 0 ≤ e.lookahead - p.mnLookahead + (i : Int) := hk0
    have hk1' : e.lookahead - p.mnLookahead + (i : Int) < p.aAction.length := hk1
    -- the state after this iteration
    obtain ⟨q, hq⟩ : ∃ q : acttab, q =
        { p with
          aAction := p.aAction.set (slotOf p i e.lookahead).toNat e,
          nAction := if slotOf p i e.lookahead ≥ p.nAction
            then (slotOf p i e.lookahead + 1).toNat else p.nAction } := ⟨_, rfl⟩
    have hstep : writeback i (n + 1) j p = writeback i n (j + 1) q := by
      rw [hq]
      conv => lhs; unfold writeback
      rw [rd_nat he]
      simp only
      rw [wr_ok e hk0' hk1']
      simp only
      unfold slotOf
      by_cases hge : e.lookahead - p.mnLookahead + (i : Int) ≥ p.nAction
      · simp only [if_pos hge]
      · simp only [if_neg hge]
    have hqL : q.aLookahead = p.aLookahead := by rw [hq]
    have hqS : ∀ l, slotOf q i l = slotOf p i l := by
      intro l
      rw [hq]
      rfl
    have hqA : q.aAction = p.aAction.set (slotOf p i e.lookahead).toNat e := by rw [hq]
    have hqN : q.nAction = if slotOf p i e.lookahead ≥ p.nAction
        then (slotOf p i e.lookahead + 1).toNat else p.nAction := by rw [hq]
    have hqlen : q.aAction.length = p.aAction.length := by rw [hqA]; simp
    obtain ⟨a2, n2, hw, hl2, hW2, hW3, hW4, hW4b, hW5⟩ := ih (j + 1) q
      (by rw [hqL]; omega)
      (by
        intro x e2 hx1 hx2 hx3
        rw [hqL] at hx3
        rw [hqS, hqlen]
        exact hin x e2 (by omega) (by omega) hx3)
    have hres : ({ q with aAction := a2, nAction := n2 } : acttab) =
        { p with aAction := a2, nAction := n2 } := by rw [hq]
    have hqNle : p.nAction ≤ q.nAction := by
      rw [hqN]
      split <;> omega
    have hqNk : slotOf p i e.lookahead < q.nAction := by
      rw [hqN]
      split <;> omega
    refine ⟨a2, n2, by rw [hstep, hw, hres], by rw [hl2, hqlen], ?_, ?_, by omega, ?_, ?_⟩
    · intro k hk
      rw [hW2 k (by
        intro x e2 hx1 hx2 hx3
        rw [hqL] at hx3
        rw [hqS]
        exact hk x e2 (by omega) (by omega) hx3)]
      rw [hqA]
      have := hk j e (le_refl _) (by omega) he
      rw [List.getElem?_set_ne (by omega)]
    · intro x e2 hx1 hx2 hx3
      by_cases hxj : x = j
      · subst hxj
        rw [he] at hx3
        have hee : e = e2 := Option.some.inj hx3
        subst hee
        by_cases hlater : ∃ (y : Nat) (e3 : lookahead_action), x + 1 ≤ y ∧ y < x + 1 + n ∧
            p.aLookahead[y]? = some e3 ∧ slotOf p i e3.lookahead = slotOf p i e.lookahead
        · obtain ⟨y, e3, hy1, hy2, hy3, hy4⟩ := hlater
          obtain ⟨z, e4, hz1, hz2, hz3, hz4, hz5⟩ := hW3 y e3 hy1 hy2 (by rw [hqL]; exact hy3)
          rw [hqL] at hz3
          rw [hqS, hqS] at hz4
          rw [hqS] at hz5
          exact ⟨z, e4, by omega, by omega, hz3, by rw [hz4, hy4], by rw [← hy4]; exact hz5⟩
        · refine ⟨x, e, le_refl _, by omega, he, rfl, ?_⟩
          rw [hW2 _ (by
            intro y e3 hy1 hy2 hy3 hy4
            rw [hqL] at hy3
            rw [hqS] at hy4
            exact hlater ⟨y, e3, hy1, hy2, hy3, by omega⟩)]
          rw [hqA, List.getElem?_set_self (by omega)]
      · obtain ⟨z, e4, hz1, hz2, hz3, hz4, hz5⟩ :=
          hW3 x e2 (by omega) (by omega) (by rw [hqL]; exact hx3)
        rw [hqL] at hz3
        rw [hqS, hqS] at hz4
        rw [hqS] at hz5
        exact ⟨z, e4, hz1, by omega, hz3, hz4, hz5⟩
    · intro x e2 hx1 hx2 hx3
      by_cases hxj : x = j
      · subst hxj
        rw [he] at hx3
        rw [← Option.some.inj hx3]
        omega
      · have := hW4b x e2 (by omega) (by omega) (by rw [hqL]; exact hx3)
        rw [hqS] at this
        exact this
    · rcases hW5 with h | ⟨x, e2, hx1, hx2, hx3, hx4⟩
      · rw [h, hqN]
        by_cases hge : slotOf p i e.lookahead ≥ p.nAction
        · rw [if_pos hge]
          exact Or.inr ⟨j, e, le_refl _, by omega, he, by omega⟩
        · rw [if_neg hge]
          exact Or.inl rfl
      · rw [hqL] at hx3
        rw [hqS] at hx4
        exact Or.inr ⟨x, e2, by omega, by omega, hx3, hx4⟩

/-! ## `acttab_insert` as a whole -/

theorem txnInv_grow {p : acttab} (hX : TxnInv p) (A : Nat) (a : List lookahead_action) :
    TxnInv { p with nActionAlloc := A, aAction := a } :=
  ⟨hX.nonneg, hX.lo, hX.hi, hX.first, hX.mxIn⟩

/-- Where the pending entries go, in the table after the capacity step: onto slots that
already hold them (exact match) or onto empty slots (hole search). -/
theorem targets_spec {p : acttab} (hT : TabInv p) (hX : TxnInv p)
    (hcap : (p.nAction : Int) + p.mxLookahead + 1 < p.nActionAlloc) {i : Nat}
    (hc : ExactCase p i ∨ HoleCase p i) :
    ∀ e ∈ txn p, 0 ≤ slotOf p i e.lookahead ∧ slotOf p i e.lookahead < p.nActionAlloc ∧
      ((ExactCase p i ∧ slotOf p i e.lookahead < p.nAction ∧
          p.aAction[(slotOf p i e.lookahead).toNat]? = some e) ∨
       (HoleCase p i ∧ ∃ t, p.aAction[(slotOf p i e.lookahead).toNat]? = some t ∧
          t.lookahead < 0)) := by
  intro e he
  have hlen := hT.len
  have hle := hT.le
  have hlo := hX.lo e he
  have hhi := hX.hi e he
  rcases hc with hA | hB
  · obtain ⟨h1, h2, h3⟩ := hA.2.1.2.1 e he
    exact ⟨h1, by omega, Or.inl ⟨hA, h2, h3⟩⟩
  · have hB2 := hB
    obtain ⟨_, hb1, _, hb3, hb4⟩ := hB2
    by_cases hlt : i < holeBound p
    · obtain ⟨h1, t, h2, h3⟩ := (hb3 hlt).2.1 e he
      have := lt_of_get h2
      exact ⟨h1, by omega, Or.inr ⟨hB, t, h2, h3⟩⟩
    · have hEq : i = holeBound p := by omega
      have hmn := hb4 hEq
      have hk : slotOf p i e.lookahead = e.lookahead - p.mnLookahead + (holeBound p : Int) := by
        unfold slotOf
        rw [hEq]
      have hbd : (holeBound p : Int) = (p.nActionAlloc : Int) - p.mxLookahead := by
        unfold holeBound
        omega
      have h0 : 0 ≤ slotOf p i e.lookahead := by omega
      have h1 : slotOf p i e.lookahead < p.nActionAlloc := by omega
      obtain ⟨t, ht⟩ := get_of_lt (show (slotOf p i e.lookahead).toNat < p.aAction.length by omega)
      refine ⟨h0, h1, Or.inr ⟨hB, t, ht, ?_⟩⟩
      rw [hT.tail _ t (by omega) ht]
      decide

/-- Every call of `acttab_insert` on a well-formed state with a pending transaction returns,
and its run is described by `Step`. -/
theorem insert_step {p : acttab} (hT : TabInv p) (hX : TxnInv p) (hpos : 0 < p.nLookahead) :
    ∃ (p1 q : acttab) (i : Nat),
      acttab_insert p = .ok (q, (i : Int) - p.mnLookahead) ∧ Step p p1 q i := by
  obtain ⟨A, a, hg, hT1, hcap, hmono, hold, hfresh⟩ := growTable_spec hT
  have hX1 := txnInv_grow hX A a
  obtain ⟨i, hi, hc⟩ := findIndex_spec hT1 hX1 hpos hcap
  have htg := targets_spec hT1 hX1 hcap hc
  have hbl := hT.bufLe
  have hbn := hT.bufLen
  obtain ⟨a2, n2, hw, hl2, hW2, hW3, hW4, hW4b, hW5⟩ := writeback_spec i p.nLookahead 0
    { p with nActionAlloc := A, aAction := a }
    (by show 0 + p.nLookahead ≤ p.aLookahead.length; omega)
    (by
      intro x e _ hx he
      have hmem : e ∈ txn p := mem_txn_iff.mpr ⟨x, by omega, he⟩
      obtain ⟨h1, h2, _⟩ := htg e hmem
      have := hT1.len
      exact ⟨h1, by omega⟩)
  refine ⟨{ p with nActionAlloc := A, aAction := a },
    { p with nActionAlloc := A, aAction := a2, nAction := n2, nLookahead := 0 }, i, ?_, ?_⟩
  · unfold acttab_insert
    rw [if_neg (by omega), hg]
    simp only
    rw [hi]
    simp only
    rw [hw]
  · refine ⟨hg, rfl, hT1, hcap, hmono, hold, hfresh, hi, hc, rfl, hl2, ?_, ?_, ?_, hW4, ?_, ?_⟩
    · intro k hk
      apply hW2 k
      intro x e _ hx he
      exact hk e (mem_txn_iff.mpr ⟨x, by omega, he⟩)
    · intro e he
      obtain ⟨x, hx, hxe⟩ := mem_txn_iff.mp he
      obtain ⟨y, e2, _, hy2, hy3, hy4, hy5⟩ := hW3 x e (by omega) (by omega) hxe
      exact ⟨e2, mem_txn_iff.mpr ⟨y, by omega, hy3⟩, hy4, hy5⟩
    · intro e he
      obtain ⟨h1, h2, _⟩ := htg e he
      exact ⟨h1, h2⟩
    · intro e he
      obtain ⟨x, hx, hxe⟩ := mem_txn_iff.mp he
      exact hW4b x e (by omega) (by omega) hxe
    · rcases hW5 with h | ⟨x, e, _, hx, hxe, hn⟩
      · exact Or.inl h
      · exact Or.inr ⟨e, mem_txn_iff.mpr ⟨x, by omega, hxe⟩, hn⟩

/-! ## Consequences of one run -/

theorem step_txn {p p1 q : acttab} {i : Nat} (st : Step p p1 q i) : txn p1 = txn p := by
  rw [st.same1]
  rfl

theorem step_slot {p p1 q : acttab} {i : Nat} (st : Step p p1 q i) (j : Nat) (l : Int) :
    slotOf p1 j l = slotOf p j l := by
  rw [st.same1]
  rfl

theorem step_nAction1 {p p1 q : acttab} {i : Nat} (st : Step p p1 q i) :
    p1.nAction = p.nAction := by
  rw [st.same1]

theorem step_mx {p p1 q : acttab} {i : Nat} (st : Step p p1 q i) :
    p1.mxLookahead = p.mxLookahead := by
  rw [st.same1]

theorem step_qAlloc {p p1 q : acttab} {i : Nat} (st : Step p p1 q i) :
    q.nActionAlloc = p1.nActionAlloc := by
  rw [st.same2]

theorem step_qLook {p p1 q : acttab} {i : Nat} (st : Step p p1 q i) :
    q.nLookahead = 0 := by
  rw [st.same2]

theorem step_qBuf {p p1 q : acttab} {i : Nat} (st : Step p p1 q i) :
    q.aLookahead = p.aLookahead ∧ q.nLookaheadAlloc = p.nLookaheadAlloc := by
  have h1 : q.aLookahead = p1.aLookahead := by rw [st.same2]
  have h2 : q.nLookaheadAlloc = p1.nLookaheadAlloc := by rw [st.same2]
  have h3 : p1.aLookahead = p.aLookahead := by rw [st.same1]
  have h4 : p1.nLookaheadAlloc = p.nLookaheadAlloc := by rw [st.same1]
  exact ⟨h1.trans h3, h2.trans h4⟩

/-- The targets of the pending entries, seen from the state on entry. -/
theorem step_targets {p p1 q : acttab} {i : Nat} (hX : TxnInv p) (st : Step p p1 q i) :
    ∀ e ∈ txn p, 0 ≤ slotOf p i e.lookahead ∧ slotOf p i e.lookahead < p1.nActionAlloc ∧
      ((ExactCase p1 i ∧ slotOf p i e.lookahead < p.nAction ∧
          p1.aAction[(slotOf p i e.lookahead).toNat]? = some e) ∨
       (HoleCase p1 i ∧ ∃ t, p1.aAction[(slotOf p i e.lookahead).toNat]? = some t ∧
          t.lookahead < 0)) := by
  intro e he
  have hX1 : TxnInv p1 := by
    rw [st.same1]
    exact txnInv_grow hX _ _
  have hcap : (p1.nAction : Int) + p1.mxLookahead + 1 < p1.nActionAlloc := by
    rw [step_nAction1 st, step_mx st]
    exact st.cap
  have h := targets_spec st.inv1 hX1 hcap st.cases e (by rw [step_txn st]; exact he)
  rw [step_slot st, step_nAction1 st] at h
  exact h

/-- A populated slot of the table after the capacity step is not changed by the insertion. -/
theorem step_frame1 {p p1 q : acttab} {i : Nat} (hX : TxnInv p) (st : Step p p1 q i)
    (k : Nat) (s : lookahead_action) (hs : p1.aAction[k]? = some s) (hpop : 0 ≤ s.lookahead) :
    q.aAction[k]? = some s := by
  by_cases htar : ∃ e ∈ txn p, slotOf p i e.lookahead = k
  · obtain ⟨e, he, hk⟩ := htar
    obtain ⟨e2, he2, hk2, hq⟩ := st.put e he
    have hkk : (slotOf p i e.lookahead).toNat = k := by omega
    rcases step_targets hX st e2 he2 with ⟨_, _, ⟨_, _, h3⟩ | ⟨_, t, h3, h4⟩⟩
    · rw [hk2, hkk, hs] at h3
      rw [hkk] at hq
      rw [hq, ← Option.some.inj h3]
    · rw [hk2, hkk, hs] at h3
      rw [← Option.some.inj h3] at h4
      omega
  · rw [st.keep k (fun e he hk => htar ⟨e, he, hk⟩)]
    exact hs

/-- A populated slot of the table on entry is not changed by `acttab_insert`. -/
theorem step_frame {p p1 q : acttab} {i : Nat} (hT : TabInv p) (hX : TxnInv p)
    (st : Step p p1 q i) (k : Nat) (s : lookahead_action) (hs : p.aAction[k]? = some s)
    (hpop : 0 ≤ s.lookahead) : q.aAction[k]? = some s := by
  have hk : k < p.nActionAlloc := by
    have := lt_of_get hs
    rw [hT.len] at this
    exact this
  exact step_frame1 hX st k s (by rw [st.old k hk]; exact hs) hpop

/-- After an exact match the insertion loop rewrites what is already there. -/
theorem step_exact {p p1 q : acttab} {i : Nat} (st : Step p p1 q i)
    (hA : ExactCase p1 i) : q.aAction = p1.aAction ∧ q.nAction = p.nAction := by
  have hhost : ∀ e ∈ txn p, slotOf p i e.lookahead < p.nAction ∧
      p1.aAction[(slotOf p i e.lookahead).toNat]? = some e := by
    intro e he
    obtain ⟨h1, h2, h3⟩ := hA.2.1.2.1 e (by rw [step_txn st]; exact he)
    rw [step_slot st, step_nAction1 st] at h2
    rw [step_slot st] at h3
    exact ⟨h2, h3⟩
  constructor
  · apply List.ext_getElem?
    intro k
    by_cases htar : ∃ e ∈ txn p, slotOf p i e.lookahead = k
    · obtain ⟨e, he, hk⟩ := htar
      obtain ⟨e2, he2, hk2, hq⟩ := st.put e he
      have hkk : (slotOf p i e.lookahead).toNat = k := by omega
      have h3 := (hhost e2 he2).2
      rw [hk2, hkk] at h3
      rw [hkk] at hq
      rw [hq, h3]
    · exact st.keep k (fun e he hk => htar ⟨e, he, hk⟩)
  · rcases st.nEq with h | ⟨e, he, h⟩
    · exact h
    · have := (hhost e he).1
      have := st.nle
      omega

/-- The shape invariant holds again when `acttab_insert` returns. -/
theorem step_inv {p p1 q : acttab} {i : Nat} (hT : TabInv p) (hX : TxnInv p)
    (st : Step p p1 q i) : TabInv q := by
  have hT1 := st.inv1
  have hn1 := step_nAction1 st
  refine ⟨?_, ?_, ?_, ?_, ?_, ?_, ?_⟩
  · rw [st.len, hT1.len, step_qAlloc st]
  · rw [step_qAlloc st]
    rcases st.nEq with h | ⟨e, he, h⟩
    · rw [h, ← hn1]
      exact hT1.le
    · have := (st.inb e he).2
      omega
  · intro k s hk hs
    have hnot : ∀ e ∈ txn p, slotOf p i e.lookahead ≠ k := by
      intro e he hEq
      have := st.nlt e he
      omega
    rw [st.keep k hnot] at hs
    exact hT1.tail k s (by have := st.nle; omega) hs
  · intro k s hs
    by_cases htar : ∃ e ∈ txn p, slotOf p i e.lookahead = k
    · obtain ⟨e, he, hk⟩ := htar
      obtain ⟨e2, he2, _, hq⟩ := st.put e he
      have hkk : (slotOf p i e.lookahead).toNat = k := by omega
      rw [hkk, hs] at hq
      rw [Option.some.inj hq]
      exact Or.inr (hX.nonneg e2 he2)
    · rw [st.keep k (fun e he hk => htar ⟨e, he, hk⟩)] at hs
      exact hT1.pop k s hs
  · intro hpos
    rcases st.nEq with h | ⟨e, he, h⟩
    · rw [h] at hpos ⊢
      obtain ⟨s, hs, hs2⟩ := hT1.last (by omega)
      rw [hn1] at hs
      exact ⟨s, step_frame1 hX st _ s hs hs2, hs2⟩
    · obtain ⟨e2, he2, _, hq⟩ := st.put e he
      have h0 := (st.inb e he).1
      have hkk : (slotOf p i e.lookahead).toNat = q.nAction - 1 := by omega
      rw [hkk] at hq
      exact ⟨e2, hq, hX.nonneg e2 he2⟩
  · rw [(step_qBuf st).1, (step_qBuf st).2]
    exact hT.bufLen
  · rw [step_qLook st]
    exact Nat.zero_le _

/-- Every pending entry reads back at the returned offset; when several entries share a
lookahead, the slot holds one of them. -/
theorem step_readback {p p1 q : acttab} {i : Nat} (st : Step p p1 q i) :
    ∀ e ∈ txn p, 0 ≤ (i : Int) - p.mnLookahead + e.lookahead ∧
      (i : Int) - p.mnLookahead + e.lookahead < q.nAction ∧
      ∃ e2 ∈ txn p, e2.lookahead = e.lookahead ∧
        q.aAction[((i : Int) - p.mnLookahead + e.lookahead).toNat]? = some e2 := by
  intro e he
  have hk : (i : Int) - p.mnLookahead + e.lookahead = slotOf p i e.lookahead := by
    unfold slotOf
    ring
  rw [hk]
  obtain ⟨e2, he2, hk2, hq⟩ := st.put e he
  refine ⟨(st.inb e he).1, st.nlt e he, e2, he2, ?_, hq⟩
  unfold slotOf at hk2
  omega

/-- In a transaction with pairwise distinct lookaheads an entry is known by its lookahead. -/
theorem eq_of_lookahead_eq {t : List lookahead_action}
    (hnd : (t.map (fun e => e.lookahead)).Nodup) {e e2 : lookahead_action}
    (he : e ∈ t) (he2 : e2 ∈ t) (h : e2.lookahead = e.lookahead) : e2 = e :=
  List.inj_on_of_nodup_map hnd he2 he h

/-! ## Reachable states -/

theorem tabInv_alloc : TabInv acttab_alloc := by
  refine ⟨rfl, le_refl _, ?_, ?_, ?_, rfl, le_refl _⟩
  · intro k s _ hs
    simp [acttab_alloc] at hs
  · intro k s hs
    simp [acttab_alloc] at hs
  · intro h
    simp [acttab_alloc] at h

theorem reachable_inv {p : acttab} (h : Reachable p) : TabInv p ∧ TxnInv p := by
  induction h with
  | alloc => exact ⟨tabInv_alloc, txnInv_of_empty rfl⟩
  | @action p q l a _ hl hq ih =>
    obtain ⟨q2, hq2, hT, hX, _⟩ := action_inv ih.1 ih.2 hl a
    rw [hq] at hq2
    have : q = q2 := Except.ok.inj hq2
    rw [this]
    exact ⟨hT, hX⟩
  | @insert p q o _ hq ih =>
    by_cases h0 : p.nLookahead = 0
    · unfold acttab_insert at hq
      rw [if_pos h0] at hq
      cases hq
    · obtain ⟨p1, q2, i, hq2, st⟩ := insert_step ih.1 ih.2 (Nat.pos_of_ne_zero h0)
      rw [hq] at hq2
      have : q = q2 := congrArg Prod.fst (Except.ok.inj hq2)
      rw [this]
      exact ⟨step_inv ih.1 ih.2 st, txnInv_of_empty (step_qLook st)⟩

/-! ## Commits -/

theorem keeps_refl (p : acttab) : Keeps p p :=
  ⟨le_refl _, fun _ _ h _ => h⟩

theorem keeps_trans {p q r : acttab} (h1 : Keeps p q) (h2 : Keeps q r) : Keeps p r :=
  ⟨le_trans h1.1 h2.1, fun k s hs hp => h2.2 k s (h1.2 k s hs hp) hp⟩

theorem readsBack_keeps {p q : acttab} {o : Int} {t : List lookahead_action}
    (hk : Keeps p q) (hnn : ∀ e ∈ t, 0 ≤ e.lookahead) (h : ReadsBack p o t) :
    ReadsBack q o t := by
  intro e he
  obtain ⟨h1, h2, h3⟩ := h e he
  have := hk.1
  exact ⟨h1, by omega, hk.2 _ e h3 (hnn e he)⟩

/-- One commit from a state with an empty buffer: the emitted pairs become the pending
transaction, and `acttab_insert` runs as described by `Step`. -/
theorem commit_spec {p0 : acttab} (hT : TabInv p0) (h0 : p0.nLookahead = 0)
    {t : List lookahead_action} (hne : t ≠ []) (hnn : ∀ e ∈ t, 0 ≤ e.lookahead) :
    ∃ (p p1 q : acttab) (i : Nat), emitAll p0 t = .ok p ∧ txn p = t ∧ TabInv p ∧ TxnInv p ∧
      0 < p.nLookahead ∧ p.nAction = p0.nAction ∧ p.nActionAlloc = p0.nActionAlloc ∧
      p.aAction = p0.aAction ∧
      acttab_insert p = .ok (q, (i : Int) - p.mnLookahead) ∧
      commit p0 t = .ok (q, (i : Int) - p.mnLookahead) ∧ Step p p1 q i ∧
      (Reachable p0 → Reachable p ∧ Reachable q) := by
  obtain ⟨p, hp, hT1, hX1, htx, hn, h1, h2, h3, hR⟩ :=
    emitAll_spec t hT (txnInv_of_empty h0) hnn
  have hpos : 0 < p.nLookahead := by
    rw [hn]
    have : 0 < t.length := List.length_pos.mpr hne
    omega
  obtain ⟨p1, q, i, hq, st⟩ := insert_step hT1 hX1 hpos
  refine ⟨p, p1, q, i, hp, ?_, hT1, hX1, hpos, h1, h2, h3, hq, ?_, st, ?_⟩
  · rw [htx, txn_eq_nil h0]
    rfl
  · unfold commit
    rw [hp]
    exact hq
  · intro hr
    exact ⟨hR hr, Reachable.insert (hR hr) hq⟩

/-- One commit of a valid transaction returns, keeps the table and reads back. -/
theorem commit_readback {p0 : acttab} (hT : TabInv p0) (h0 : p0.nLookahead = 0)
    {t : List lookahead_action} (hv : ValidTxn t) :
    ∃ q o, commit p0 t = .ok (q, o) ∧ TabInv q ∧ q.nLookahead = 0 ∧ Keeps p0 q ∧
      ReadsBack q o t ∧ (Reachable p0 → Reachable q) := by
  obtain ⟨hne, hnn, hnd⟩ := hv
  obtain ⟨p, p1, q, i, _, htx, hT1, hX1, _, h1, _, h3, _, hc, st, hR⟩ :=
    commit_spec hT h0 hne hnn
  refine ⟨q, _, hc, step_inv hT1 hX1 st, step_qLook st, ⟨?_, ?_⟩, ?_, fun hr => (hR hr).2⟩
  · rw [← h1]
    exact st.nle
  · intro k s hs hpop
    rw [← h3] at hs
    exact step_frame hT1 hX1 st k s hs hpop
  · intro e he
    rw [← htx] at he hnd
    obtain ⟨h4, h5, e2, he2, hl, hq⟩ := step_readback st e he
    rw [eq_of_lookahead_eq hnd he he2 hl] at hq
    exact ⟨h4, h5, hq⟩

/-- A run of commits of valid transactions returns one offset per transaction, keeps what
the table held before, and every transaction reads back from the final table. -/
theorem commitAll_spec (ts : List (List lookahead_action)) :
    ∀ {p0 : acttab}, TabInv p0 → p0.nLookahead = 0 → (∀ t ∈ ts, ValidTxn t) →
    ∃ q os, commitAll p0 ts = .ok (q, os) ∧ os.length = ts.length ∧ TabInv q ∧
      q.nLookahead = 0 ∧ Keeps p0 q ∧ (∀ ot ∈ os.zip ts, ReadsBack q ot.1 ot.2) ∧
      (Reachable p0 → Reachable q) := by
  induction ts with
  | nil =>
    intro p0 hT h0 _
    exact ⟨p0, [], rfl, rfl, hT, h0, keeps_refl _, by simp, id⟩
  | cons t ts ih =>
    intro p0 hT h0 hv
    obtain ⟨q1, o, hc, hT1, h1, hk1, hrb, hR1⟩ := commit_readback hT h0 (hv t (by simp))
    obtain ⟨q, os, hcs, hlen, hT2, h2, hk2, hrbs, hR2⟩ :=
      ih hT1 h1 (fun x hx => hv x (by simp [hx]))
    refine ⟨q, o :: os, ?_, by simp [hlen], hT2, h2, keeps_trans hk1 hk2, ?_,
      fun hr => hR2 (hR1 hr)⟩
    · simp [commitAll, hc, hcs]
    · intro ot hot
      rw [List.zip_cons_cons, List.mem_cons] at hot
      rcases hot with h | h
      · rw [h]
        exact readsBack_keeps hk2 (hv t (by simp)).2.1 hrb
      · exact hrbs ot h

theorem commitAll_append (ts1 ts2 : List (List lookahead_action)) :
    ∀ {p0 p1 p2 : acttab} {os1 os2 : List Int}, commitAll p0 ts1 = .ok (p1, os1) →
      commitAll p1 ts2 = .ok (p2, os2) → commitAll p0 (ts1 ++ ts2) = .ok (p2, os1 ++ os2) := by
  induction ts1 with
  | nil =>
    intro p0 p1 p2 os1 os2 h1 h2
    simp only [commitAll] at h1
    obtain ⟨rfl, rfl⟩ := Prod.mk.inj (Except.ok.inj h1)
    simpa using h2
  | cons t ts ih =>
    intro p0 p1 p2 os1 os2 h1 h2
    simp only [commitAll] at h1
    cases hc : commit p0 t with
    | error f => simp [hc] at h1
    | ok r =>
      obtain ⟨pa, o⟩ := r
      rw [hc] at h1
      simp only at h1
      cases hcs : commitAll pa ts with
      | error f => simp [hcs] at h1
      | ok r2 =>
        obtain ⟨pb, os⟩ := r2
        rw [hcs] at h1
        simp only at h1
        obtain ⟨rfl, rfl⟩ := Prod.mk.inj (Except.ok.inj h1)
        have := ih hcs h2
        simp [commitAll, hc, this]

/-! ## The claims -/

theorem reachable_stateAfter {ts : List (List lookahead_action)} {t : List lookahead_action}
    (hv : ∀ x ∈ ts, ValidTxn x) (hnn : ∀ e ∈ t, 0 ≤ e.lookahead) :
    Reachable (stateAfter ts t) := by
  obtain ⟨q, os, hq, _, hT, h0, _, _, hR⟩ := commitAll_spec ts tabInv_alloc rfl hv
  obtain ⟨q2, hq2, _, _, _, _, _, _, _, hR2⟩ := emitAll_spec t hT (txnInv_of_empty h0) hnn
  unfold stateAfter
  rw [hq]
  simp only
  rw [hq2]
  exact hR2 (hR Reachable.alloc)

/-- C1, packing soundness across commits.  Commit any sequence `ts1 ++ ts2` of valid
transactions (non-empty, lookaheads `≥ 0` and pairwise distinct) to the empty table.  Every
call returns; after the last `acttab_insert` every transaction, with the offset `O` that was
returned for it, reads back: each of its pairs `(L, A)` has `0 ≤ O + L < nAction` and
`aAction[O + L] = (L, A)`.  In particular the commits of `ts2` change no slot that was
populated when `ts1` had been committed. -/
theorem packing_soundness (ts1 ts2 : List (List lookahead_action))
    (h1 : ∀ t ∈ ts1, ValidTxn t) (h2 : ∀ t ∈ ts2, ValidTxn t) :
    ∃ p1 os1 p2 os2, commitAll acttab_alloc ts1 = .ok (p1, os1) ∧
      commitAll p1 ts2 = .ok (p2, os2) ∧
      commitAll acttab_alloc (ts1 ++ ts2) = .ok (p2, os1 ++ os2) ∧
      (os1 ++ os2).length = (ts1 ++ ts2).length ∧
      (∀ ot ∈ (os1 ++ os2).zip (ts1 ++ ts2), ReadsBack p2 ot.1 ot.2) ∧ Keeps p1 p2 := by
  obtain ⟨p1, os1, hc1, hl1, hT1, h01, _, hrb1, _⟩ := commitAll_spec ts1 tabInv_alloc rfl h1
  obtain ⟨p2, os2, hc2, hl2, _, _, hk, hrb2, _⟩ := commitAll_spec ts2 hT1 h01 h2
  refine ⟨p1, os1, p2, os2, hc1, hc2, commitAll_append ts1 ts2 hc1 hc2, by simp [hl1, hl2],
    ?_, hk⟩
  rintro ⟨o, t⟩ hot
  rw [List.zip_append hl1, List.mem_append] at hot
  rcases hot with h | h
  · have hmem : t ∈ ts1 := (List.of_mem_zip h).2
    exact readsBack_keeps hk (h1 _ hmem).2.1 (hrb1 (o, t) h)
  · exact hrb2 (o, t) h

theorem packing_soundness_witness :
    (∀ t ∈ [[(⟨5, 1⟩ : lookahead_action)], [⟨7, 2⟩, ⟨2, 4⟩]], ValidTxn t) ∧
    (∀ t ∈ [[(⟨3, 3⟩ : lookahead_action)]], ValidTxn t) ∧
    ∃ p1 os1 p2 os2,
      commitAll acttab_alloc [[(⟨5, 1⟩ : lookahead_action)], [⟨7, 2⟩, ⟨2, 4⟩]] = .ok (p1, os1) ∧
      commitAll p1 [[(⟨3, 3⟩ : lookahead_action)]] = .ok (p2, os2) ∧
      commitAll acttab_alloc ([[(⟨5, 1⟩ : lookahead_action)], [⟨7, 2⟩, ⟨2, 4⟩]] ++ [[(⟨3, 3⟩ : lookahead_action)]]) =
        .ok (p2, os1 ++ os2) ∧
      (os1 ++ os2).length =
        ([[(⟨5, 1⟩ : lookahead_action)], [⟨7, 2⟩, ⟨2, 4⟩]] ++ [[(⟨3, 3⟩ : lookahead_action)]]).length ∧
      (∀ ot ∈ (os1 ++ os2).zip ([[(⟨5, 1⟩ : lookahead_action)], [⟨7, 2⟩, ⟨2, 4⟩]] ++ [[(⟨3, 3⟩ : lookahead_action)]]),
        ReadsBack p2 ot.1 ot.2) ∧ Keeps p1 p2 :=
  ⟨by decide, by decide, packing_soundness _ _ (by decide) (by decide)⟩

/-- Every call of `acttab_insert` on a reachable state with a pending transaction returns,
and its run is described by `Step`. -/
theorem reachable_step {p : acttab} (hr : Reachable p) (hpos : 0 < p.nLookahead) :
    ∃ (p1 q : acttab) (i : Nat),
      acttab_insert p = .ok (q, (i : Int) - p.mnLookahead) ∧ Step p p1 q i ∧
      TabInv p ∧ TxnInv p :=
  let ⟨hT, hX⟩ := reachable_inv hr
  let ⟨p1, q, i, hq, st⟩ := insert_step hT hX hpos
  ⟨p1, q, i, hq, st, hT, hX⟩

/-- C2, counterexample to the contract with no precondition beyond "at least one emit".
From the empty table emit `(3, 1)` and then `(3, 2)`: `acttab_insert` returns, but no table
and offset it could return read back both pairs (slot `O + 3` holds `(3, 2)`). -/
theorem commit_contract_needs_distinct_lookaheads :
    Reachable (stateAfter [] [⟨3, 1⟩, ⟨3, 2⟩]) ∧
    0 < (stateAfter [] [⟨3, 1⟩, ⟨3, 2⟩]).nLookahead ∧
    txn (stateAfter [] [⟨3, 1⟩, ⟨3, 2⟩]) = [⟨3, 1⟩, ⟨3, 2⟩] ∧
    (∃ q, acttab_insert (stateAfter [] [⟨3, 1⟩, ⟨3, 2⟩]) = .ok (q, -3) ∧
      q.aAction[((-3 : Int) + 3).toNat]? = some ⟨3, 2⟩) ∧
    ¬ ∃ q o, acttab_insert (stateAfter [] [⟨3, 1⟩, ⟨3, 2⟩]) = .ok (q, o) ∧
      ∀ e ∈ txn (stateAfter [] [⟨3, 1⟩, ⟨3, 2⟩]),
        q.aAction[(o + e.lookahead).toNat]? = some e := by
  refine ⟨reachable_stateAfter (by decide) (by decide), by decide, by decide,
    ⟨_, rfl, by decide⟩, ?_⟩
  rintro ⟨q, o, hq, h⟩
  have hq0 : acttab_insert (stateAfter [] [⟨3, 1⟩, ⟨3, 2⟩]) =
      .ok (_, -3) := rfl
  rw [hq0] at hq
  obtain ⟨rfl, rfl⟩ := Prod.mk.inj (Except.ok.inj hq)
  have := h ⟨3, 1⟩ (by decide)
  revert this
  decide

/-- C2 as amended: in every reachable state whose pending transaction (at least one
`acttab_action`, lookaheads `≥ 0` by reachability) has pairwise distinct lookaheads,
`acttab_insert` returns an offset `O` with `aAction[O + L] = (L, A)` for every emitted pair
`(L, A)`, the index `O + L` lying in `[0, nAction)`. -/
theorem commit_contract (p : acttab) (hr : Reachable p) (hpos : 0 < p.nLookahead)
    (hnd : ((txn p).map (fun e => e.lookahead)).Nodup) :
    ∃ q o, acttab_insert p = .ok (q, o) ∧ ReadsBack q o (txn p) := by
  obtain ⟨p1, q, i, hq, st, _, _⟩ := reachable_step hr hpos
  refine ⟨q, _, hq, ?_⟩
  intro e he
  obtain ⟨h4, h5, e2, he2, hl, hq2⟩ := step_readback st e he
  rw [eq_of_lookahead_eq hnd he he2 hl] at hq2
  exact ⟨h4, h5, hq2⟩

theorem commit_contract_witness :
    Reachable (stateAfter [[⟨5, 1⟩]] [⟨7, 2⟩, ⟨2, 4⟩]) ∧
    0 < (stateAfter [[⟨5, 1⟩]] [⟨7, 2⟩, ⟨2, 4⟩]).nLookahead ∧
    ((txn (stateAfter [[⟨5, 1⟩]] [⟨7, 2⟩, ⟨2, 4⟩])).map (fun e => e.lookahead)).Nodup ∧
    ∃ q o, acttab_insert (stateAfter [[⟨5, 1⟩]] [⟨7, 2⟩, ⟨2, 4⟩]) = .ok (q, o) ∧
      ReadsBack q o (txn (stateAfter [[⟨5, 1⟩]] [⟨7, 2⟩, ⟨2, 4⟩])) :=
  ⟨reachable_stateAfter (by decide) (by decide), by decide, by decide,
    commit_contract _ (reachable_stateAfter (by decide) (by decide)) (by decide) (by decide)⟩

/-- C3, failing input.  Commit `{(1,1)}`, `{(2,2)}`, `{(0,3)}`, `{(4,4),(17,5)}` to the empty
table.  The hole search of the fourth commit rejects `i = 3` and `i = 4`, runs out at its
bound `i = 5` and the pairs are written there untested: the returned offsets are
`-1, 0, 1, 1`.  The third state has offset `1` and no action on lookahead `4`, yet its probe
for `4` hits slot `5 = (4,4)`; the fourth state has no action on lookahead `0`, yet its
probe for `0` hits slot `1 = (0,3)`. -/
theorem probe_hits_foreign_entry :
    (∀ t ∈ [[(⟨1, 1⟩ : lookahead_action)], [⟨2, 2⟩], [⟨0, 3⟩], [⟨4, 4⟩, ⟨17, 5⟩]], ValidTxn t) ∧
    ∃ p, commitAll acttab_alloc [[⟨1, 1⟩], [⟨2, 2⟩], [⟨0, 3⟩], [⟨4, 4⟩, ⟨17, 5⟩]] =
        .ok (p, [-1, 0, 1, 1]) ∧
      p.nAction = 19 ∧ p.aAction[5]? = some ⟨4, 4⟩ ∧ p.aAction[1]? = some ⟨0, 3⟩ ∧
      ProbeHits p 1 4 ∧ ProbeHits p 1 0 :=
  ⟨by decide, _, rfl, by decide, by decide, by decide, by decide, by decide⟩

/-- C4, counterexample: two commits of the same transaction `{(0,1)}` are two committed
states with the same offset `0`, and both claim slot `0`. -/
theorem shared_slot_after_reuse :
    ¬ ∀ ts : List (List lookahead_action), (∀ t ∈ ts, ValidTxn t) →
      ∃ p os, commitAll acttab_alloc ts = .ok (p, os) ∧ NoCollision os ts := by
  intro h
  obtain ⟨p, os, hc, hn⟩ := h [[⟨0, 1⟩], [⟨0, 1⟩]] (by decide)
  have hc0 : commitAll acttab_alloc [[⟨0, 1⟩], [⟨0, 1⟩]] = .ok (_, [0, 0]) := rfl
  rw [hc0] at hc
  obtain ⟨_, rfl⟩ := Prod.mk.inj (Except.ok.inj hc)
  exact hn 0 1 0 0 [⟨0, 1⟩] [⟨0, 1⟩] ⟨0, 1⟩ ⟨0, 1⟩ (by decide) rfl rfl (by decide) (by decide)
    rfl

/-- C4 as amended: after any sequence of commits of valid transactions to the empty table,
two committed states that claim the same slot `k = O1 + L1 = O2 + L2` agree on it: they have
the same offset and emitted the same pair `(L, A)` for it. -/
theorem no_collision (ts : List (List lookahead_action)) (hv : ∀ t ∈ ts, ValidTxn t) :
    ∃ p os, commitAll acttab_alloc ts = .ok (p, os) ∧ os.length = ts.length ∧
      ∀ (o1 o2 : Int) (t1 t2 : List lookahead_action) (e1 e2 : lookahead_action),
        (o1, t1) ∈ os.zip ts → (o2, t2) ∈ os.zip ts → e1 ∈ t1 → e2 ∈ t2 →
        o1 + e1.lookahead = o2 + e2.lookahead → o1 = o2 ∧ e1 = e2 := by
  obtain ⟨p, os, hc, hl, _, _, _, hrb, _⟩ := commitAll_spec ts tabInv_alloc rfl hv
  refine ⟨p, os, hc, hl, ?_⟩
  intro o1 o2 t1 t2 e1 e2 h1 h2 he1 he2 hk
  obtain ⟨_, _, hs1⟩ := hrb (o1, t1) h1 e1 he1
  obtain ⟨_, _, hs2⟩ := hrb (o2, t2) h2 e2 he2
  simp only at hs1 hs2
  rw [hk, hs2] at hs1
  have hee : e2 = e1 := Option.some.inj hs1
  rw [hee] at hk
  exact ⟨by omega, hee.symm⟩

theorem no_collision_witness :
    (∀ t ∈ [[(⟨0, 1⟩ : lookahead_action), ⟨3, 2⟩], [⟨0, 1⟩, ⟨3, 2⟩], [⟨1, 3⟩]], ValidTxn t) ∧
    ∃ p os,
      commitAll acttab_alloc [[(⟨0, 1⟩ : lookahead_action), ⟨3, 2⟩], [⟨0, 1⟩, ⟨3, 2⟩], [⟨1, 3⟩]] =
        .ok (p, os) ∧
      os.length = [[(⟨0, 1⟩ : lookahead_action), ⟨3, 2⟩], [⟨0, 1⟩, ⟨3, 2⟩], [⟨1, 3⟩]].length ∧
      ∀ (o1 o2 : Int) (t1 t2 : List lookahead_action) (e1 e2 : lookahead_action),
        (o1, t1) ∈ os.zip [[(⟨0, 1⟩ : lookahead_action), ⟨3, 2⟩], [⟨0, 1⟩, ⟨3, 2⟩], [⟨1, 3⟩]] →
        (o2, t2) ∈ os.zip [[(⟨0, 1⟩ : lookahead_action), ⟨3, 2⟩], [⟨0, 1⟩, ⟨3, 2⟩], [⟨1, 3⟩]] →
        e1 ∈ t1 → e2 ∈ t2 → o1 + e1.lookahead = o2 + e2.lookahead → o1 = o2 ∧ e1 = e2 :=
  ⟨by decide, no_collision _ (by decide)⟩

/-- C5, failing input.  In the table reached by committing `{(1,1)}`, `{(2,2)}`, `{(0,3)}`,
commit `{(4,4),(17,5)}` twice in a row.  The first commit returns offset `1` (the hole search
ran out at its bound); the second finds no exact match, because offset `1` also claims slot
`1 = (0,3)` and the count test fails, so it places the pairs again: it returns offset `2`
and `nAction` grows from `19` to `20`. -/
theorem recommit_changes_offset :
    ∃ p0 p1 p2, commitAll acttab_alloc [[⟨1, 1⟩], [⟨2, 2⟩], [⟨0, 3⟩]] = .ok (p0, [-1, 0, 1]) ∧
      Reachable p0 ∧ p0.nLookahead = 0 ∧ ValidTxn [⟨4, 4⟩, ⟨17, 5⟩] ∧
      commit p0 [⟨4, 4⟩, ⟨17, 5⟩] = .ok (p1, 1) ∧
      commit p1 [⟨4, 4⟩, ⟨17, 5⟩] = .ok (p2, 2) ∧
      p1.nAction = 19 ∧ p2.nAction = 20 ∧ p1.aAction[6]? = some emptySlot ∧
      p2.aAction[6]? = some ⟨4, 4⟩ := by
  obtain ⟨q, os, hq, _, _, _, _, _, hR⟩ :=
    commitAll_spec [[⟨1, 1⟩], [⟨2, 2⟩], [⟨0, 3⟩]] tabInv_alloc rfl (by decide)
  have hq0 : commitAll acttab_alloc [[⟨1, 1⟩], [⟨2, 2⟩], [⟨0, 3⟩]] = .ok (_, [-1, 0, 1]) := rfl
  rw [hq0] at hq
  obtain ⟨rfl, _⟩ := Prod.mk.inj (Except.ok.inj hq)
  exact ⟨_, _, _, rfl, hR Reachable.alloc, by decide, by decide, rfl, rfl, by decide, by decide,
    by decide, by decide⟩

/-- C6, failing inputs.  (i) In the table `(0,1), empty, (2,2)` (one commit of
`{(0,1),(2,2)}`) with `{(1,3)}` pending, no index passes the exact-match test, and `i = 3` is
the smallest index that meets the three constraints of the specification.  The loop at lines
238-240 has no `lookahead < 0` guard, so at `i = 3` the empty slot `1` (lookahead
`-1 = 1 + 1 - 3`) breaks it; `acttab_insert` goes on to `i = 4` and returns offset `4 - 1`.
(ii) In the table `(1,1), (0,3), (2,2)` (commits of `{(1,1)}`, `{(2,2)}`, `{(0,3)}`) with
`{(4,4),(17,5)}` pending, no index passes the exact-match test and the smallest index that
meets the three constraints is `6`.  The hole search rejects every index below its bound
`nActionAlloc - mxLookahead = 5` and leaves the loop with `i = 5`, where constraint (3) fails
(slot `1` holds lookahead `0 = 1 + 4 - 5`); `acttab_insert` returns offset `5 - 4`. -/
theorem hole_search_is_not_first_fit :
    (Reachable (stateAfter [[⟨0, 1⟩, ⟨2, 2⟩]] [⟨1, 3⟩]) ∧
      growTable (stateAfter [[⟨0, 1⟩, ⟨2, 2⟩]] [⟨1, 3⟩]) =
        .ok (stateAfter [[⟨0, 1⟩, ⟨2, 2⟩]] [⟨1, 3⟩]) ∧
      (∀ x, x < (stateAfter [[⟨0, 1⟩, ⟨2, 2⟩]] [⟨1, 3⟩]).nAction →
        ¬ ExactAt (stateAfter [[⟨0, 1⟩, ⟨2, 2⟩]] [⟨1, 3⟩]) x) ∧
      SpecFitsAt (stateAfter [[⟨0, 1⟩, ⟨2, 2⟩]] [⟨1, 3⟩]) 3 ∧
      (∀ x, x < 3 → ¬ SpecFitsAt (stateAfter [[⟨0, 1⟩, ⟨2, 2⟩]] [⟨1, 3⟩]) x) ∧
      ¬ FitsAt (stateAfter [[⟨0, 1⟩, ⟨2, 2⟩]] [⟨1, 3⟩]) 3 ∧
      ∃ q, acttab_insert (stateAfter [[⟨0, 1⟩, ⟨2, 2⟩]] [⟨1, 3⟩]) = .ok (q, 4 - 1) ∧
        q.aAction[3]? = some emptySlot ∧ q.aAction[4]? = some ⟨1, 3⟩) ∧
    (Reachable (stateAfter [[⟨1, 1⟩], [⟨2, 2⟩], [⟨0, 3⟩]] [⟨4, 4⟩, ⟨17, 5⟩]) ∧
      growTable (stateAfter [[⟨1, 1⟩], [⟨2, 2⟩], [⟨0, 3⟩]] [⟨4, 4⟩, ⟨17, 5⟩]) =
        .ok (stateAfter [[⟨1, 1⟩], [⟨2, 2⟩], [⟨0, 3⟩]] [⟨4, 4⟩, ⟨17, 5⟩]) ∧
      (∀ x, x < (stateAfter [[⟨1, 1⟩], [⟨2, 2⟩], [⟨0, 3⟩]] [⟨4, 4⟩, ⟨17, 5⟩]).nAction →
        ¬ ExactAt (stateAfter [[⟨1, 1⟩], [⟨2, 2⟩], [⟨0, 3⟩]] [⟨4, 4⟩, ⟨17, 5⟩]) x) ∧
      holeBound (stateAfter [[⟨1, 1⟩], [⟨2, 2⟩], [⟨0, 3⟩]] [⟨4, 4⟩, ⟨17, 5⟩]) = 5 ∧
      SpecFitsAt (stateAfter [[⟨1, 1⟩], [⟨2, 2⟩], [⟨0, 3⟩]] [⟨4, 4⟩, ⟨17, 5⟩]) 6 ∧
      (∀ x, x < 6 →
        ¬ SpecFitsAt (stateAfter [[⟨1, 1⟩], [⟨2, 2⟩], [⟨0, 3⟩]] [⟨4, 4⟩, ⟨17, 5⟩]) x) ∧
      ∃ q, acttab_insert (stateAfter [[⟨1, 1⟩], [⟨2, 2⟩], [⟨0, 3⟩]] [⟨4, 4⟩, ⟨17, 5⟩]) =
          .ok (q, 5 - 4) ∧
        q.aAction[5]? = some ⟨4, 4⟩ ∧ q.aAction[18]? = some ⟨17, 5⟩) := by
  refine ⟨⟨reachable_stateAfter (by decide) (by decide), rfl, by decide, by decide, by decide,
    ?_, _, rfl, by decide, by decide⟩,
    ⟨reachable_stateAfter (by decide) (by decide), rfl, by decide, by decide, by decide,
      by decide, _, rfl, by decide, by decide⟩⟩
  intro hf
  exact hf.2.2 1 emptySlot (by decide) (by decide) (by decide)

/-- With an empty buffer the first `acttab_action` overwrites `mnLookahead`, `mxLookahead`
and `mnAction`: their old values do not matter. -/
theorem action_fresh (p : acttab) (h0 : p.nLookahead = 0) (a b c l x : Int) :
    acttab_action { p with mnLookahead := a, mxLookahead := b, mnAction := c } l x =
      acttab_action p l x := by
  unfold acttab_action
  by_cases hfull : p.nLookahead ≥ p.nLookaheadAlloc
  · simp only [if_pos hfull, if_pos h0]
  · simp only [if_neg hfull, if_pos h0]

/-- Emitting a transaction, with no assumption on the sign of the lookaheads. -/
theorem emitAll_tracked (t : List lookahead_action) :
    ∀ {p : acttab}, p.aLookahead.length = p.nLookaheadAlloc →
      p.nLookahead ≤ p.nLookaheadAlloc → Tracked p →
    ∃ q, emitAll p t = .ok q ∧ Tracked q ∧ txn q = txn p ++ t ∧
      q.nLookahead = p.nLookahead + t.length ∧
      q.nAction = p.nAction ∧ q.nActionAlloc = p.nActionAlloc ∧ q.aAction = p.aAction := by
  induction t with
  | nil =>
    intro p _ _ hX
    exact ⟨p, rfl, hX, by simp, by simp, rfl, rfl, rfl⟩
  | cons e t ih =>
    intro p hb hl hX
    obtain ⟨q1, hq1, hX1, htx1, hn1, h1, h2, h3, hb1, hl1⟩ :=
      action_tracked hb hl hX e.lookahead e.action
    obtain ⟨q, hq, hX2, htx2, hn2, h4, h5, h6⟩ := ih hb1 hl1 hX1
    refine ⟨q, ?_, hX2, ?_, ?_, by omega, by omega, by rw [h6, h3]⟩
    · simp [emitAll, hq1, hq]
    · rw [htx2, htx1]
      simp
    · rw [hn2, hn1]
      simp
      omega

/-- C7, `acttab_action` tracks the transaction.  Start from any state with an empty buffer
(`nLookahead = 0`, as after `acttab_alloc` or `acttab_insert`) and call `acttab_action` for
the `k ≥ 1` pairs of `t`.  Every call returns; then `nLookahead = k`, `aLookahead[0..k)`
holds the pairs in call order, `mnLookahead` and `mxLookahead` are the least and the greatest
emitted lookahead, and `mnAction` is the action of the first pair whose lookahead is the
least.  The values of `mnLookahead`, `mxLookahead`, `mnAction` left by the previous
transaction have no influence on the state reached. -/
theorem action_tracks_transaction (p0 : acttab) (h0 : p0.nLookahead = 0)
    (hb : p0.aLookahead.length = p0.nLookaheadAlloc) (t : List lookahead_action)
    (hne : t ≠ []) :
    ∃ p, emitAll p0 t = .ok p ∧ p.nLookahead = t.length ∧ p.aLookahead.take t.length = t ∧
      (∀ e ∈ t, p.mnLookahead ≤ e.lookahead ∧ e.lookahead ≤ p.mxLookahead) ∧
      (∃ e ∈ t, e.lookahead = p.mnLookahead) ∧ (∃ e ∈ t, e.lookahead = p.mxLookahead) ∧
      t.find? (fun e => decide (e.lookahead = p.mnLookahead)) =
        some ⟨p.mnLookahead, p.mnAction⟩ ∧
      ∀ a b c : Int,
        emitAll { p0 with mnLookahead := a, mxLookahead := b, mnAction := c } t = .ok p := by
  obtain ⟨p, hp, hX, htx, hn, _, _, _⟩ :=
    emitAll_tracked t hb (by omega) (tracked_of_empty h0)
  have htx2 : txn p = t := by
    rw [htx, txn_eq_nil h0]
    rfl
  have hlen : p.nLookahead = t.length := by omega
  have hpos : 0 < p.nLookahead := by
    rw [hlen]
    exact List.length_pos.mpr hne
  have hfirst := hX.first hpos
  rw [htx2] at hfirst
  refine ⟨p, hp, hlen, ?_, ?_, ?_, ?_, hfirst, ?_⟩
  · rw [← hlen]
    exact htx2
  · intro e he
    rw [← htx2] at he
    exact ⟨hX.lo e he, hX.hi e he⟩
  · exact ⟨_, List.mem_of_find?_eq_some hfirst, rfl⟩
  · obtain ⟨e, he, hmx⟩ := hX.mxIn hpos
    rw [htx2] at he
    exact ⟨e, he, hmx⟩
  · intro a b c
    cases t with
    | nil => exact absurd rfl hne
    | cons e t =>
      rw [← hp]
      simp only [emitAll]
      rw [action_fresh p0 h0]

theorem action_tracks_transaction_witness :
    acttab_alloc.nLookahead = 0 ∧
    acttab_alloc.aLookahead.length = acttab_alloc.nLookaheadAlloc ∧
    ([⟨3, 7⟩, ⟨1, 5⟩, ⟨4, 2⟩, ⟨1, 6⟩] : List lookahead_action) ≠ [] ∧
    ∃ p, emitAll acttab_alloc [⟨3, 7⟩, ⟨1, 5⟩, ⟨4, 2⟩, ⟨1, 6⟩] = .ok p ∧
      p.nLookahead = ([⟨3, 7⟩, ⟨1, 5⟩, ⟨4, 2⟩, ⟨1, 6⟩] : List lookahead_action).length ∧
      p.aLookahead.take ([⟨3, 7⟩, ⟨1, 5⟩, ⟨4, 2⟩, ⟨1, 6⟩] : List lookahead_action).length =
        [⟨3, 7⟩, ⟨1, 5⟩, ⟨4, 2⟩, ⟨1, 6⟩] ∧
      (∀ e ∈ ([⟨3, 7⟩, ⟨1, 5⟩, ⟨4, 2⟩, ⟨1, 6⟩] : List lookahead_action),
        p.mnLookahead ≤ e.lookahead ∧ e.lookahead ≤ p.mxLookahead) ∧
      (∃ e ∈ ([⟨3, 7⟩, ⟨1, 5⟩, ⟨4, 2⟩, ⟨1, 6⟩] : List lookahead_action),
        e.lookahead = p.mnLookahead) ∧
      (∃ e ∈ ([⟨3, 7⟩, ⟨1, 5⟩, ⟨4, 2⟩, ⟨1, 6⟩] : List lookahead_action),
        e.lookahead = p.mxLookahead) ∧
      ([⟨3, 7⟩, ⟨1, 5⟩, ⟨4, 2⟩, ⟨1, 6⟩] : List lookahead_action).find?
          (fun e => decide (e.lookahead = p.mnLookahead)) =
        some ⟨p.mnLookahead, p.mnAction⟩ ∧
      ∀ a b c : Int,
        emitAll { acttab_alloc with mnLookahead := a, mxLookahead := b, mnAction := c }
          [⟨3, 7⟩, ⟨1, 5⟩, ⟨4, 2⟩, ⟨1, 6⟩] = .ok p :=
  ⟨rfl, rfl, by decide, action_tracks_transaction acttab_alloc rfl rfl _ (by decide)⟩

/-- C8, the empty commit.  In every reachable state `acttab_insert` fails on its assertion
exactly when `nLookahead = 0` on entry, and returns otherwise; every call that returns
leaves `nLookahead = 0`, so a second `acttab_insert` right after it fails on the
assertion. -/
theorem empty_commit_fails (p : acttab) (hr : Reachable p) :
    (acttab_insert p = .error .assertion ↔ p.nLookahead = 0) ∧
    (0 < p.nLookahead → ∃ q o, acttab_insert p = .ok (q, o)) ∧
    (∀ q o, acttab_insert p = .ok (q, o) →
      q.nLookahead = 0 ∧ acttab_insert q = .error .assertion) := by
  have hfail : ∀ x : acttab, x.nLookahead = 0 → acttab_insert x = .error .assertion := by
    intro x hx
    unfold acttab_insert
    rw [if_pos hx]
  refine ⟨⟨?_, hfail p⟩, ?_, ?_⟩
  · intro h
    by_contra h0
    obtain ⟨p1, q, i, hq, _⟩ := reachable_step hr (Nat.pos_of_ne_zero h0)
    rw [hq] at h
    cases h
  · intro hpos
    obtain ⟨p1, q, i, hq, _⟩ := reachable_step hr hpos
    exact ⟨q, _, hq⟩
  · intro q o hq
    have hpos : 0 < p.nLookahead := by
      by_contra h0
      rw [hfail p (by omega)] at hq
      cases hq
    obtain ⟨p1, q2, i, hq2, st, _⟩ := reachable_step hr hpos
    rw [hq] at hq2
    have hqq : q = q2 := congrArg Prod.fst (Except.ok.inj hq2)
    rw [hqq]
    exact ⟨step_qLook st, hfail q2 (step_qLook st)⟩

theorem empty_commit_fails_witness :
    Reachable (stateAfter [[⟨5, 1⟩]] [⟨2, 9⟩]) ∧
    (acttab_insert (stateAfter [[⟨5, 1⟩]] [⟨2, 9⟩]) = .error .assertion ↔
      (stateAfter [[⟨5, 1⟩]] [⟨2, 9⟩]).nLookahead = 0) ∧
    (0 < (stateAfter [[⟨5, 1⟩]] [⟨2, 9⟩]).nLookahead →
      ∃ q o, acttab_insert (stateAfter [[⟨5, 1⟩]] [⟨2, 9⟩]) = .ok (q, o)) ∧
    (∀ q o, acttab_insert (stateAfter [[⟨5, 1⟩]] [⟨2, 9⟩]) = .ok (q, o) →
      q.nLookahead = 0 ∧ acttab_insert q = .error .assertion) :=
  ⟨reachable_stateAfter (by decide) (by decide),
    empty_commit_fails _ (reachable_stateAfter (by decide) (by decide))⟩

/-- C9, offset range.  In every reachable state with a pending transaction `acttab_insert`
returns an offset `O` with `O + mnLookahead ≥ 0` and `O + mxLookahead < nAction` (`nAction`
after the call), where `mnLookahead` and `mxLookahead` bound the emitted lookaheads.  Hence,
if every lookahead is `< nTerminal`, then `O ≥ -nTerminal + 1`, and `O` differs from
`NO_OFFSET` as soon as `nTerminal - 1 < 2^31 - 1`. -/
theorem offset_range (p : acttab) (hr : Reachable p) (hpos : 0 < p.nLookahead) :
    ∃ q o, acttab_insert p = .ok (q, o) ∧
      0 ≤ o + p.mnLookahead ∧ o + p.mxLookahead < q.nAction ∧
      (∀ e ∈ txn p, p.mnLookahead ≤ e.lookahead ∧ e.lookahead ≤ p.mxLookahead) ∧
      ∀ nTerminal : Int, (∀ e ∈ txn p, e.lookahead < nTerminal) →
        -nTerminal + 1 ≤ o ∧ (nTerminal - 1 < 2 ^ 31 - 1 → o ≠ NO_OFFSET) := by
  obtain ⟨p1, q, i, hq, st, _, hX⟩ := reachable_step hr hpos
  refine ⟨q, _, hq, by omega, ?_, fun e he => ⟨hX.lo e he, hX.hi e he⟩, ?_⟩
  · obtain ⟨e, he, hmx⟩ := hX.mxIn hpos
    have := st.nlt e he
    unfold slotOf at this
    omega
  · intro nTerminal hlt
    have hmn := hlt _ (List.mem_of_find?_eq_some (hX.first hpos))
    simp only at hmn
    refine ⟨by omega, ?_⟩
    intro hsmall
    unfold NO_OFFSET
    norm_num at hsmall
    omega

theorem offset_range_witness :
    Reachable (stateAfter [[⟨5, 1⟩], [⟨7, 2⟩]] [⟨3, 3⟩, ⟨9, 4⟩]) ∧
    0 < (stateAfter [[⟨5, 1⟩], [⟨7, 2⟩]] [⟨3, 3⟩, ⟨9, 4⟩]).nLookahead ∧
    ∃ q o, acttab_insert (stateAfter [[⟨5, 1⟩], [⟨7, 2⟩]] [⟨3, 3⟩, ⟨9, 4⟩]) = .ok (q, o) ∧
      0 ≤ o + (stateAfter [[⟨5, 1⟩], [⟨7, 2⟩]] [⟨3, 3⟩, ⟨9, 4⟩]).mnLookahead ∧
      o + (stateAfter [[⟨5, 1⟩], [⟨7, 2⟩]] [⟨3, 3⟩, ⟨9, 4⟩]).mxLookahead < q.nAction ∧
      (∀ e ∈ txn (stateAfter [[⟨5, 1⟩], [⟨7, 2⟩]] [⟨3, 3⟩, ⟨9, 4⟩]),
        (stateAfter [[⟨5, 1⟩], [⟨7, 2⟩]] [⟨3, 3⟩, ⟨9, 4⟩]).mnLookahead ≤ e.lookahead ∧
        e.lookahead ≤ (stateAfter [[⟨5, 1⟩], [⟨7, 2⟩]] [⟨3, 3⟩, ⟨9, 4⟩]).mxLookahead) ∧
      ∀ nTerminal : Int,
        (∀ e ∈ txn (stateAfter [[⟨5, 1⟩], [⟨7, 2⟩]] [⟨3, 3⟩, ⟨9, 4⟩]),
          e.lookahead < nTerminal) →
        -nTerminal + 1 ≤ o ∧ (nTerminal - 1 < 2 ^ 31 - 1 → o ≠ NO_OFFSET) :=
  ⟨reachable_stateAfter (by decide) (by decide), by decide,
    offset_range _ (reachable_stateAfter (by decide) (by decide)) (by decide)⟩

/-- The exact-match test looks only at the used part of the table, which the capacity step
does not change. -/
theorem exactAt_congr (p : acttab) (A : Nat) (a : List lookahead_action)
    (hold : ∀ k : Nat, k < p.nAction → a[k]? = p.aAction[k]?) (x : Nat) (hx : x < p.nAction) :
    ExactAt { p with nActionAlloc := A, aAction := a } x ↔ ExactAt p x := by
  have hhost : HostedAt { p with nActionAlloc := A, aAction := a } x ↔ HostedAt p x := by
    constructor
    · intro h e he
      obtain ⟨h1, h2, h3⟩ := h e he
      have h1' : 0 ≤ slotOf p x e.lookahead := h1
      have h2' : slotOf p x e.lookahead < p.nAction := h2
      have h3' : a[(slotOf p x e.lookahead).toNat]? = some e := h3
      rw [hold _ (by omega)] at h3'
      exact ⟨h1', h2', h3'⟩
    · intro h e he
      obtain ⟨h1, h2, h3⟩ := h e he
      refine ⟨h1, h2, ?_⟩
      show a[(slotOf p x e.lookahead).toNat]? = some e
      rw [hold _ (by omega)]
      exact h3
  have hcnt : claimCount { p with nActionAlloc := A, aAction := a } x = claimCount p x := by
    unfold claimCount
    apply List.countP_congr
    intro j hj
    have hj2 : j < p.nAction := List.mem_range.mp hj
    have : claims { p with nActionAlloc := A, aAction := a } x j = claims p x j := by
      unfold claims
      show (match a[j]? with
        | some t => decide (0 ≤ t.lookahead ∧ t.lookahead = (j : Int) + p.mnLookahead - x)
        | none => false) = _
      rw [hold j hj2]
    rw [this]
  unfold ExactAt
  rw [hhost, hcnt]
  show (a[x]? = some ⟨p.mnLookahead, p.mnAction⟩ ∧ _) ↔ _
  rw [hold x hx]

/-- C10, the exact-match phase.  In a reachable state with a pending transaction, suppose
some index `i` in `[0, nAction)` passes the test (a) `aAction[i] = (mnLookahead, mnAction)`,
(b) every emitted `(L, A)` has `k = L - mnLookahead + i` in `[0, nAction)` with
`aAction[k] = (L, A)`, (c) the number of populated slots `j` in `[0, nAction)` with
`aAction[j].lookahead = j + mnLookahead - i` equals `nLookahead`.  Then `acttab_insert`
returns `i* - mnLookahead` for the largest such index `i*`, and changes neither `nAction`
nor the content of any slot. -/
theorem exact_match_reuse (p : acttab) (hr : Reachable p) (hpos : 0 < p.nLookahead)
    (hex : ∃ i, i < p.nAction ∧ ExactAt p i) :
    ∃ (i : Nat) (q : acttab), i < p.nAction ∧ ExactAt p i ∧
      (∀ x, i < x → x < p.nAction → ¬ ExactAt p x) ∧
      acttab_insert p = .ok (q, (i : Int) - p.mnLookahead) ∧
      q.nAction = p.nAction ∧ ∀ k : Nat, k < p.nActionAlloc → q.aAction[k]? = p.aAction[k]? := by
  obtain ⟨p1, q, i, hq, st, hT, _⟩ := reachable_step hr hpos
  have hle := hT.le
  have hcongr : ∀ x, x < p.nAction → (ExactAt p1 x ↔ ExactAt p x) := by
    intro x hx
    have h := exactAt_congr p p1.nActionAlloc p1.aAction
      (fun k hk => st.old k (by omega)) x hx
    rw [← st.same1] at h
    exact h
  have hn1 := step_nAction1 st
  rcases st.cases with hA | hB
  · have hA2 := hA
    obtain ⟨h1, h2, h3⟩ := hA2
    rw [hn1] at h1
    obtain ⟨hqa, hqn⟩ := step_exact st hA
    refine ⟨i, q, h1, (hcongr i h1).mp h2, ?_, hq, hqn, ?_⟩
    · intro x hx1 hx2 hx3
      exact h3 x hx1 (by rw [hn1]; exact hx2) ((hcongr x hx2).mpr hx3)
    · intro k hk
      rw [hqa]
      exact st.old k hk
  · obtain ⟨x, hx, hxe⟩ := hex
    exact absurd ((hcongr x hx).mpr hxe) (hB.1 x (by rw [hn1]; exact hx))

theorem exact_match_reuse_witness :
    Reachable (stateAfter [[⟨0, 1⟩, ⟨2, 2⟩], [⟨1, 3⟩]] [⟨2, 2⟩, ⟨0, 1⟩]) ∧
    0 < (stateAfter [[⟨0, 1⟩, ⟨2, 2⟩], [⟨1, 3⟩]] [⟨2, 2⟩, ⟨0, 1⟩]).nLookahead ∧
    (∃ i, i < (stateAfter [[⟨0, 1⟩, ⟨2, 2⟩], [⟨1, 3⟩]] [⟨2, 2⟩, ⟨0, 1⟩]).nAction ∧
      ExactAt (stateAfter [[⟨0, 1⟩, ⟨2, 2⟩], [⟨1, 3⟩]] [⟨2, 2⟩, ⟨0, 1⟩]) i) ∧
    ∃ (i : Nat) (q : acttab),
      i < (stateAfter [[⟨0, 1⟩, ⟨2, 2⟩], [⟨1, 3⟩]] [⟨2, 2⟩, ⟨0, 1⟩]).nAction ∧
      ExactAt (stateAfter [[⟨0, 1⟩, ⟨2, 2⟩], [⟨1, 3⟩]] [⟨2, 2⟩, ⟨0, 1⟩]) i ∧
      (∀ x, i < x → x < (stateAfter [[⟨0, 1⟩, ⟨2, 2⟩], [⟨1, 3⟩]] [⟨2, 2⟩, ⟨0, 1⟩]).nAction →
        ¬ ExactAt (stateAfter [[⟨0, 1⟩, ⟨2, 2⟩], [⟨1, 3⟩]] [⟨2, 2⟩, ⟨0, 1⟩]) x) ∧
      acttab_insert (stateAfter [[⟨0, 1⟩, ⟨2, 2⟩], [⟨1, 3⟩]] [⟨2, 2⟩, ⟨0, 1⟩]) =
        .ok (q, (i : Int) -
          (stateAfter [[⟨0, 1⟩, ⟨2, 2⟩], [⟨1, 3⟩]] [⟨2, 2⟩, ⟨0, 1⟩]).mnLookahead) ∧
      q.nAction = (stateAfter [[⟨0, 1⟩, ⟨2, 2⟩], [⟨1, 3⟩]] [⟨2, 2⟩, ⟨0, 1⟩]).nAction ∧
      ∀ k : Nat, k < (stateAfter [[⟨0, 1⟩, ⟨2, 2⟩], [⟨1, 3⟩]] [⟨2, 2⟩, ⟨0, 1⟩]).nActionAlloc →
        q.aAction[k]? =
          (stateAfter [[⟨0, 1⟩, ⟨2, 2⟩], [⟨1, 3⟩]] [⟨2, 2⟩, ⟨0, 1⟩]).aAction[k]? :=
  ⟨reachable_stateAfter (by decide) (by decide), by decide, ⟨0, by decide, by decide⟩,
    exact_match_reuse _ (reachable_stateAfter (by decide) (by decide)) (by decide)
      ⟨0, by decide, by decide⟩⟩

/-- C11, the table shape invariant.  In every state reached from `acttab_alloc` by calls of
`acttab_action` (lookaheads `≥ 0`) and `acttab_insert`: the block `aAction` has
`nActionAlloc` cells and `nAction ≤ nActionAlloc`; every slot with index in
`[nAction, nActionAlloc)` is the empty sentinel `(-1, -1)`; every slot below `nAction` is
that sentinel or has `lookahead ≥ 0`; when `nAction > 0` the slot `nAction - 1` is populated;
so `acttab_size` is one past the highest populated slot. -/
theorem table_shape (p : acttab) (hr : Reachable p) :
    p.aAction.length = p.nActionAlloc ∧ p.nAction ≤ p.nActionAlloc ∧
    (∀ k : Nat, p.nAction ≤ k → k < p.nActionAlloc → p.aAction[k]? = some emptySlot) ∧
    (∀ k : Nat, k < p.nAction →
      ∃ s, p.aAction[k]? = some s ∧ (s = emptySlot ∨ 0 ≤ s.lookahead)) ∧
    (0 < p.nAction → ∃ s, p.aAction[p.nAction - 1]? = some s ∧ 0 ≤ s.lookahead) ∧
    (∀ (k : Nat) (s : lookahead_action), p.aAction[k]? = some s → 0 ≤ s.lookahead →
      k < acttab_size p) := by
  obtain ⟨hT, _⟩ := reachable_inv hr
  have hlen := hT.len
  have hle := hT.le
  refine ⟨hlen, hle, ?_, ?_, hT.last, ?_⟩
  · intro k hk1 hk2
    obtain ⟨s, hs⟩ := get_of_lt (show k < p.aAction.length by omega)
    rw [hs, hT.tail k s hk1 hs]
  · intro k hk
    obtain ⟨s, hs⟩ := get_of_lt (show k < p.aAction.length by omega)
    exact ⟨s, hs, hT.pop k s hs⟩
  · intro k s hs hpop
    unfold acttab_size
    by_contra hcon
    have := hT.tail k s (by omega) hs
    rw [this] at hpop
    revert hpop
    decide

theorem table_shape_witness :
    Reachable (stateAfter [[⟨5, 1⟩, ⟨8, 2⟩], [⟨7, 2⟩]] [⟨3, 3⟩]) ∧
    ((stateAfter [[⟨5, 1⟩, ⟨8, 2⟩], [⟨7, 2⟩]] [⟨3, 3⟩]).aAction.length =
        (stateAfter [[⟨5, 1⟩, ⟨8, 2⟩], [⟨7, 2⟩]] [⟨3, 3⟩]).nActionAlloc ∧
      (stateAfter [[⟨5, 1⟩, ⟨8, 2⟩], [⟨7, 2⟩]] [⟨3, 3⟩]).nAction ≤
        (stateAfter [[⟨5, 1⟩, ⟨8, 2⟩], [⟨7, 2⟩]] [⟨3, 3⟩]).nActionAlloc ∧
      (∀ k : Nat, (stateAfter [[⟨5, 1⟩, ⟨8, 2⟩], [⟨7, 2⟩]] [⟨3, 3⟩]).nAction ≤ k →
        k < (stateAfter [[⟨5, 1⟩, ⟨8, 2⟩], [⟨7, 2⟩]] [⟨3, 3⟩]).nActionAlloc →
        (stateAfter [[⟨5, 1⟩, ⟨8, 2⟩], [⟨7, 2⟩]] [⟨3, 3⟩]).aAction[k]? = some emptySlot) ∧
      (∀ k : Nat, k < (stateAfter [[⟨5, 1⟩, ⟨8, 2⟩], [⟨7, 2⟩]] [⟨3, 3⟩]).nAction →
        ∃ s, (stateAfter [[⟨5, 1⟩, ⟨8, 2⟩], [⟨7, 2⟩]] [⟨3, 3⟩]).aAction[k]? = some s ∧
          (s = emptySlot ∨ 0 ≤ s.lookahead)) ∧
      (0 < (stateAfter [[⟨5, 1⟩, ⟨8, 2⟩], [⟨7, 2⟩]] [⟨3, 3⟩]).nAction →
        ∃ s, (stateAfter [[⟨5, 1⟩, ⟨8, 2⟩], [⟨7, 2⟩]] [⟨3, 3⟩]).aAction[
            (stateAfter [[⟨5, 1⟩, ⟨8, 2⟩], [⟨7, 2⟩]] [⟨3, 3⟩]).nAction - 1]? = some s ∧
          0 ≤ s.lookahead) ∧
      (∀ (k : Nat) (s : lookahead_action),
        (stateAfter [[⟨5, 1⟩, ⟨8, 2⟩], [⟨7, 2⟩]] [⟨3, 3⟩]).aAction[k]? = some s →
        0 ≤ s.lookahead →
        k < acttab_size (stateAfter [[⟨5, 1⟩, ⟨8, 2⟩], [⟨7, 2⟩]] [⟨3, 3⟩]))) :=
  ⟨reachable_stateAfter (by decide) (by decide),
    table_shape _ (reachable_stateAfter (by decide) (by decide))⟩

/-- At or above `nAction` and below the bound of the hole search, the test of the hole search
comes down to its last part: no slot `j` in `[0, nAction)` has
`aAction[j].lookahead = j + mnLookahead - i`. -/
theorem fitsAt_above {p : acttab} (hT : TabInv p) (hX : TxnInv p) (hpos : 0 < p.nLookahead)
    {i : Nat} (hi : p.nAction ≤ i) (hb : i < holeBound p)
    (hfree : ∀ (j : Nat) (t : lookahead_action), j < p.nAction → p.aAction[j]? = some t →
      t.lookahead ≠ (j : Int) + p.mnLookahead - i) : FitsAt p i := by
  have hlen := hT.len
  have hmn : 0 ≤ p.mnLookahead := hX.nonneg _ (List.mem_of_find?_eq_some (hX.first hpos))
  have hmx : p.mnLookahead ≤ p.mxLookahead :=
    hX.hi _ (List.mem_of_find?_eq_some (hX.first hpos))
  unfold holeBound at hb
  refine ⟨?_, ?_, hfree⟩
  · obtain ⟨s, hs⟩ := get_of_lt (show i < p.aAction.length by omega)
    refine ⟨s, hs, ?_⟩
    rw [hT.tail _ s hi hs]
    decide
  · intro e he
    have h1 := hX.lo e he
    have h2 := hX.hi e he
    unfold slotOf
    refine ⟨by omega, ?_⟩
    obtain ⟨t, ht⟩ := get_of_lt
      (show (e.lookahead - p.mnLookahead + (i : Int)).toNat < p.aAction.length by omega)
    refine ⟨t, ht, ?_⟩
    rw [hT.tail _ t (by omega) ht]
    decide

/-- C12, counterexample to the append fallback as the comment at lines 226-229 states it.
In the table `(1,1)` (`nAction = 1`) with `{(2,2)}` pending there is no exact match and the
hole search accepts no index below `nAction` (slot `0` is populated).  Index `nAction = 1`
is rejected by the test of lines 238-240, because slot `0` holds lookahead `1 = 0 + 2 - 1`
(offset `-1` is that of the first state); the search goes on, accepts `i = 2`, and
`acttab_insert` returns `2 - 2 = 0`, not `nAction - mnLookahead = -1`. -/
theorem append_fallback_not_at_nAction :
    Reachable (stateAfter [[⟨1, 1⟩]] [⟨2, 2⟩]) ∧
    0 < (stateAfter [[⟨1, 1⟩]] [⟨2, 2⟩]).nLookahead ∧
    growTable (stateAfter [[⟨1, 1⟩]] [⟨2, 2⟩]) = .ok (stateAfter [[⟨1, 1⟩]] [⟨2, 2⟩]) ∧
    (∀ x, x < (stateAfter [[⟨1, 1⟩]] [⟨2, 2⟩]).nAction →
      ¬ ExactAt (stateAfter [[⟨1, 1⟩]] [⟨2, 2⟩]) x) ∧
    (∀ x, x < (stateAfter [[⟨1, 1⟩]] [⟨2, 2⟩]).nAction →
      ¬ FitsAt (stateAfter [[⟨1, 1⟩]] [⟨2, 2⟩]) x) ∧
    ((stateAfter [[⟨1, 1⟩]] [⟨2, 2⟩]).nAction : Int) -
      (stateAfter [[⟨1, 1⟩]] [⟨2, 2⟩]).mnLookahead = -1 ∧
    (∃ q, acttab_insert (stateAfter [[⟨1, 1⟩]] [⟨2, 2⟩]) = .ok (q, 0) ∧
      q.aAction[1]? = some emptySlot ∧ q.aAction[2]? = some ⟨2, 2⟩) ∧
    ¬ ∃ q, acttab_insert (stateAfter [[⟨1, 1⟩]] [⟨2, 2⟩]) =
      .ok (q, ((stateAfter [[⟨1, 1⟩]] [⟨2, 2⟩]).nAction : Int) -
        (stateAfter [[⟨1, 1⟩]] [⟨2, 2⟩]).mnLookahead) := by
  refine ⟨reachable_stateAfter (by decide) (by decide), by decide, rfl, by decide, ?_,
    by decide, ⟨_, rfl, by decide, by decide⟩, ?_⟩
  · intro x hx hf
    have hx0 : x = 0 := by
      have : (stateAfter [[⟨1, 1⟩]] [⟨2, 2⟩]).nAction = 1 := by decide
      omega
    subst hx0
    obtain ⟨⟨s, hs, hlt⟩, _⟩ := hf
    have h0 : (stateAfter [[⟨1, 1⟩]] [⟨2, 2⟩]).aAction[0]? = some ⟨1, 1⟩ := by decide
    rw [h0] at hs
    rw [← Option.some.inj hs] at hlt
    revert hlt
    decide
  · rintro ⟨q, hq⟩
    have hq0 : acttab_insert (stateAfter [[⟨1, 1⟩]] [⟨2, 2⟩]) = .ok (_, 0) := rfl
    rw [hq0] at hq
    have h2 : (0 : Int) = ((stateAfter [[⟨1, 1⟩]] [⟨2, 2⟩]).nAction : Int) -
        (stateAfter [[⟨1, 1⟩]] [⟨2, 2⟩]).mnLookahead := congrArg Prod.snd (Except.ok.inj hq)
    revert h2
    decide

/-- C12 as amended.  In a reachable state with a pending transaction (lookaheads `≥ 0`) and
no exact match, if the hole search accepts no index below `nAction` (in the table left by the
capacity step), then the transaction is appended above the used part: `acttab_insert`
returns `i - mnLookahead` for an index `i ≥ nAction`, every pair goes to a slot at or above
`nAction` (the value on entry), and `i = nAction` whenever no slot `j` in `[0, nAction)` has
`aAction[j].lookahead = j + mnLookahead - nAction`, which is always so when
`mnLookahead = 0`. -/
theorem append_fallback (p : acttab) (hr : Reachable p) (hpos : 0 < p.nLookahead)
    (hno : ∀ x, x < p.nAction → ¬ ExactAt p x)
    (hfit : ∀ p1, growTable p = .ok p1 → ∀ x, x < p.nAction → ¬ FitsAt p1 x) :
    ∃ (q : acttab) (i : Nat), acttab_insert p = .ok (q, (i : Int) - p.mnLookahead) ∧
      p.nAction ≤ i ∧
      (∀ e ∈ txn p, (p.nAction : Int) ≤ (i : Int) - p.mnLookahead + e.lookahead) ∧
      ((∀ (j : Nat) (t : lookahead_action), j < p.nAction → p.aAction[j]? = some t →
          t.lookahead ≠ (j : Int) + p.mnLookahead - p.nAction) → i = p.nAction) ∧
      (p.mnLookahead = 0 → i = p.nAction) := by
  obtain ⟨p1, q, i, hq, st, hT, hX⟩ := reachable_step hr hpos
  have hle := hT.le
  have hn1 := step_nAction1 st
  have hT1 := st.inv1
  have hX1 : TxnInv p1 := by
    rw [st.same1]
    exact txnInv_grow hX _ _
  have hpos1 : 0 < p1.nLookahead := by
    rw [st.same1]
    exact hpos
  have hmn1 : p1.mnLookahead = p.mnLookahead := by rw [st.same1]
  have hcap : (p1.nAction : Int) + p1.mxLookahead + 1 < p1.nActionAlloc := by
    rw [hn1, step_mx st]
    exact st.cap
  have hmx : p.mnLookahead ≤ p.mxLookahead :=
    hX.hi _ (List.mem_of_find?_eq_some (hX.first hpos))
  have hmn : 0 ≤ p.mnLookahead := hX.nonneg _ (List.mem_of_find?_eq_some (hX.first hpos))
  have hbound : p.nAction < holeBound p1 := by
    unfold holeBound
    rw [step_mx st]
    have := st.cap
    omega
  rcases st.cases with hA | hB
  · obtain ⟨h1, h2, _⟩ := hA
    rw [hn1] at h1
    have h := exactAt_congr p p1.nActionAlloc p1.aAction
      (fun k hk => st.old k (by omega)) i h1
    rw [← st.same1] at h
    exact absurd (h.mp h2) (hno i h1)
  · obtain ⟨_, hb1, hb2, hb3, _⟩ := hB
    have hge : p.nAction ≤ i := by
      by_contra hcon
      exact hfit p1 st.grow i (by omega) (hb3 (by omega))
    have hat : (∀ (j : Nat) (t : lookahead_action), j < p.nAction → p.aAction[j]? = some t →
        t.lookahead ≠ (j : Int) + p.mnLookahead - p.nAction) → i = p.nAction := by
      intro hfree
      have hf : FitsAt p1 p.nAction := by
        apply fitsAt_above hT1 hX1 hpos1 (by rw [hn1]) hbound
        intro j t hj ht
        rw [hn1] at hj
        rw [st.old j (by omega)] at ht
        rw [hmn1]
        exact hfree j t hj ht
      by_contra hne
      exact hb2 p.nAction (by omega) hf
    refine ⟨q, i, hq, hge, ?_, hat, ?_⟩
    · intro e he
      have := hX.lo e he
      omega
    · intro h0
      apply hat
      have hf := (fitsAt_nAction hT1 hX1 hpos1 hcap (by rw [hmn1]; exact h0)).2.2
      intro j t hj ht
      have := hf j t (by rw [hn1]; exact hj) (by rw [st.old j (by omega)]; exact ht)
      rw [hmn1, hn1] at this
      exact this

theorem append_fallback_witness :
    Reachable (stateAfter [[⟨0, 1⟩, ⟨1, 2⟩]] [⟨0, 3⟩, ⟨2, 4⟩]) ∧
    0 < (stateAfter [[⟨0, 1⟩, ⟨1, 2⟩]] [⟨0, 3⟩, ⟨2, 4⟩]).nLookahead ∧
    (∀ x, x < (stateAfter [[⟨0, 1⟩, ⟨1, 2⟩]] [⟨0, 3⟩, ⟨2, 4⟩]).nAction →
      ¬ ExactAt (stateAfter [[⟨0, 1⟩, ⟨1, 2⟩]] [⟨0, 3⟩, ⟨2, 4⟩]) x) ∧
    (∀ p1, growTable (stateAfter [[⟨0, 1⟩, ⟨1, 2⟩]] [⟨0, 3⟩, ⟨2, 4⟩]) = .ok p1 →
      ∀ x, x < (stateAfter [[⟨0, 1⟩, ⟨1, 2⟩]] [⟨0, 3⟩, ⟨2, 4⟩]).nAction → ¬ FitsAt p1 x) ∧
    ∃ (q : acttab) (i : Nat),
      acttab_insert (stateAfter [[⟨0, 1⟩, ⟨1, 2⟩]] [⟨0, 3⟩, ⟨2, 4⟩]) =
        .ok (q, (i : Int) - (stateAfter [[⟨0, 1⟩, ⟨1, 2⟩]] [⟨0, 3⟩, ⟨2, 4⟩]).mnLookahead) ∧
      (stateAfter [[⟨0, 1⟩, ⟨1, 2⟩]] [⟨0, 3⟩, ⟨2, 4⟩]).nAction ≤ i ∧
      (∀ e ∈ txn (stateAfter [[⟨0, 1⟩, ⟨1, 2⟩]] [⟨0, 3⟩, ⟨2, 4⟩]),
        ((stateAfter [[⟨0, 1⟩, ⟨1, 2⟩]] [⟨0, 3⟩, ⟨2, 4⟩]).nAction : Int) ≤
          (i : Int) - (stateAfter [[⟨0, 1⟩, ⟨1, 2⟩]] [⟨0, 3⟩, ⟨2, 4⟩]).mnLookahead +
            e.lookahead) ∧
      ((∀ (j : Nat) (t : lookahead_action),
          j < (stateAfter [[⟨0, 1⟩, ⟨1, 2⟩]] [⟨0, 3⟩, ⟨2, 4⟩]).nAction →
          (stateAfter [[⟨0, 1⟩, ⟨1, 2⟩]] [⟨0, 3⟩, ⟨2, 4⟩]).aAction[j]? = some t →
          t.lookahead ≠ (j : Int) +
            (stateAfter [[⟨0, 1⟩, ⟨1, 2⟩]] [⟨0, 3⟩, ⟨2, 4⟩]).mnLookahead -
            (stateAfter [[⟨0, 1⟩, ⟨1, 2⟩]] [⟨0, 3⟩, ⟨2, 4⟩]).nAction) →
        i = (stateAfter [[⟨0, 1⟩, ⟨1, 2⟩]] [⟨0, 3⟩, ⟨2, 4⟩]).nAction) ∧
      ((stateAfter [[⟨0, 1⟩, ⟨1, 2⟩]] [⟨0, 3⟩, ⟨2, 4⟩]).mnLookahead = 0 →
        i = (stateAfter [[⟨0, 1⟩, ⟨1, 2⟩]] [⟨0, 3⟩, ⟨2, 4⟩]).nAction) := by
  have hfit : ∀ p1, growTable (stateAfter [[⟨0, 1⟩, ⟨1, 2⟩]] [⟨0, 3⟩, ⟨2, 4⟩]) = .ok p1 →
      ∀ x, x < (stateAfter [[⟨0, 1⟩, ⟨1, 2⟩]] [⟨0, 3⟩, ⟨2, 4⟩]).nAction → ¬ FitsAt p1 x := by
    intro p1 hg x hx hf
    have hg0 : growTable (stateAfter [[⟨0, 1⟩, ⟨1, 2⟩]] [⟨0, 3⟩, ⟨2, 4⟩]) =
        .ok (stateAfter [[⟨0, 1⟩, ⟨1, 2⟩]] [⟨0, 3⟩, ⟨2, 4⟩]) := rfl
    rw [hg0] at hg
    rw [← Except.ok.inj hg] at hf
    obtain ⟨⟨s, hs, hlt⟩, _⟩ := hf
    have hn : (stateAfter [[⟨0, 1⟩, ⟨1, 2⟩]] [⟨0, 3⟩, ⟨2, 4⟩]).nAction = 2 := by decide
    have h0 : (stateAfter [[⟨0, 1⟩, ⟨1, 2⟩]] [⟨0, 3⟩, ⟨2, 4⟩]).aAction[0]? =
        some ⟨0, 1⟩ := by decide
    have h1 : (stateAfter [[⟨0, 1⟩, ⟨1, 2⟩]] [⟨0, 3⟩, ⟨2, 4⟩]).aAction[1]? =
        some ⟨1, 2⟩ := by decide
    have hx2 : x = 0 ∨ x = 1 := by omega
    rcases hx2 with rfl | rfl
    · rw [h0] at hs
      rw [← Option.some.inj hs] at hlt
      revert hlt
      decide
    · rw [h1] at hs
      rw [← Option.some.inj hs] at hlt
      revert hlt
      decide
  exact ⟨reachable_stateAfter (by decide) (by decide), by decide, by decide, hfit,
    append_fallback _ (reachable_stateAfter (by decide) (by decide)) (by decide) (by decide)
      hfit⟩

/-- C13, the minimal table (scenario A).  Committing the single pair `(L, A)`, `L ≥ 0`, to
the freshly allocated table returns the offset `O = -L`; the resulting table has
`nAction = 1`, its slot `O + L = 0` holds `(L, A)`, and every other slot is the empty
sentinel. -/
theorem minimal_table (L A : Int) (hL : 0 ≤ L) :
    ∃ q o, commit acttab_alloc [⟨L, A⟩] = .ok (q, o) ∧ o = -L ∧ q.nAction = 1 ∧
      0 ≤ o + L ∧ q.aAction[(o + L).toNat]? = some ⟨L, A⟩ ∧
      (⟨L, A⟩ : lookahead_action) ≠ emptySlot ∧
      ∀ (k : Nat) (s : lookahead_action), q.aAction[k]? = some s → s ≠ emptySlot →
        (k : Int) = o + L := by
  obtain ⟨p, p1, q, i, _, htx, hT, hX, hpos, hn, ha, _, _, hc, st, _⟩ :=
    commit_spec tabInv_alloc rfl (t := [⟨L, A⟩]) (by simp)
      (by intro e he; rw [List.mem_singleton.mp he]; exact hL)
  have hn0 : p.nAction = 0 := hn
  have ha0 : p.nActionAlloc = 0 := ha
  have hmn : p.mnLookahead = L := by
    have h := hX.first hpos
    rw [htx] at h
    have hmem := List.mem_of_find?_eq_some h
    have := List.mem_singleton.mp hmem
    exact congrArg lookahead_action.lookahead this
  have hmem : (⟨L, A⟩ : lookahead_action) ∈ txn p := by rw [htx]; simp
  have hn1 := step_nAction1 st
  have hT1 := st.inv1
  have hX1 : TxnInv p1 := by
    rw [st.same1]
    exact txnInv_grow hX _ _
  have hpos1 : 0 < p1.nLookahead := by
    rw [st.same1]
    exact hpos
  have hmx : p.mnLookahead ≤ p.mxLookahead :=
    hX.hi _ (List.mem_of_find?_eq_some (hX.first hpos))
  have hbound : 0 < holeBound p1 := by
    unfold holeBound
    rw [step_mx st]
    have := st.cap
    omega
  have hi0 : i = 0 := by
    rcases st.cases with hA | hB
    · have := hA.1
      omega
    · obtain ⟨_, _, hb2, _, _⟩ := hB
      have hf : FitsAt p1 0 := by
        apply fitsAt_above hT1 hX1 hpos1 (by rw [hn1, hn0]) hbound
        intro j t hj
        omega
      by_contra hne
      exact hb2 0 (by omega) hf
  subst hi0
  have hslot : slotOf p 0 L = 0 := by
    unfold slotOf
    rw [hmn]
    simp
  have hq0 : q.aAction[0]? = some ⟨L, A⟩ := by
    obtain ⟨e2, he2, _, hq⟩ := st.put ⟨L, A⟩ hmem
    rw [htx] at he2
    rw [List.mem_singleton.mp he2] at hq
    simp only [hslot] at hq
    exact hq
  have hqn : q.nAction = 1 := by
    have h1 := st.nlt ⟨L, A⟩ hmem
    simp only [hslot] at h1
    rcases st.nEq with h | ⟨e, he, h⟩
    · omega
    · rw [htx] at he
      rw [List.mem_singleton.mp he] at h
      simp only [hslot] at h
      omega
  refine ⟨q, _, hc, by rw [hmn]; simp, hqn, by rw [hmn]; simp, ?_, ?_, ?_⟩
  · rw [hmn]
    simpa using hq0
  · intro h
    have := congrArg lookahead_action.lookahead h
    simp [emptySlot] at this
    omega
  · intro k s hs hne
    rw [hmn]
    by_contra hk
    have hk0 : k ≠ 0 := by
      intro h0
      apply hk
      rw [h0]
      simp
    have hkeep := st.keep k (by
      intro e he
      rw [htx] at he
      rw [List.mem_singleton.mp he]
      simp only [hslot]
      omega)
    rw [hkeep] at hs
    exact hne (st.fresh k s (by omega) hs)

/-- C14, hole filling (scenario D).  Committing the singletons `{(5, a)}`, `{(7, b)}`,
`{(3, c)}`, for any actions `a`, `b`, `c`, to the freshly allocated table returns the
offsets `-5`, `-6`, `-1`; `acttab_size` is `3`, hence `≤ 8`, and for each of the three
states the slot at its offset plus its lookahead holds its pair. -/
theorem hole_filling (a b c : Int) :
    ∃ p, commitAll acttab_alloc [[⟨5, a⟩], [⟨7, b⟩], [⟨3, c⟩]] = .ok (p, [-5, -6, -1]) ∧
      acttab_size p = 3 ∧ acttab_size p ≤ 8 ∧
      p.aAction[((-5 : Int) + 5).toNat]? = some ⟨5, a⟩ ∧
      p.aAction[((-6 : Int) + 7).toNat]? = some ⟨7, b⟩ ∧
      p.aAction[((-1 : Int) + 3).toNat]? = some ⟨3, c⟩ := by
  have h1 : emitAll acttab_alloc [⟨5, a⟩] =
      .ok ⟨0, 0, [], ⟨5, a⟩ :: List.replicate 24 indeterminate, 5, a, 5, 1, 25⟩ := rfl
  have h2 : growTable ⟨0, 0, [], ⟨5, a⟩ :: List.replicate 24 indeterminate, 5, a, 5, 1, 25⟩ =
      .ok ⟨0, 26, List.replicate 26 emptySlot, ⟨5, a⟩ :: List.replicate 24 indeterminate,
        5, a, 5, 1, 25⟩ := by
    simp [growTable, fillEmpty, realloc, wr, List.replicate]
  have c1 : commit acttab_alloc [⟨5, a⟩] =
      .ok (⟨1, 26, ⟨5, a⟩ :: List.replicate 25 emptySlot,
        ⟨5, a⟩ :: List.replicate 24 indeterminate, 5, a, 5, 0, 25⟩, -5) := by
    unfold commit
    rw [h1]
    simp only
    unfold acttab_insert
    simp only [h2]
    rfl
  have c2 : commit ⟨1, 26, ⟨5, a⟩ :: List.replicate 25 emptySlot,
        ⟨5, a⟩ :: List.replicate 24 indeterminate, 5, a, 5, 0, 25⟩ [⟨7, b⟩] =
      .ok (⟨2, 26, ⟨5, a⟩ :: ⟨7, b⟩ :: List.replicate 24 emptySlot,
        ⟨7, b⟩ :: List.replicate 24 indeterminate, 7, b, 7, 0, 25⟩, -6) := rfl
  have c3 : commit ⟨2, 26, ⟨5, a⟩ :: ⟨7, b⟩ :: List.replicate 24 emptySlot,
        ⟨7, b⟩ :: List.replicate 24 indeterminate, 7, b, 7, 0, 25⟩ [⟨3, c⟩] =
      .ok (⟨3, 26, ⟨5, a⟩ :: ⟨7, b⟩ :: ⟨3, c⟩ :: List.replicate 23 emptySlot,
        ⟨3, c⟩ :: List.replicate 24 indeterminate, 3, c, 3, 0, 25⟩, -1) := rfl
  refine ⟨⟨3, 26, ⟨5, a⟩ :: ⟨7, b⟩ :: ⟨3, c⟩ :: List.replicate 23 emptySlot,
    ⟨3, c⟩ :: List.replicate 24 indeterminate, 3, c, 3, 0, 25⟩, ?_, rfl,
    by show 3 ≤ 8; omega, rfl, rfl, rfl⟩
  simp only [commitAll, c1, c2, c3]

/-- Witness of C13: the single pair `(4, 9)` committed to the fresh table. -/
theorem minimal_table_witness :
    (0 : Int) ≤ 4 ∧
    ∃ q o, commit acttab_alloc [⟨4, 9⟩] = .ok (q, o) ∧ o = -4 ∧ q.nAction = 1 ∧
      0 ≤ o + 4 ∧ q.aAction[(o + 4).toNat]? = some ⟨4, 9⟩ ∧
      (⟨4, 9⟩ : lookahead_action) ≠ emptySlot ∧
      ∀ (k : Nat) (s : lookahead_action), q.aAction[k]? = some s → s ≠ emptySlot →
        (k : Int) = o + 4 :=
  ⟨by decide, minimal_table 4 9 (by decide)⟩

/-! ## The action comparator -/

theorem toInt32_id {x : Int} (h1 : -2147483648 ≤ x) (h2 : x < 2147483648) : toInt32 x = x := by
  unfold toInt32
  omega

theorem e_action_toInt_range (t : e_action) : 0 ≤ t.toInt ∧ t.toInt ≤ 10 := by
  cases t <;> decide

theorem e_action_toInt_inj {s t : e_action} (h : s.toInt = t.toInt) : s = t := by
  cases s <;> cases t <;> first | rfl | (exfalso; revert h; decide)

/-- For records in range the comparator is the lexicographic comparison of the symbol index,
the kind ordinal, the rule key, and the position (in descending order). -/
theorem actioncmp_eq (a b : action) (ha : a.InRange) (hb : b.InRange) (hab : AddrFits a b) :
    actioncmp a b =
      if a.sp.index ≠ b.sp.index then a.sp.index - b.sp.index
      else if a.type.toInt ≠ b.type.toInt then a.type.toInt - b.type.toInt
      else if ruleKey a ≠ ruleKey b then ruleKey a - ruleKey b
      else b.addr - a.addr := by
  obtain ⟨⟨h1, h2⟩, ⟨h3, h4⟩⟩ := ha
  obtain ⟨⟨h5, h6⟩, ⟨h7, h8⟩⟩ := hb
  obtain ⟨h9, h10⟩ := hab
  have hta := e_action_toInt_range a.type
  have htb := e_action_toInt_range b.type
  have e0 : toInt32 (a.sp.index - b.sp.index) = a.sp.index - b.sp.index :=
    toInt32_id (by omega) (by omega)
  have e1 : toInt32 (a.type.toInt - b.type.toInt) = a.type.toInt - b.type.toInt :=
    toInt32_id (by omega) (by omega)
  have e2 : toInt32 (a.x_rp.index - b.x_rp.index) = a.x_rp.index - b.x_rp.index :=
    toInt32_id (by omega) (by omega)
  have e3 : toInt32 (b.addr - a.addr) = b.addr - a.addr := toInt32_id h9 h10
  have hinj : a.type.toInt = b.type.toInt → a.type = b.type := e_action_toInt_inj
  unfold actioncmp ruleKey
  simp only [e0, e1, e2, e3]
  split_ifs <;> first
    | omega
    | (exfalso
       have hty := hinj (by omega)
       simp_all)

/-- When the symbol indexes differ the comparator returns their difference. -/
theorem actioncmp_of_index_ne (a b : action) (ha : NonNegInt a.sp.index)
    (hb : NonNegInt b.sp.index) (hne : a.sp.index ≠ b.sp.index) :
    actioncmp a b = a.sp.index - b.sp.index := by
  obtain ⟨h1, h2⟩ := ha
  obtain ⟨h3, h4⟩ := hb
  have e0 : toInt32 (a.sp.index - b.sp.index) = a.sp.index - b.sp.index :=
    toInt32_id (by omega) (by omega)
  have hi0 : ¬ a.sp.index - b.sp.index = 0 := by omega
  unfold actioncmp
  simp only [e0, hi0, if_false, false_and]

/-- When the symbol indexes agree and the kinds differ the comparator returns the difference
of the kind ordinals. -/
theorem actioncmp_of_type_ne (a b : action) (hi : a.sp.index = b.sp.index)
    (hne : a.type ≠ b.type) : actioncmp a b = a.type.toInt - b.type.toInt := by
  have hta := e_action_toInt_range a.type
  have htb := e_action_toInt_range b.type
  have e0 : toInt32 (a.sp.index - b.sp.index) = 0 := by
    rw [hi]
    unfold toInt32
    omega
  have e1 : toInt32 (a.type.toInt - b.type.toInt) = a.type.toInt - b.type.toInt :=
    toInt32_id (by omega) (by omega)
  have ht0 : ¬ a.type.toInt - b.type.toInt = 0 := by
    intro h
    exact hne (e_action_toInt_inj (by omega))
  unfold actioncmp
  simp only [e0, e1, ht0, if_true, if_false, false_and]

/-- When the symbol indexes and the kinds agree, the kind being `REDUCE` or `SHIFTREDUCE`,
and the rule indexes differ, the comparator returns the difference of the rule indexes. -/
theorem actioncmp_of_rule_ne (a b : action) (hi : a.sp.index = b.sp.index)
    (ht : a.type = b.type)
    (hR : a.type = e_action.REDUCE ∨ a.type = e_action.SHIFTREDUCE)
    (ha : NonNegInt a.x_rp.index) (hb : NonNegInt b.x_rp.index)
    (hne : a.x_rp.index ≠ b.x_rp.index) :
    actioncmp a b = a.x_rp.index - b.x_rp.index := by
  obtain ⟨h1, h2⟩ := ha
  obtain ⟨h3, h4⟩ := hb
  have e0 : toInt32 (a.sp.index - b.sp.index) = 0 := by
    rw [hi]
    unfold toInt32
    omega
  have e1 : toInt32 (a.type.toInt - b.type.toInt) = 0 := by
    rw [ht]
    unfold toInt32
    omega
  have e2 : toInt32 (a.x_rp.index - b.x_rp.index) = a.x_rp.index - b.x_rp.index :=
    toInt32_id (by omega) (by omega)
  have hr0 : ¬ a.x_rp.index - b.x_rp.index = 0 := by omega
  unfold actioncmp
  simp only [e0, e1, e2, hR, hr0, if_true, if_false, true_and, and_self]

/-- C15, the primary key of the comparator.  For two actions whose lookahead symbols have
different indexes, both non-negative `int`s, `actioncmp(a1, a2) < 0` if and only if
`a1.sp.index < a2.sp.index`, whatever their kinds, rules and addresses.  So a list in which
every element compares `≤ 0` with its successor is in ascending order of the lookahead
index. -/
theorem comparator_primary_key (a1 a2 : action) (h1 : NonNegInt a1.sp.index)
    (h2 : NonNegInt a2.sp.index) (hne : a1.sp.index ≠ a2.sp.index) :
    (actioncmp a1 a2 < 0 ↔ a1.sp.index < a2.sp.index) ∧
    ∀ l : List action, (∀ a ∈ l, NonNegInt a.sp.index) →
      l.Chain' (fun a b => actioncmp a b ≤ 0) →
      (l.map (fun a => a.sp.index)).Pairwise (fun x y => x ≤ y) := by
  constructor
  · rw [actioncmp_of_index_ne a1 a2 h1 h2 hne]
    omega
  · intro l hl hch
    have hstep : ∀ a b : action, NonNegInt a.sp.index → NonNegInt b.sp.index →
        actioncmp a b ≤ 0 → a.sp.index ≤ b.sp.index := by
      intro a b ha hb hc
      by_contra hcon
      rw [actioncmp_of_index_ne a b ha hb (by omega)] at hc
      omega
    have hch2 : (l.map (fun a => a.sp.index)).Chain' (fun x y => x ≤ y) := by
      rw [List.chain'_map]
      induction l with
      | nil => exact List.chain'_nil
      | cons a l ih =>
        cases l with
        | nil => exact List.chain'_singleton a
        | cons b l =>
          rw [List.chain'_cons] at hch ⊢
          exact ⟨hstep a b (hl a (by simp)) (hl b (by simp)) hch.1,
            ih (fun x hx => hl x (by simp [hx])) hch.2⟩
    exact List.chain'_iff_pairwise.mp hch2

theorem comparator_primary_key_witness :
    NonNegInt (⟨⟨3⟩, e_action.SHIFTREDUCE, ⟨7, 2, true⟩, 5⟩ : action).sp.index ∧
    NonNegInt (⟨⟨4⟩, e_action.SHIFT, ⟨1, 9, false⟩, 2⟩ : action).sp.index ∧
    (⟨⟨3⟩, e_action.SHIFTREDUCE, ⟨7, 2, true⟩, 5⟩ : action).sp.index ≠
      (⟨⟨4⟩, e_action.SHIFT, ⟨1, 9, false⟩, 2⟩ : action).sp.index ∧
    (actioncmp ⟨⟨3⟩, e_action.SHIFTREDUCE, ⟨7, 2, true⟩, 5⟩
        ⟨⟨4⟩, e_action.SHIFT, ⟨1, 9, false⟩, 2⟩ < 0 ↔
      (⟨⟨3⟩, e_action.SHIFTREDUCE, ⟨7, 2, true⟩, 5⟩ : action).sp.index <
        (⟨⟨4⟩, e_action.SHIFT, ⟨1, 9, false⟩, 2⟩ : action).sp.index) ∧
    ∀ l : List action, (∀ a ∈ l, NonNegInt a.sp.index) →
      l.Chain' (fun a b => actioncmp a b ≤ 0) →
      (l.map (fun a => a.sp.index)).Pairwise (fun x y => x ≤ y) :=
  ⟨by decide, by decide, by decide,
    comparator_primary_key _ _ (by decide) (by decide) (by decide)⟩

/-- C16, counterexample: with the same lookahead index, `SHIFTREDUCE` does not compare less
than `REDUCE` (the comparator returns `10 - 2 = 8`), although `SHIFTREDUCE` comes before
`REDUCE` in the enumeration of the specification. -/
theorem kind_order_is_not_the_spec_enumeration :
    ¬ ∀ a1 a2 : action, a1.sp.index = a2.sp.index → a1.type ≠ a2.type →
      (actioncmp a1 a2 < 0 ↔ specOrdinal a1.type < specOrdinal a2.type) := by
  intro h
  have := h ⟨⟨3⟩, e_action.SHIFTREDUCE, ⟨0, 0, true⟩, 0⟩ ⟨⟨3⟩, e_action.REDUCE, ⟨0, 0, true⟩, 1⟩
    rfl (by decide)
  revert this
  decide

/-- C16 as amended: for two actions with the same lookahead index and different kinds,
`actioncmp` orders them by the ordinal of the kind in `enum e_action` of `struct.h`, which
is `SHIFT`, `ACCEPT`, `REDUCE`, `ERROR`, `SSCONFLICT`, `SRCONFLICT`, `RRCONFLICT`,
`SH_RESOLVED`, `RD_RESOLVED`, `NOT_USED`, `SHIFTREDUCE`. -/
theorem comparator_kind_tie_break (a1 a2 : action) (hi : a1.sp.index = a2.sp.index)
    (hne : a1.type ≠ a2.type) :
    (actioncmp a1 a2 < 0 ↔ a1.type.toInt < a2.type.toInt) ∧
    (actioncmp a1 a2 > 0 ↔ a1.type.toInt > a2.type.toInt) ∧
    [e_action.SHIFT, e_action.ACCEPT, e_action.REDUCE, e_action.ERROR, e_action.SSCONFLICT,
      e_action.SRCONFLICT, e_action.RRCONFLICT, e_action.SH_RESOLVED, e_action.RD_RESOLVED,
      e_action.NOT_USED, e_action.SHIFTREDUCE].map e_action.toInt =
      [0, 1, 2, 3, 4, 5, 6, 7, 8, 9, 10] := by
  rw [actioncmp_of_type_ne a1 a2 hi hne]
  refine ⟨by omega, by omega, by decide⟩

theorem comparator_kind_tie_break_witness :
    (⟨⟨3⟩, e_action.ACCEPT, ⟨0, 0, true⟩, 0⟩ : action).sp.index =
      (⟨⟨3⟩, e_action.REDUCE, ⟨0, 0, true⟩, 1⟩ : action).sp.index ∧
    (⟨⟨3⟩, e_action.ACCEPT, ⟨0, 0, true⟩, 0⟩ : action).type ≠
      (⟨⟨3⟩, e_action.REDUCE, ⟨0, 0, true⟩, 1⟩ : action).type ∧
    (actioncmp ⟨⟨3⟩, e_action.ACCEPT, ⟨0, 0, true⟩, 0⟩
        ⟨⟨3⟩, e_action.REDUCE, ⟨0, 0, true⟩, 1⟩ < 0 ↔
      (⟨⟨3⟩, e_action.ACCEPT, ⟨0, 0, true⟩, 0⟩ : action).type.toInt <
        (⟨⟨3⟩, e_action.REDUCE, ⟨0, 0, true⟩, 1⟩ : action).type.toInt) ∧
    (actioncmp ⟨⟨3⟩, e_action.ACCEPT, ⟨0, 0, true⟩, 0⟩
        ⟨⟨3⟩, e_action.REDUCE, ⟨0, 0, true⟩, 1⟩ > 0 ↔
      (⟨⟨3⟩, e_action.ACCEPT, ⟨0, 0, true⟩, 0⟩ : action).type.toInt >
        (⟨⟨3⟩, e_action.REDUCE, ⟨0, 0, true⟩, 1⟩ : action).type.toInt) ∧
    [e_action.SHIFT, e_action.ACCEPT, e_action.REDUCE, e_action.ERROR, e_action.SSCONFLICT,
      e_action.SRCONFLICT, e_action.RRCONFLICT, e_action.SH_RESOLVED, e_action.RD_RESOLVED,
      e_action.NOT_USED, e_action.SHIFTREDUCE].map e_action.toInt =
      [0, 1, 2, 3, 4, 5, 6, 7, 8, 9, 10] :=
  ⟨by decide, by decide, comparator_kind_tie_break _ _ (by decide) (by decide)⟩

/-- C17, counterexample: two `REDUCE` actions on the same lookahead whose rules have
`(index, iRule) = (0, 1)` and `(1, 0)`.  The comparator returns `0 - 1 < 0` although the rule
of the first action has the larger `iRule`: line 48 compares `x.rp->index`, not
`x.rp->iRule`. -/
theorem rule_tie_break_is_not_by_iRule :
    ¬ ∀ a1 a2 : action, a1.sp.index = a2.sp.index → a1.type = a2.type →
      (a1.type = e_action.REDUCE ∨ a1.type = e_action.SHIFTREDUCE) →
      a1.x_rp.iRule ≠ a2.x_rp.iRule →
      (actioncmp a1 a2 < 0 ↔ a1.x_rp.iRule < a2.x_rp.iRule) := by
  intro h
  have := h ⟨⟨3⟩, e_action.REDUCE, ⟨0, 1, false⟩, 0⟩ ⟨⟨3⟩, e_action.REDUCE, ⟨1, 0, true⟩, 1⟩
    rfl rfl (by decide) (by decide)
  revert this
  decide

/-- C17 as amended: for two actions with the same lookahead index and the same kind, that
kind being `REDUCE` or `SHIFTREDUCE`, whose target rules have different `index` fields (both
non-negative `int`s), `actioncmp(a1, a2) < 0` if and only if the rule of `a1` has the smaller
`index`. -/
theorem comparator_rule_tie_break (a1 a2 : action) (hi : a1.sp.index = a2.sp.index)
    (ht : a1.type = a2.type)
    (hR : a1.type = e_action.REDUCE ∨ a1.type = e_action.SHIFTREDUCE)
    (h1 : NonNegInt a1.x_rp.index) (h2 : NonNegInt a2.x_rp.index)
    (hne : a1.x_rp.index ≠ a2.x_rp.index) :
    (actioncmp a1 a2 < 0 ↔ a1.x_rp.index < a2.x_rp.index) := by
  rw [actioncmp_of_rule_ne a1 a2 hi ht hR h1 h2 hne]
  omega

theorem comparator_rule_tie_break_witness :
    (⟨⟨3⟩, e_action.REDUCE, ⟨0, 1, false⟩, 0⟩ : action).sp.index =
      (⟨⟨3⟩, e_action.REDUCE, ⟨1, 0, true⟩, 1⟩ : action).sp.index ∧
    (⟨⟨3⟩, e_action.REDUCE, ⟨0, 1, false⟩, 0⟩ : action).type =
      (⟨⟨3⟩, e_action.REDUCE, ⟨1, 0, true⟩, 1⟩ : action).type ∧
    NonNegInt (⟨⟨3⟩, e_action.REDUCE, ⟨0, 1, false⟩, 0⟩ : action).x_rp.index ∧
    NonNegInt (⟨⟨3⟩, e_action.REDUCE, ⟨1, 0, true⟩, 1⟩ : action).x_rp.index ∧
    (actioncmp ⟨⟨3⟩, e_action.REDUCE, ⟨0, 1, false⟩, 0⟩
        ⟨⟨3⟩, e_action.REDUCE, ⟨1, 0, true⟩, 1⟩ < 0 ↔
      (⟨⟨3⟩, e_action.REDUCE, ⟨0, 1, false⟩, 0⟩ : action).x_rp.index <
        (⟨⟨3⟩, e_action.REDUCE, ⟨1, 0, true⟩, 1⟩ : action).x_rp.index) :=
  ⟨by decide, by decide, by decide, by decide,
    comparator_rule_tie_break _ _ (by decide) (by decide) (by decide) (by decide) (by decide)
      (by decide)⟩

/-- C18, the comparator is a total order.  Take action records whose symbol and rule indexes
are non-negative `int`s and whose positions differ by amounts that fit in an `int`, distinct
records having distinct positions.  Then `actioncmp(a, b) = 0` only when `a` and `b` are the
same record, `actioncmp(b, a) = -actioncmp(a, b)` (so the signs are opposite), and
`actioncmp(a, b) < 0` with `actioncmp(b, c) < 0` gives `actioncmp(a, c) < 0`. -/
theorem comparator_total_order (a b c : action) (ha : a.InRange) (hb : b.InRange)
    (hc : c.InRange) (hab : AddrFits a b) (hba : AddrFits b a) (hbc : AddrFits b c)
    (hac : AddrFits a c) (hrec : a.addr = b.addr → a = b) :
    (actioncmp a b = 0 → a = b) ∧
    actioncmp b a = -actioncmp a b ∧
    Int.sign (actioncmp a b) = -Int.sign (actioncmp b a) ∧
    (actioncmp a b < 0 → actioncmp b c < 0 → actioncmp a c < 0) := by
  have eab := actioncmp_eq a b ha hb hab
  have eba := actioncmp_eq b a hb ha hba
  have ebc := actioncmp_eq b c hb hc hbc
  have eac := actioncmp_eq a c ha hc hac
  have hneg : actioncmp b a = -actioncmp a b := by
    rw [eab, eba]
    split_ifs <;> omega
  refine ⟨?_, hneg, ?_, ?_⟩
  · intro h0
    apply hrec
    rw [eab] at h0
    split_ifs at h0 <;> omega
  · rw [hneg, Int.sign_neg, neg_neg]
  · rw [eab, ebc, eac]
    split_ifs <;> omega

theorem comparator_total_order_witness :
    (⟨⟨3⟩, e_action.REDUCE, ⟨4, 1, false⟩, 7⟩ : action).InRange ∧
    (⟨⟨3⟩, e_action.REDUCE, ⟨4, 1, false⟩, 2⟩ : action).InRange ∧
    (⟨⟨3⟩, e_action.SHIFTREDUCE, ⟨0, 0, true⟩, 9⟩ : action).InRange ∧
    AddrFits ⟨⟨3⟩, e_action.REDUCE, ⟨4, 1, false⟩, 7⟩ ⟨⟨3⟩, e_action.REDUCE, ⟨4, 1, false⟩, 2⟩ ∧
    ((actioncmp ⟨⟨3⟩, e_action.REDUCE, ⟨4, 1, false⟩, 7⟩
        ⟨⟨3⟩, e_action.REDUCE, ⟨4, 1, false⟩, 2⟩ = 0 →
      (⟨⟨3⟩, e_action.REDUCE, ⟨4, 1, false⟩, 7⟩ : action) =
        ⟨⟨3⟩, e_action.REDUCE, ⟨4, 1, false⟩, 2⟩) ∧
    actioncmp ⟨⟨3⟩, e_action.REDUCE, ⟨4, 1, false⟩, 2⟩
        ⟨⟨3⟩, e_action.REDUCE, ⟨4, 1, false⟩, 7⟩ =
      -actioncmp ⟨⟨3⟩, e_action.REDUCE, ⟨4, 1, false⟩, 7⟩
        ⟨⟨3⟩, e_action.REDUCE, ⟨4, 1, false⟩, 2⟩ ∧
    Int.sign (actioncmp ⟨⟨3⟩, e_action.REDUCE, ⟨4, 1, false⟩, 7⟩
        ⟨⟨3⟩, e_action.REDUCE, ⟨4, 1, false⟩, 2⟩) =
      -Int.sign (actioncmp ⟨⟨3⟩, e_action.REDUCE, ⟨4, 1, false⟩, 2⟩
        ⟨⟨3⟩, e_action.REDUCE, ⟨4, 1, false⟩, 7⟩) ∧
    (actioncmp ⟨⟨3⟩, e_action.REDUCE, ⟨4, 1, false⟩, 7⟩
        ⟨⟨3⟩, e_action.REDUCE, ⟨4, 1, false⟩, 2⟩ < 0 →
      actioncmp ⟨⟨3⟩, e_action.REDUCE, ⟨4, 1, false⟩, 2⟩
        ⟨⟨3⟩, e_action.SHIFTREDUCE, ⟨0, 0, true⟩, 9⟩ < 0 →
      actioncmp ⟨⟨3⟩, e_action.REDUCE, ⟨4, 1, false⟩, 7⟩
        ⟨⟨3⟩, e_action.SHIFTREDUCE, ⟨0, 0, true⟩, 9⟩ < 0)) :=
  ⟨by decide, by decide, by decide, by decide,
    comparator_total_order _ _ _ (by decide) (by decide) (by decide) (by decide) (by decide)
      (by decide) (by decide) (by decide)⟩

/-! ## Sorting the rule list -/

theorem mergeLoop_perm : ∀ (n : Nat) (pA pB : List rule), pA.length + pB.length ≤ n →
    (mergeLoop n pA pB).Perm (pA ++ pB) := by
  intro n
  induction n with
  | zero =>
    intro pA pB h
    cases pA with
    | nil => simp [mergeLoop]
    | cons a pA => simp at h
  | succ n ih =>
    intro pA pB h
    cases pA with
    | nil => simp [mergeLoop]
    | cons a pA =>
      cases pB with
      | nil => simp [mergeLoop]
      | cons b pB =>
        simp only [mergeLoop]
        simp only [List.length_cons] at h
        by_cases hlt : a.iRule < b.iRule
        · rw [if_pos hlt]
          exact (ih pA (b :: pB) (by simp; omega)).cons a
        · rw [if_neg hlt]
          have h1 := (ih (a :: pA) pB (by simp; omega)).cons b
          exact h1.trans (List.perm_middle.symm)

theorem mergeLoop_sorted : ∀ (n : Nat) (pA pB : List rule), pA.length + pB.length ≤ n →
    RuleSorted pA → RuleSorted pB → RuleSorted (mergeLoop n pA pB) := by
  intro n
  induction n with
  | zero =>
    intro pA pB h hA hB
    cases pA with
    | nil => simpa [mergeLoop] using hB
    | cons a pA => simp at h
  | succ n ih =>
    intro pA pB h hA hB
    cases pA with
    | nil => simpa [mergeLoop] using hB
    | cons a pA =>
      cases pB with
      | nil => simpa [mergeLoop] using hA
      | cons b pB =>
        simp only [mergeLoop]
        simp only [List.length_cons] at h
        unfold RuleSorted at hA hB ⊢
        rw [List.pairwise_cons] at hA hB
        by_cases hlt : a.iRule < b.iRule
        · rw [if_pos hlt, List.pairwise_cons]
          refine ⟨?_, ih pA (b :: pB) (by simp; omega) hA.2 (List.pairwise_cons.mpr hB)⟩
          intro x hx
          have hx2 := (mergeLoop_perm n pA (b :: pB) (by simp; omega)).mem_iff.mp hx
          rcases List.mem_append.mp hx2 with h1 | h1
          · exact hA.1 x h1
          · rcases List.mem_cons.mp h1 with h2 | h2
            · rw [h2]
              omega
            · have := hB.1 x h2
              omega
        · rw [if_neg hlt, List.pairwise_cons]
          refine ⟨?_, ih (a :: pA) pB (by simp; omega) (List.pairwise_cons.mpr hA) hB.2⟩
          intro x hx
          have hx2 := (mergeLoop_perm n (a :: pA) pB (by simp; omega)).mem_iff.mp hx
          rcases List.mem_append.mp hx2 with h1 | h1
          · rcases List.mem_cons.mp h1 with h2 | h2
            · rw [h2]
              omega
            · have := hA.1 x h2
              omega
          · exact hB.1 x h1

theorem Rule_merge_perm (pA pB : List rule) : (Rule_merge pA pB).Perm (pA ++ pB) :=
  mergeLoop_perm _ pA pB (le_refl _)

theorem Rule_merge_sorted {pA pB : List rule} (hA : RuleSorted pA) (hB : RuleSorted pB) :
    RuleSorted (Rule_merge pA pB) :=
  mergeLoop_sorted _ pA pB (le_refl _) hA hB

theorem Rule_merge_length (pA pB : List rule) :
    (Rule_merge pA pB).length = pA.length + pB.length := by
  rw [(Rule_merge_perm pA pB).length_eq]
  simp

theorem perm_swap_front (A B C : List rule) : (A ++ (B ++ C)).Perm (B ++ A ++ C) := by
  rw [← List.append_assoc]
  exact List.perm_append_comm.append_right C

/-- The carry loop finds a null cell as long as the cells hold fewer rules than they can. -/
theorem carry_spec : ∀ (x : List (List rule)) (k : Nat) (rp : List rule), Buckets k x →
    rp.length = 2 ^ k → RuleSorted rp → x.flatten.length + rp.length < 2 ^ (k + x.length) →
    ∃ x1, carry x rp = .ok x1 ∧ Buckets k x1 ∧ x1.length = x.length ∧
      x1.flatten.Perm (x.flatten ++ rp) := by
  intro x
  induction x with
  | nil =>
    intro k rp _ hlen _ hroom
    simp at hroom
    omega
  | cons b xs ih =>
    intro k rp hB hlen hs hroom
    obtain ⟨hb, hbs, hxs⟩ := hB
    cases b with
    | nil =>
      refine ⟨rp :: xs, rfl, ⟨Or.inr hlen, hs, hxs⟩, rfl, ?_⟩
      simp only [List.flatten_cons, List.nil_append]
      exact List.perm_append_comm
    | cons r b =>
      have hbl : (r :: b).length = 2 ^ k := by
        rcases hb with h | h
        · cases h
        · exact h
      have hml : (Rule_merge (r :: b) rp).length = 2 ^ (k + 1) := by
        rw [Rule_merge_length, hbl, hlen]
        ring
      have hroom2 : xs.flatten.length + (Rule_merge (r :: b) rp).length <
          2 ^ (k + 1 + xs.length) := by
        rw [hml]
        simp only [List.flatten_cons, List.length_append, List.length_cons] at hroom
        simp only [List.length_cons] at hbl
        have e : k + (xs.length + 1) = k + 1 + xs.length := by omega
        rw [e] at hroom
        have e2 : 2 ^ (k + 1) = 2 ^ k + 2 ^ k := by ring
        omega
      obtain ⟨x1, hx1, hB1, hl1, hp1⟩ :=
        ih (k + 1) (Rule_merge (r :: b) rp) hxs hml (Rule_merge_sorted hbs hs) hroom2
      refine ⟨[] :: x1, ?_, ⟨Or.inl rfl, List.Pairwise.nil, hB1⟩, by simp [hl1], ?_⟩
      · simp only [carry, hx1]
      · have h2 : (xs.flatten ++ Rule_merge (r :: b) rp).Perm
            (xs.flatten ++ ((r :: b) ++ rp)) :=
          (Rule_merge_perm (r :: b) rp).append_left _
        exact (hp1.trans h2).trans (perm_swap_front _ _ _)

theorem sortLoop_spec : ∀ (rest : List rule) (x : List (List rule)), Buckets 0 x →
    x.flatten.length + rest.length < 2 ^ x.length →
    ∃ x1, sortLoop rest x = .ok x1 ∧ Buckets 0 x1 ∧ x1.length = x.length ∧
      x1.flatten.Perm (x.flatten ++ rest) := by
  intro rest
  induction rest with
  | nil =>
    intro x hB _
    exact ⟨x, rfl, hB, rfl, by simp⟩
  | cons r rest ih =>
    intro x hB hroom
    simp only [List.length_cons] at hroom
    obtain ⟨x1, hx1, hB1, hl1, hp1⟩ := carry_spec x 0 [r] hB rfl
      (List.pairwise_singleton _ _) (by
        show x.flatten.length + 1 < 2 ^ (0 + x.length)
        rw [Nat.zero_add]
        omega)
    obtain ⟨x2, hx2, hB2, hl2, hp2⟩ := ih x1 hB1 (by
      rw [hl1, hp1.length_eq, List.length_append]
      show x.flatten.length + 1 + rest.length < 2 ^ x.length
      omega)
    refine ⟨x2, ?_, hB2, by rw [hl2, hl1], ?_⟩
    · simp only [sortLoop, hx1, hx2]
    · refine hp2.trans ?_
      have := hp1.append_right rest
      simpa using this

theorem buckets_sorted : ∀ (x : List (List rule)) (k : Nat), Buckets k x →
    ∀ b ∈ x, RuleSorted b := by
  intro x
  induction x with
  | nil =>
    intro k _ b hb
    cases hb
  | cons c xs ih =>
    intro k hB b hb
    obtain ⟨_, hc, hxs⟩ := hB
    rcases List.mem_cons.mp hb with h | h
    · rw [h]
      exact hc
    · exact ih (k + 1) hxs b h

theorem buckets_replicate : ∀ (n k : Nat), Buckets k (List.replicate n []) := by
  intro n
  induction n with
  | zero =>
    intro k
    exact True.intro
  | succ n ih =>
    intro k
    exact ⟨Or.inl rfl, List.Pairwise.nil, ih (k + 1)⟩

theorem finalMerge_spec : ∀ (x : List (List rule)) (acc : List rule), RuleSorted acc →
    (∀ b ∈ x, RuleSorted b) →
    RuleSorted (x.foldl (fun acc b => Rule_merge b acc) acc) ∧
    (x.foldl (fun acc b => Rule_merge b acc) acc).Perm (acc ++ x.flatten) := by
  intro x
  induction x with
  | nil =>
    intro acc hacc _
    exact ⟨hacc, by simp⟩
  | cons b xs ih =>
    intro acc hacc hx
    have hb := hx b (by simp)
    obtain ⟨h1, h2⟩ := ih (Rule_merge b acc) (Rule_merge_sorted hb hacc)
      (fun c hc => hx c (by simp [hc]))
    refine ⟨h1, h2.trans ?_⟩
    have h3 : (Rule_merge b acc ++ xs.flatten).Perm (acc ++ b ++ xs.flatten) :=
      ((Rule_merge_perm b acc).trans List.perm_append_comm).append_right _
    refine h3.trans ?_
    rw [List.flatten_cons, List.append_assoc]

/-- C19, `Rule_sort` sorts.  For every list of rules linked through `next` with fewer than
`2^32` rules, `Rule_sort` returns a list that is a permutation of the input (no rule lost or
duplicated) and is in non-decreasing `iRule` order. -/
theorem rule_sort_sorts (rp : List rule) (hlen : rp.length < 4294967296) :
    ∃ r, Rule_sort rp = .ok r ∧ r.Perm rp ∧ RuleSorted r := by
  obtain ⟨x, hx, hB, _, hp⟩ := sortLoop_spec rp (List.replicate 32 [])
    (buckets_replicate 32 0) (by simpa using hlen)
  obtain ⟨h1, h2⟩ := finalMerge_spec x [] List.Pairwise.nil (buckets_sorted x 0 hB)
  refine ⟨_, ?_, ?_, h1⟩
  · simp only [Rule_sort, hx]
  · refine h2.trans ?_
    simp only [List.nil_append]
    refine hp.trans ?_
    simp

theorem rule_sort_sorts_witness :
    ([⟨0, 3, true⟩, ⟨1, 1, false⟩, ⟨2, 2, true⟩, ⟨3, 1, true⟩, ⟨4, 0, false⟩] :
      List rule).length < 4294967296 ∧
    ∃ r, Rule_sort [⟨0, 3, true⟩, ⟨1, 1, false⟩, ⟨2, 2, true⟩, ⟨3, 1, true⟩, ⟨4, 0, false⟩] =
        .ok r ∧
      r.Perm [⟨0, 3, true⟩, ⟨1, 1, false⟩, ⟨2, 2, true⟩, ⟨3, 1, true⟩, ⟨4, 0, false⟩] ∧
      RuleSorted r :=
  ⟨by decide, rule_sort_sorts _ (by decide)⟩

/-! ## `lemon_addtext` and the terminator -/

/-- C20, failing input.  With the buffer `"a\0XXX"`, `*pnUsed = 1`, the empty text and the
field width 2, `lemon_addtext` writes two blanks and returns at line 32 with `*pnUsed = 3`
and `zBuf[3] = 'X'`, for `nIn = 0` and for `nIn = -1` alike: the terminator of line 36 is
not written.  With the text `"b"` the same call does end in a terminator.  The call with
`nIn = -1` is the one `lemon_sprintf(str, "a%2s", "")` makes: on a buffer filled with `'X'`
it returns `3` and leaves `str[3] = 'X'`. -/
theorem addtext_empty_text_is_not_terminated :
    lemon_addtext [97, 0, 88, 88, 88] 1 [0] 0 2 = .ok ([97, 32, 32, 88, 88], 3) ∧
    lemon_addtext [97, 0, 88, 88, 88] 1 [0] (-1) 2 = .ok ([97, 32, 32, 88, 88], 3) ∧
    rdc [97, 32, 32, 88, 88] 3 = .ok 88 ∧
    lemon_addtext [97, 0, 88, 88, 88] 1 [98, 0] (-1) 2 = .ok ([97, 32, 98, 0, 88], 3) ∧
    rdc [97, 32, 98, 0, 88] 3 = .ok 0 ∧
    lemon_sprintf (List.replicate 5 88) (cstr "a%2s") [.str (cstr "")] =
      .ok ([97, 32, 32, 88, 88], 3) :=
  ⟨rfl, rfl, rfl, rfl, rfl, rfl⟩

/-! ## The conversions of `lemon_sprintf` -/

/-- C21, failing input.  On a 16-byte buffer, `lemon_sprintf(str, "%d", v)` with
`v = -2147483648` writes the single byte `'-'` and returns `1`: `v = -v` at line 59 leaves
`v` negative and the digit loop of lines 64-68 does not run.  For `-2147483647`, `-42`, `0`
and `2147483647` the decimal text is written and its length returned. -/
theorem sprintf_d_drops_digits_of_int_min :
    lemon_sprintf (List.replicate 16 88) (cstr "%d") [.int (-2147483648)] =
      .ok (cstr "-" ++ List.replicate 14 88, 1) ∧
    lemon_sprintf (List.replicate 16 88) (cstr "%d") [.int (-2147483647)] =
      .ok (cstr "-2147483647" ++ List.replicate 4 88, 11) ∧
    lemon_sprintf (List.replicate 16 88) (cstr "%d") [.int (-42)] =
      .ok (cstr "-42" ++ List.replicate 12 88, 3) ∧
    lemon_sprintf (List.replicate 16 88) (cstr "%d") [.int 0] =
      .ok (cstr "0" ++ List.replicate 14 88, 1) ∧
    lemon_sprintf (List.replicate 16 88) (cstr "%d") [.int 2147483647] =
      .ok (cstr "2147483647" ++ List.replicate 5 88, 10) :=
  ⟨rfl, rfl, rfl, rfl, rfl⟩

/-- C22, failing inputs, on a 16-byte buffer filled with `'X'`.  With the width `5`:
`%5d` of `0` gives ten bytes, `"    0     "`, and no terminator; `%5d` of `-42` gives
`"    -   42"` and `%-5d` of `-42` gives `"-    42   "`, ten bytes each; `%-5s` of the empty
string gives no byte at all and the count `0`; `%5s` of the empty string gives five blanks
and no terminator; `%1d` of `0` gives `"0 "`.  For `42` and `"ab"` the four conversions
give the text justified in five bytes. -/
theorem sprintf_width_fails_on_zero_negative_and_empty :
    lemon_sprintf (List.replicate 16 88) (cstr "%5d") [.int 0] =
      .ok (text "    0     " ++ List.replicate 6 88, 10) ∧
    lemon_sprintf (List.replicate 16 88) (cstr "%5d") [.int (-42)] =
      .ok (cstr "    -   42" ++ List.replicate 5 88, 10) ∧
    lemon_sprintf (List.replicate 16 88) (cstr "%-5d") [.int (-42)] =
      .ok (cstr "-    42   " ++ List.replicate 5 88, 10) ∧
    lemon_sprintf (List.replicate 16 88) (cstr "%-5s") [.str (cstr "")] =
      .ok (cstr "" ++ List.replicate 15 88, 0) ∧
    lemon_sprintf (List.replicate 16 88) (cstr "%5s") [.str (cstr "")] =
      .ok (text "     " ++ List.replicate 11 88, 5) ∧
    lemon_sprintf (List.replicate 16 88) (cstr "%1d") [.int 0] =
      .ok (text "0 " ++ List.replicate 14 88, 2) ∧
    lemon_sprintf (List.replicate 16 88) (cstr "%5d") [.int 42] =
      .ok (cstr "   42" ++ List.replicate 10 88, 5) ∧
    lemon_sprintf (List.replicate 16 88) (cstr "%-5d") [.int 42] =
      .ok (cstr "42   " ++ List.replicate 10 88, 5) ∧
    lemon_sprintf (List.replicate 16 88) (cstr "%5s") [.str (cstr "ab")] =
      .ok (cstr "   ab" ++ List.replicate 10 88, 5) ∧
    lemon_sprintf (List.replicate 16 88) (cstr "%-5s") [.str (cstr "ab")] =
      .ok (cstr "ab   " ++ List.replicate 10 88, 5) :=
  ⟨rfl, rfl, rfl, rfl, rfl, rfl, rfl, rfl, rfl, rfl⟩

/-! ## The count test of the exact-match phase -/

theorem claims_iff (p : acttab) (i j : Nat) :
    claims p i j = true ↔ ∃ t, p.aAction[j]? = some t ∧ 0 ≤ t.lookahead ∧
      t.lookahead = (j : Int) + p.mnLookahead - i := by
  unfold claims
  cases h : p.aAction[j]? with
  | none => simp
  | some t => simp

/-- The slots of the pending entries, as a list of indexes. -/
theorem ownSlots_spec {p : acttab} {i : Nat}
    (hbuf : p.nLookahead ≤ p.aLookahead.length)
    (hnd : ((txn p).map (fun e => e.lookahead)).Nodup)
    (hnn : ∀ e ∈ txn p, 0 ≤ e.lookahead) (hh : HostedAt p i) :
    ((txn p).map (fun e => (slotOf p i e.lookahead).toNat)).Nodup ∧
    ((txn p).map (fun e => (slotOf p i e.lookahead).toNat)).length = p.nLookahead ∧
    ∀ j ∈ (txn p).map (fun e => (slotOf p i e.lookahead).toNat),
      j ∈ (List.range p.nAction).filter (claims p i) := by
  refine ⟨?_, ?_, ?_⟩
  · refine List.Nodup.map_on ?_ (List.Nodup.of_map _ hnd)
    intro x hx y hy hxy
    have h1 := (hh x hx).1
    have h2 := (hh y hy).1
    have h3 : slotOf p i x.lookahead = slotOf p i y.lookahead := by
      have := congrArg (fun n : Nat => (n : Int)) hxy
      simp only [Int.toNat_of_nonneg h1, Int.toNat_of_nonneg h2] at this
      exact this
    unfold slotOf at h3
    exact eq_of_lookahead_eq hnd hy hx (by omega)
  · rw [List.length_map, txn_length hbuf]
  · intro j hj
    obtain ⟨e, he, rfl⟩ := List.mem_map.mp hj
    obtain ⟨h1, h2, h3⟩ := hh e he
    rw [List.mem_filter, List.mem_range]
    refine ⟨by omega, ?_⟩
    rw [claims_iff]
    refine ⟨e, h3, hnn e he, ?_⟩
    rw [Int.toNat_of_nonneg h1]
    unfold slotOf
    omega

/-- C23, the count test against the foreign-slot condition.  For a pending transaction
with pairwise distinct lookaheads `≥ 0` and an index `i` at which every pending entry
`(L, A)` was found at slot `L - mnLookahead + i` inside `[0, nAction)`, the counting loop of
lines 210-214 returns the number `n` of populated slots `j` in `[0, nAction)` with
`aAction[j].lookahead = j + mnLookahead - i`, and `n = nLookahead` holds if and only if
every such slot is the slot of a pending entry. -/
theorem count_test_iff_no_foreign_slot (p : acttab) (i : Nat)
    (hlen : p.nAction ≤ p.aAction.length) (hbuf : p.nLookahead ≤ p.aLookahead.length)
    (hnd : ((txn p).map (fun e => e.lookahead)).Nodup)
    (hnn : ∀ e ∈ txn p, 0 ≤ e.lookahead) (hh : HostedAt p i) :
    ∃ n, countClaimed p i p.nAction 0 0 = .ok n ∧
      (n = p.nLookahead ↔
        ∀ (j : Nat) (t : lookahead_action), j < p.nAction → p.aAction[j]? = some t →
          0 ≤ t.lookahead → t.lookahead = (j : Int) + p.mnLookahead - i →
          ∃ e ∈ txn p, slotOf p i e.lookahead = j) := by
  obtain ⟨hOnd, hOlen, hOsub⟩ := ownSlots_spec hbuf hnd hnn hh
  have hLnd : ((List.range p.nAction).filter (claims p i)).Nodup :=
    List.Nodup.filter _ (List.nodup_range _)
  refine ⟨((List.range p.nAction).filter (claims p i)).length, ?_, ?_⟩
  · rw [countClaimed_spec p i p.nAction 0 0 (by omega), Nat.zero_add,
      ← List.range_eq_range', List.countP_eq_length_filter]
  have hsub : ((txn p).map (fun e => (slotOf p i e.lookahead).toNat)).toFinset ⊆
      ((List.range p.nAction).filter (claims p i)).toFinset := by
    intro j hj
    rw [List.mem_toFinset] at hj ⊢
    exact hOsub j hj
  have hcO := List.toFinset_card_of_nodup hOnd
  have hcL := List.toFinset_card_of_nodup hLnd
  constructor
  · intro hn j t hj ht hpop heq
    have heqF := Finset.eq_of_subset_of_card_le hsub (by rw [hcO, hcL, hOlen, hn])
    have hmem : j ∈ ((List.range p.nAction).filter (claims p i)).toFinset := by
      rw [List.mem_toFinset, List.mem_filter, List.mem_range, claims_iff]
      exact ⟨hj, t, ht, hpop, heq⟩
    rw [← heqF, List.mem_toFinset] at hmem
    obtain ⟨e, he, hej⟩ := List.mem_map.mp hmem
    refine ⟨e, he, ?_⟩
    rw [← hej, Int.toNat_of_nonneg (hh e he).1]
  · intro hown
    have hsub2 : ((List.range p.nAction).filter (claims p i)).toFinset ⊆
        ((txn p).map (fun e => (slotOf p i e.lookahead).toNat)).toFinset := by
      intro j hj
      rw [List.mem_toFinset, List.mem_filter, List.mem_range, claims_iff] at hj
      obtain ⟨hjn, t, ht, hpop, heq⟩ := hj
      obtain ⟨e, he, hej⟩ := hown j t hjn ht hpop heq
      rw [List.mem_toFinset, List.mem_map]
      exact ⟨e, he, by rw [hej]; rfl⟩
    have heqF := Finset.Subset.antisymm hsub hsub2
    rw [← hcL, ← heqF, hcO, hOlen]

/-- Witness of C23: the state with table `(0,1)`, empty, `(2,2)` and the same two pairs
pending, at index `0`. -/
theorem count_test_iff_no_foreign_slot_witness :
    HostedAt (stateAfter [[⟨0, 1⟩, ⟨2, 2⟩]] [⟨0, 1⟩, ⟨2, 2⟩]) 0 ∧
    ∃ n, countClaimed (stateAfter [[⟨0, 1⟩, ⟨2, 2⟩]] [⟨0, 1⟩, ⟨2, 2⟩]) 0
        (stateAfter [[⟨0, 1⟩, ⟨2, 2⟩]] [⟨0, 1⟩, ⟨2, 2⟩]).nAction 0 0 = .ok n ∧
      (n = (stateAfter [[⟨0, 1⟩, ⟨2, 2⟩]] [⟨0, 1⟩, ⟨2, 2⟩]).nLookahead ↔
        ∀ (j : Nat) (t : lookahead_action),
          j < (stateAfter [[⟨0, 1⟩, ⟨2, 2⟩]] [⟨0, 1⟩, ⟨2, 2⟩]).nAction →
          (stateAfter [[⟨0, 1⟩, ⟨2, 2⟩]] [⟨0, 1⟩, ⟨2, 2⟩]).aAction[j]? = some t →
          0 ≤ t.lookahead →
          t.lookahead = (j : Int) +
            (stateAfter [[⟨0, 1⟩, ⟨2, 2⟩]] [⟨0, 1⟩, ⟨2, 2⟩]).mnLookahead - (0 : Nat) →
          ∃ e ∈ txn (stateAfter [[⟨0, 1⟩, ⟨2, 2⟩]] [⟨0, 1⟩, ⟨2, 2⟩]),
            slotOf (stateAfter [[⟨0, 1⟩, ⟨2, 2⟩]] [⟨0, 1⟩, ⟨2, 2⟩]) 0 e.lookahead = j) :=
  ⟨by decide, count_test_iff_no_foreign_slot _ 0 (by decide) (by decide) (by decide)
    (by decide) (by decide)⟩

/-! ## Bounds of one run of `acttab_insert` -/

/-- Index `nAction + mnLookahead` passes the test of the hole search, so the search never
goes past it. -/
theorem step_index_le {p p1 q : acttab} {i : Nat} (hX : TxnInv p) (hpos : 0 < p.nLookahead)
    (st : Step p p1 q i) (hB : HoleCase p1 i) : (i : Int) ≤ p.nAction + p.mnLookahead := by
  have hn1 := step_nAction1 st
  have hT1 := st.inv1
  have hX1 : TxnInv p1 := by
    rw [st.same1]
    exact txnInv_grow hX _ _
  have hpos1 : 0 < p1.nLookahead := by
    rw [st.same1]
    exact hpos
  have hmn1 : p1.mnLookahead = p.mnLookahead := by rw [st.same1]
  have hmn : 0 ≤ p.mnLookahead := hX.nonneg _ (List.mem_of_find?_eq_some (hX.first hpos))
  obtain ⟨_, hb1, hb2, _, _⟩ := hB
  by_contra hcon
  have hlt : p.nAction + p.mnLookahead.toNat < i := by omega
  refine hb2 (p.nAction + p.mnLookahead.toNat) hlt
    (fitsAt_above hT1 hX1 hpos1 (by omega) (by omega) ?_)
  intro j t hj ht heq
  rw [hmn1] at heq
  have hcast : ((p.nAction + p.mnLookahead.toNat : Nat) : Int) =
      (p.nAction : Int) + p.mnLookahead := by
    rw [Nat.cast_add, Int.toNat_of_nonneg hmn]
  rw [hcast] at heq
  rcases hT1.pop j t ht with he | hp
  · obtain ⟨s, hs, hs0⟩ := hT1.last (by omega)
    have hj1 : j = p1.nAction - 1 := by
      rw [he] at heq
      have : emptySlot.lookahead = -1 := rfl
      omega
    rw [hj1, hs] at ht
    rw [Option.some.inj ht, he] at hs0
    exact absurd hs0 (by decide)
  · omega

/-- C24, in-bounds access and bounded growth.  In a reachable state with a pending
transaction, the capacity step returns a table `p1` of `nActionAlloc` cells with
`nAction + mxLookahead + 1 < nActionAlloc` and `nActionAlloc` not decreased; the searches
return an index `i` at most the bound `nActionAlloc - mxLookahead`; `acttab_insert` returns
(in the model every read or write of `aAction` outside `[0, nActionAlloc)` is a fault, so no
access leaves the block); each final write goes to an index `k = L - mnLookahead + i` with
`0 ≤ k < nActionAlloc`, also when `i` is the bound; and `nAction` after the call is at most
`nAction` before the call `+ mxLookahead + 1`. -/
theorem insert_in_bounds (p : acttab) (hr : Reachable p) (hpos : 0 < p.nLookahead) :
    ∃ (p1 q : acttab) (i : Nat),
      growTable p = .ok p1 ∧ p1.aAction.length = p1.nActionAlloc ∧
      (p.nAction : Int) + p.mxLookahead + 1 < p1.nActionAlloc ∧
      p.nActionAlloc ≤ p1.nActionAlloc ∧
      findIndex p1 = .ok i ∧ i ≤ holeBound p1 ∧
      acttab_insert p = .ok (q, (i : Int) - p.mnLookahead) ∧
      (∀ e ∈ txn p, 0 ≤ slotOf p i e.lookahead ∧ slotOf p i e.lookahead < p1.nActionAlloc) ∧
      q.nActionAlloc = p1.nActionAlloc ∧ q.aAction.length = q.nActionAlloc ∧
      q.nAction ≤ q.nActionAlloc ∧
      (q.nAction : Int) ≤ p.nAction + p.mxLookahead + 1 := by
  obtain ⟨p1, q, i, hq, st, hT, hX⟩ := reachable_step hr hpos
  have hTq := step_inv hT hX st
  have hn1 := step_nAction1 st
  have hmx1 := step_mx st
  have hmx : p.mnLookahead ≤ p.mxLookahead :=
    hX.hi _ (List.mem_of_find?_eq_some (hX.first hpos))
  have hmn : 0 ≤ p.mnLookahead := hX.nonneg _ (List.mem_of_find?_eq_some (hX.first hpos))
  have hcap := st.cap
  refine ⟨p1, q, i, st.grow, st.inv1.len, hcap, st.mono, st.find, ?_, hq, st.inb,
    step_qAlloc st, hTq.len, hTq.le, ?_⟩
  · rcases st.cases with hA | hB
    · have := hA.1
      unfold holeBound
      omega
    · exact hB.2.1
  · rcases st.cases with hA | hB
    · rw [(step_exact st hA).2]
      omega
    · have hi := step_index_le hX hpos st hB
      rcases st.nEq with h | ⟨e, he, h⟩
      · rw [h]
        omega
      · have := hX.hi e he
        rw [h]
        unfold slotOf
        omega

/-- Witness of C24: the state in which the hole search runs to its bound (table `(1,1)`,
`(0,3)`, `(2,2)` with `(4,4)`, `(17,5)` pending). -/
theorem insert_in_bounds_witness :
    Reachable (stateAfter [[⟨1, 1⟩], [⟨2, 2⟩], [⟨0, 3⟩]] [⟨4, 4⟩, ⟨17, 5⟩]) ∧
    ∃ (p1 q : acttab) (i : Nat),
      growTable (stateAfter [[⟨1, 1⟩], [⟨2, 2⟩], [⟨0, 3⟩]] [⟨4, 4⟩, ⟨17, 5⟩]) = .ok p1 ∧
      p1.aAction.length = p1.nActionAlloc ∧
      ((stateAfter [[⟨1, 1⟩], [⟨2, 2⟩], [⟨0, 3⟩]] [⟨4, 4⟩, ⟨17, 5⟩]).nAction : Int) +
        (stateAfter [[⟨1, 1⟩], [⟨2, 2⟩], [⟨0, 3⟩]] [⟨4, 4⟩, ⟨17, 5⟩]).mxLookahead + 1 <
        p1.nActionAlloc ∧
      (stateAfter [[⟨1, 1⟩], [⟨2, 2⟩], [⟨0, 3⟩]] [⟨4, 4⟩, ⟨17, 5⟩]).nActionAlloc ≤
        p1.nActionAlloc ∧
      findIndex p1 = .ok i ∧ i ≤ holeBound p1 ∧
      acttab_insert (stateAfter [[⟨1, 1⟩], [⟨2, 2⟩], [⟨0, 3⟩]] [⟨4, 4⟩, ⟨17, 5⟩]) =
        .ok (q, (i : Int) -
          (stateAfter [[⟨1, 1⟩], [⟨2, 2⟩], [⟨0, 3⟩]] [⟨4, 4⟩, ⟨17, 5⟩]).mnLookahead) ∧
      (∀ e ∈ txn (stateAfter [[⟨1, 1⟩], [⟨2, 2⟩], [⟨0, 3⟩]] [⟨4, 4⟩, ⟨17, 5⟩]),
        0 ≤ slotOf (stateAfter [[⟨1, 1⟩], [⟨2, 2⟩], [⟨0, 3⟩]] [⟨4, 4⟩, ⟨17, 5⟩]) i
          e.lookahead ∧
        slotOf (stateAfter [[⟨1, 1⟩], [⟨2, 2⟩], [⟨0, 3⟩]] [⟨4, 4⟩, ⟨17, 5⟩]) i e.lookahead <
          p1.nActionAlloc) ∧
      q.nActionAlloc = p1.nActionAlloc ∧ q.aAction.length = q.nActionAlloc ∧
      q.nAction ≤ q.nActionAlloc ∧
      (q.nAction : Int) ≤
        (stateAfter [[⟨1, 1⟩], [⟨2, 2⟩], [⟨0, 3⟩]] [⟨4, 4⟩, ⟨17, 5⟩]).nAction +
          (stateAfter [[⟨1, 1⟩], [⟨2, 2⟩], [⟨0, 3⟩]] [⟨4, 4⟩, ⟨17, 5⟩]).mxLookahead + 1 :=
  ⟨reachable_stateAfter (by decide) (by decide),
    insert_in_bounds _ (reachable_stateAfter (by decide) (by decide)) (by decide)⟩

/-! ## Owners of the populated slots -/

/-- One commit keeps the owners and makes the new transaction the owner of the slots it
writes. -/
theorem commit_owned {p0 : acttab} (hT : TabInv p0) (h0 : p0.nLookahead = 0)
    {t : List lookahead_action} (hne : t ≠ []) (hnn : ∀ e ∈ t, 0 ≤ e.lookahead)
    {l : List (Int × List lookahead_action)} (hO : Owned p0 l) :
    ∃ q o, commit p0 t = .ok (q, o) ∧ TabInv q ∧ q.nLookahead = 0 ∧
      Owned q (l ++ [(o, t)]) := by
  obtain ⟨p, p1, q, i, _, htx, hTp, hXp, _, _, hal, haa, _, hc, st, _⟩ :=
    commit_spec hT h0 hne hnn
  refine ⟨q, _, hc, step_inv hTp hXp st, step_qLook st, ?_⟩
  intro k s hs hpop
  by_cases hk : ∃ e ∈ txn p, slotOf p i e.lookahead = k
  · obtain ⟨e, he, hek⟩ := hk
    obtain ⟨e2, he2, hslot, hput⟩ := st.put e he
    rw [hek, Int.toNat_ofNat, hs] at hput
    have hse : s = e2 := Option.some.inj hput
    refine ⟨((i : Int) - p.mnLookahead, t), by simp, ?_, ?_⟩
    · rw [hse, ← htx]
      exact he2
    · show (i : Int) - p.mnLookahead = (k : Int) - s.lookahead
      rw [hse]
      unfold slotOf at hslot hek
      omega
  · have hkeep := st.keep k (by
      intro e he hek
      exact hk ⟨e, he, hek⟩)
    rw [hkeep] at hs
    by_cases hka : k < p.nActionAlloc
    · rw [st.old k hka, haa] at hs
      obtain ⟨ot, hot, h1, h2⟩ := hO k s hs hpop
      exact ⟨ot, List.mem_append_left _ hot, h1, h2⟩
    · have := st.fresh k s (by omega) hs
      rw [this] at hpop
      exact absurd hpop (by decide)

theorem commitAll_owned (ts : List (List lookahead_action)) :
    ∀ {p0 : acttab} {l : List (Int × List lookahead_action)}, TabInv p0 →
      p0.nLookahead = 0 → Owned p0 l →
      (∀ t ∈ ts, t ≠ [] ∧ ∀ e ∈ t, 0 ≤ e.lookahead) →
    ∃ q os, commitAll p0 ts = .ok (q, os) ∧ os.length = ts.length ∧
      Owned q (l ++ os.zip ts) := by
  induction ts with
  | nil =>
    intro p0 l _ _ hO _
    exact ⟨p0, [], rfl, rfl, by simpa using hO⟩
  | cons t ts ih =>
    intro p0 l hT h0 hO hv
    obtain ⟨q1, o, hc, hT1, h01, hO1⟩ :=
      commit_owned hT h0 (hv t (by simp)).1 (hv t (by simp)).2 hO
    obtain ⟨q, os, hca, hlen, hOq⟩ := ih hT1 h01 hO1 (fun x hx => hv x (by simp [hx]))
    refine ⟨q, o :: os, ?_, by simp [hlen], ?_⟩
    · simp only [commitAll, hc, hca]
    · simpa [List.append_assoc] using hOq

/-- C25, every populated slot has an owner.  After the commits of any finite sequence `ts`
of non-empty transactions with lookaheads `≥ 0` to the table of `acttab_alloc`, every slot
`k` with `aAction[k].lookahead ≥ 0` holds a pair `(L, A)` that belongs to a committed
transaction whose returned offset is `k - L`. -/
theorem every_populated_slot_has_owner (ts : List (List lookahead_action))
    (hv : ∀ t ∈ ts, t ≠ [] ∧ ∀ e ∈ t, 0 ≤ e.lookahead) :
    ∃ q os, commitAll acttab_alloc ts = .ok (q, os) ∧ os.length = ts.length ∧
      ∀ (k : Nat) (s : lookahead_action), q.aAction[k]? = some s → 0 ≤ s.lookahead →
        ∃ ot ∈ os.zip ts, s ∈ ot.2 ∧ ot.1 = (k : Int) - s.lookahead := by
  obtain ⟨q, os, hc, hlen, hO⟩ := commitAll_owned ts (l := []) tabInv_alloc rfl
    (by
      intro k s hs
      exact absurd hs (by simp [acttab_alloc])) hv
  exact ⟨q, os, hc, hlen, by simpa [Owned] using hO⟩

/-- Witness of C25: four commits to the fresh table. -/
theorem every_populated_slot_has_owner_witness :
    (∀ t ∈ [[(⟨1, 1⟩ : lookahead_action)], [⟨2, 2⟩], [⟨0, 3⟩], [⟨4, 4⟩, ⟨17, 5⟩]],
      t ≠ [] ∧ ∀ e ∈ t, 0 ≤ e.lookahead) ∧
    ∃ q os, commitAll acttab_alloc [[⟨1, 1⟩], [⟨2, 2⟩], [⟨0, 3⟩], [⟨4, 4⟩, ⟨17, 5⟩]] =
        .ok (q, os) ∧
      os.length = [[(⟨1, 1⟩ : lookahead_action)], [⟨2, 2⟩], [⟨0, 3⟩],
        [⟨4, 4⟩, ⟨17, 5⟩]].length ∧
      ∀ (k : Nat) (s : lookahead_action), q.aAction[k]? = some s → 0 ≤ s.lookahead →
        ∃ ot ∈ os.zip [[(⟨1, 1⟩ : lookahead_action)], [⟨2, 2⟩], [⟨0, 3⟩],
            [⟨4, 4⟩, ⟨17, 5⟩]],
          s ∈ ot.2 ∧ ot.1 = (k : Int) - s.lookahead :=
  ⟨by decide, every_populated_slot_has_owner _ (by decide)⟩

/-! ## The order of the emits -/

theorem sameTxn_symm {p p2 : acttab} (h : SameTxn p p2) : SameTxn p2 p :=
  ⟨h.nAction.symm, h.nActionAlloc.symm, h.aAction.symm, h.mn.symm, h.mnAction.symm,
    h.mx.symm, h.nLookahead.symm, fun e => (h.mem e).symm⟩

theorem sameTxn_slot {p p2 : acttab} (h : SameTxn p p2) (i : Nat) (l : Int) :
    slotOf p i l = slotOf p2 i l := by
  unfold slotOf
  rw [h.mn]

theorem sameTxn_exactAt {p p2 : acttab} (h : SameTxn p p2) {x : Nat} (hx : ExactAt p x) :
    ExactAt p2 x := by
  obtain ⟨h1, h2, h3⟩ := hx
  refine ⟨?_, ?_, ?_⟩
  · rw [← h.aAction, ← h.mn, ← h.mnAction]
    exact h1
  · intro e he
    have := h2 e ((h.mem e).mpr he)
    rw [sameTxn_slot h, h.nAction, h.aAction] at this
    exact this
  · have hcl : claims p2 x = claims p x := by
      funext j
      unfold claims
      rw [h.aAction, h.mn]
    unfold claimCount at h3 ⊢
    rw [hcl, ← h.nAction, ← h.nLookahead]
    exact h3

theorem sameTxn_fitsAt {p p2 : acttab} (h : SameTxn p p2) {x : Nat} (hx : FitsAt p x) :
    FitsAt p2 x := by
  obtain ⟨h1, h2, h3⟩ := hx
  refine ⟨?_, ?_, ?_⟩
  · rw [← h.aAction]
    exact h1
  · intro e he
    have := h2 e ((h.mem e).mpr he)
    rw [sameTxn_slot h, h.aAction] at this
    exact this
  · intro j t hj ht
    rw [← h.mn]
    exact h3 j t (by rw [h.nAction]; exact hj) (by rw [h.aAction]; exact ht)

theorem sameTxn_holeBound {p p2 : acttab} (h : SameTxn p p2) : holeBound p = holeBound p2 := by
  unfold holeBound
  rw [h.nActionAlloc, h.mx]

theorem sameTxn_cases {p p2 : acttab} (h : SameTxn p p2) {i : Nat}
    (hc : ExactCase p i ∨ HoleCase p i) : ExactCase p2 i ∨ HoleCase p2 i := by
  have hs := sameTxn_symm h
  rcases hc with ⟨h1, h2, h3⟩ | ⟨h1, h2, h3, h4, h5⟩
  · left
    refine ⟨by rw [← h.nAction]; exact h1, sameTxn_exactAt h h2, ?_⟩
    intro x hx1 hx2 hE
    exact h3 x hx1 (by rw [h.nAction]; exact hx2) (sameTxn_exactAt hs hE)
  · right
    refine ⟨?_, by rw [← sameTxn_holeBound h]; exact h2, ?_, ?_, ?_⟩
    · intro x hx hE
      exact h1 x (by rw [h.nAction]; exact hx) (sameTxn_exactAt hs hE)
    · intro x hx hF
      exact h3 x hx (sameTxn_fitsAt hs hF)
    · intro hi
      exact sameTxn_fitsAt h (h4 (by rw [sameTxn_holeBound h]; exact hi))
    · intro hi
      rw [← h.mn]
      exact h5 (by rw [sameTxn_holeBound h]; exact hi)

/-- The two searches determine the index. -/
theorem index_unique {p : acttab} {i j : Nat} (hi : ExactCase p i ∨ HoleCase p i)
    (hj : ExactCase p j ∨ HoleCase p j) : i = j := by
  rcases hi with ⟨a1, a2, a3⟩ | ⟨b1, b2, b3, b4, _⟩ <;>
    rcases hj with ⟨c1, c2, c3⟩ | ⟨d1, d2, d3, d4, _⟩
  · by_contra hne
    rcases Nat.lt_or_gt_of_ne hne with h | h
    · exact a3 j h c1 c2
    · exact c3 i h a1 a2
  · exact absurd a2 (d1 i a1)
  · exact absurd c2 (b1 j c1)
  · by_contra hne
    rcases Nat.lt_or_gt_of_ne hne with h | h
    · exact d3 i h (b4 (by omega))
    · exact b3 j h (d4 (by omega))

theorem growTable_congr {p p2 p1 p3 : acttab} (hn : p.nAction = p2.nAction)
    (hx : p.mxLookahead = p2.mxLookahead) (hA : p.nActionAlloc = p2.nActionAlloc)
    (ha : p.aAction = p2.aAction) (h : growTable p = .ok p1) (h2 : growTable p2 = .ok p3) :
    p1.nActionAlloc = p3.nActionAlloc ∧ p1.aAction = p3.aAction := by
  unfold growTable at h h2
  rw [hn, hx, hA, ha] at h
  simp only at h h2
  split_ifs at h h2 with hc
  · split at h
    · exact absurd h (by simp)
    · rename_i a h3
      rw [h3] at h2
      simp only at h2
      rw [← Except.ok.inj h, ← Except.ok.inj h2]
      exact ⟨rfl, rfl⟩
  · rw [← Except.ok.inj h, ← Except.ok.inj h2]
    exact ⟨hA, ha⟩

/-- Emitting the same pairs in another order leaves the same tracked values. -/
theorem sameTxn_of_perm {pa pb : acttab} {t1 t2 : List lookahead_action}
    (hTa : TabInv pa) (hTb : TabInv pb) (hXa : TxnInv pa) (hXb : TxnInv pb)
    (hposa : 0 < pa.nLookahead) (hposb : 0 < pb.nLookahead)
    (h1 : txn pa = t1) (h2 : txn pb = t2) (hp : t1.Perm t2)
    (hnd : (t1.map (fun e => e.lookahead)).Nodup)
    (hn : pa.nAction = pb.nAction) (hA : pa.nActionAlloc = pb.nActionAlloc)
    (ha : pa.aAction = pb.aAction) : SameTxn pa pb := by
  have hmem : ∀ e, e ∈ txn pa ↔ e ∈ txn pb := by
    intro e
    rw [h1, h2]
    exact hp.mem_iff
  have hfa := List.mem_of_find?_eq_some (hXa.first hposa)
  have hfb := List.mem_of_find?_eq_some (hXb.first hposb)
  have hmn : pa.mnLookahead = pb.mnLookahead := by
    have x1 := hXb.lo _ ((hmem _).mp hfa)
    have x2 := hXa.lo _ ((hmem _).mpr hfb)
    simp only at x1 x2
    omega
  have hmx : pa.mxLookahead = pb.mxLookahead := by
    obtain ⟨e, he, hee⟩ := hXa.mxIn hposa
    obtain ⟨f, hf, hff⟩ := hXb.mxIn hposb
    have x1 := hXb.hi e ((hmem e).mp he)
    have x2 := hXa.hi f ((hmem f).mpr hf)
    omega
  have hmA : pa.mnAction = pb.mnAction := by
    have hb2 := (hmem _).mpr hfb
    rw [h1] at hfa hb2
    have := eq_of_lookahead_eq hnd hfa hb2 (by show pb.mnLookahead = pa.mnLookahead; omega)
    exact (congrArg lookahead_action.action this).symm
  have hlen : pa.nLookahead = pb.nLookahead := by
    have la := txn_length (p := pa) (by rw [hTa.bufLen]; exact hTa.bufLe)
    have lb := txn_length (p := pb) (by rw [hTb.bufLen]; exact hTb.bufLe)
    rw [h1] at la
    rw [h2] at lb
    rw [← la, ← lb]
    exact hp.length_eq
  exact ⟨hn, hA, ha, hmn, hmA, hmx, hlen, hmem⟩

/-- C26, the order of the emits does not matter.  From a reachable state with an empty
transaction buffer, two transactions that are permutations of each other (pairwise
distinct lookaheads `≥ 0`) make `acttab_insert` return the same offset and leave the same
`nAction`, the same `nActionAlloc` and the same content of `aAction`. -/
theorem emit_order_irrelevant (p0 : acttab) (hr : Reachable p0) (h0 : p0.nLookahead = 0)
    (t1 t2 : List lookahead_action) (hv : ValidTxn t1) (hp : t1.Perm t2) :
    ∃ (q1 q2 : acttab) (o : Int), commit p0 t1 = .ok (q1, o) ∧ commit p0 t2 = .ok (q2, o) ∧
      q1.nAction = q2.nAction ∧ q1.nActionAlloc = q2.nActionAlloc ∧
      q1.aAction = q2.aAction := by
  have hT := (reachable_inv hr).1
  obtain ⟨hne, hnn, hnd⟩ := hv
  have hne2 : t2 ≠ [] := by
    intro h
    rw [h] at hp
    exact hne hp.eq_nil
  have hnn2 : ∀ e ∈ t2, 0 ≤ e.lookahead := fun e he => hnn e (hp.mem_iff.mpr he)
  obtain ⟨pa, p1a, qa, ia, _, htxa, hTa, hXa, hposa, hna, hAa, haa, _, hca, sta, _⟩ :=
    commit_spec hT h0 hne hnn
  obtain ⟨pb, p1b, qb, ib, _, htxb, hTb, hXb, hposb, hnb, hAb, hab, _, hcb, stb, _⟩ :=
    commit_spec hT h0 hne2 hnn2
  have hS : SameTxn pa pb := sameTxn_of_perm hTa hTb hXa hXb hposa hposb htxa htxb hp hnd
    (by rw [hna, hnb]) (by rw [hAa, hAb]) (by rw [haa, hab])
  obtain ⟨hg1, hg2⟩ := growTable_congr hS.nAction hS.mx hS.nActionAlloc hS.aAction
    sta.grow stb.grow
  have hS1 : SameTxn p1a p1b := by
    refine ⟨?_, hg1, hg2, ?_, ?_, ?_, ?_, ?_⟩
    · rw [step_nAction1 sta, step_nAction1 stb]
      exact hS.nAction
    · have e1 : p1a.mnLookahead = pa.mnLookahead := by rw [sta.same1]
      have e2 : p1b.mnLookahead = pb.mnLookahead := by rw [stb.same1]
      rw [e1, e2]
      exact hS.mn
    · have e1 : p1a.mnAction = pa.mnAction := by rw [sta.same1]
      have e2 : p1b.mnAction = pb.mnAction := by rw [stb.same1]
      rw [e1, e2]
      exact hS.mnAction
    · rw [step_mx sta, step_mx stb]
      exact hS.mx
    · have e1 : p1a.nLookahead = pa.nLookahead := by rw [sta.same1]
      have e2 : p1b.nLookahead = pb.nLookahead := by rw [stb.same1]
      rw [e1, e2]
      exact hS.nLookahead
    · intro e
      rw [step_txn sta, step_txn stb]
      exact hS.mem e
  have hi : ia = ib := index_unique (sameTxn_cases hS1 sta.cases) stb.cases
  subst hi
  have hslot : ∀ l, slotOf pa ia l = slotOf pb ia l := sameTxn_slot hS ia
  have hndb : (t2.map (fun e => e.lookahead)).Nodup :=
    (hp.map _).nodup_iff.mp hnd
  refine ⟨qa, qb, (ia : Int) - pa.mnLookahead, hca, ?_, ?_, ?_, ?_⟩
  · rw [hS.mn]
    exact hcb
  · apply Nat.le_antisymm
    · rcases sta.nEq with h | ⟨e, he, h⟩
      · rw [h, hS.nAction]
        exact stb.nle
      · have := stb.nlt e ((hS.mem e).mp he)
        rw [← hslot] at this
        omega
    · rcases stb.nEq with h | ⟨e, he, h⟩
      · rw [h, ← hS.nAction]
        exact sta.nle
      · have := sta.nlt e ((hS.mem e).mpr he)
        rw [hslot] at this
        omega
  · rw [step_qAlloc sta, step_qAlloc stb]
    exact hg1
  · apply List.ext_getElem?
    intro k
    by_cases hk : ∃ e ∈ txn pa, slotOf pa ia e.lookahead = k
    · obtain ⟨e, he, hek⟩ := hk
      have heb := (hS.mem e).mp he
      obtain ⟨e2, he2, hs2, hput2⟩ := sta.put e he
      obtain ⟨e3, he3, hs3, hput3⟩ := stb.put e heb
      have h2 : e2 = e := by
        rw [htxa] at he he2
        apply eq_of_lookahead_eq hnd he he2
        unfold slotOf at hs2
        omega
      have h3 : e3 = e := by
        rw [htxb] at heb he3
        apply eq_of_lookahead_eq hndb heb he3
        unfold slotOf at hs3
        omega
      rw [hek, Int.toNat_ofNat, h2] at hput2
      rw [← hslot, hek, Int.toNat_ofNat, h3] at hput3
      rw [hput2, hput3]
    · have ka := sta.keep k (by
        intro e he hek
        exact hk ⟨e, he, hek⟩)
      have kb := stb.keep k (by
        intro e he hek
        exact hk ⟨e, (hS.mem e).mpr he, by rw [hslot]; exact hek⟩)
      rw [ka, kb, hg2]

/-- Witness of C26: the pairs `(4,4)`, `(17,5)` and `(0,6)` emitted in two orders after
three commits. -/
theorem emit_order_irrelevant_witness :
    Reachable (stateAfter [[⟨1, 1⟩], [⟨2, 2⟩], [⟨0, 3⟩]] []) ∧
    ValidTxn [⟨4, 4⟩, ⟨17, 5⟩, ⟨0, 6⟩] ∧
    ∃ (q1 q2 : acttab) (o : Int),
      commit (stateAfter [[⟨1, 1⟩], [⟨2, 2⟩], [⟨0, 3⟩]] []) [⟨4, 4⟩, ⟨17, 5⟩, ⟨0, 6⟩] =
        .ok (q1, o) ∧
      commit (stateAfter [[⟨1, 1⟩], [⟨2, 2⟩], [⟨0, 3⟩]] []) [⟨17, 5⟩, ⟨0, 6⟩, ⟨4, 4⟩] =
        .ok (q2, o) ∧
      q1.nAction = q2.nAction ∧ q1.nActionAlloc = q2.nActionAlloc ∧
      q1.aAction = q2.aAction :=
  ⟨reachable_stateAfter (by decide) (by decide), by decide,
    emit_order_irrelevant _ (reachable_stateAfter (by decide) (by decide)) (by decide)
      [⟨4, 4⟩, ⟨17, 5⟩, ⟨0, 6⟩] [⟨17, 5⟩, ⟨0, 6⟩, ⟨4, 4⟩] (by decide) (by decide)⟩

/-! ## Sequential rule numbers -/

theorem numberCoded_spec : ∀ (l : List rule) (i : Nat),
    (numberCoded l i).1.map (fun r => (r.index, r.code)) = l.map (fun r => (r.index, r.code)) ∧
    (numberCoded l i).2 = ((i + l.countP (fun r => r.code) : Nat) : Int) ∧
    ((numberCoded l i).1.filter (fun r => r.code)).map (fun r => r.iRule) =
      (List.range' i (l.countP (fun r => r.code))).map Int.ofNat ∧
    (∀ x ∈ (numberCoded l i).1, x.iRule < 0 ↔ x.code = false) := by
  intro l
  induction l with
  | nil =>
    intro i
    exact ⟨rfl, by simp [numberCoded], rfl, by simp [numberCoded]⟩
  | cons rp rest ih =>
    intro i
    by_cases hc : rp.code = true
    · obtain ⟨h1, h2, h3, h4⟩ := ih (i + 1)
      have hi : ((i : Int) + 1) = ((i + 1 : Nat) : Int) := by push_cast; rfl
      simp only [numberCoded, hc, if_true, hi]
      refine ⟨?_, ?_, ?_, ?_⟩
      · simp only [List.map_cons, h1, hc]
      · rw [h2, List.countP_cons_of_pos _ _ (by simpa using hc)]
        congr 1
        omega
      · rw [List.filter_cons_of_pos (by simp [hc]), List.map_cons, h3,
          List.countP_cons_of_pos _ _ (by simpa using hc), List.range'_succ, List.map_cons]
        rfl
      · intro x hx
        rcases List.mem_cons.mp hx with rfl | hx
        · simp only [hc]
          constructor
          · intro h
            exact absurd h (by omega)
          · intro h
            exact absurd h (by simp)
        · exact h4 x hx
    · obtain ⟨h1, h2, h3, h4⟩ := ih i
      have hc2 : rp.code = false := by simpa using hc
      simp only [numberCoded, hc2, Bool.false_eq_true, if_false]
      refine ⟨?_, ?_, ?_, ?_⟩
      · simp only [List.map_cons, h1, hc2]
      · rw [h2, List.countP_cons_of_neg _ _ (by simpa using hc)]
      · rw [List.filter_cons_of_neg (by simp [hc]), h3,
          List.countP_cons_of_neg _ _ (by simpa using hc)]
      · intro x hx
        rcases List.mem_cons.mp hx with rfl | hx
        · simp [hc2]
        · exact h4 x hx

theorem numberUncoded_spec : ∀ (l : List rule) (j : Nat),
    (∀ x ∈ l, x.iRule < 0 ↔ x.code = false) →
    (numberUncoded l j).1.map (fun r => (r.index, r.code)) =
      l.map (fun r => (r.index, r.code)) ∧
    ((numberUncoded l j).1.filter (fun r => r.code)).map (fun r => r.iRule) =
      (l.filter (fun r => r.code)).map (fun r => r.iRule) ∧
    ((numberUncoded l j).1.filter (fun r => !r.code)).map (fun r => r.iRule) =
      (List.range' j (l.countP (fun r => !r.code))).map Int.ofNat := by
  intro l
  induction l with
  | nil =>
    intro j _
    exact ⟨rfl, rfl, rfl⟩
  | cons rp rest ih =>
    intro j hl
    have hrp := hl rp (by simp)
    have hrest : ∀ x ∈ rest, x.iRule < 0 ↔ x.code = false := fun x hx => hl x (by simp [hx])
    by_cases hc : rp.code = true
    · have hneg : ¬ rp.iRule < 0 := by
        intro h
        rw [hrp.mp h] at hc
        exact absurd hc (by simp)
      obtain ⟨h1, h2, h3⟩ := ih j hrest
      simp only [numberUncoded, hneg, if_false]
      refine ⟨?_, ?_, ?_⟩
      · simp only [List.map_cons, h1]
      · rw [List.filter_cons_of_pos (by simpa using hc),
          List.filter_cons_of_pos (by simpa using hc), List.map_cons, List.map_cons, h2]
      · rw [List.filter_cons_of_neg (by simp [hc]), h3,
          List.countP_cons_of_neg _ _ (by simp [hc])]
    · have hc2 : rp.code = false := by simpa using hc
      have hneg : rp.iRule < 0 := hrp.mpr hc2
      have hj : ((j : Int) + 1) = ((j + 1 : Nat) : Int) := by push_cast; rfl
      obtain ⟨h1, h2, h3⟩ := ih (j + 1) hrest
      simp only [numberUncoded, hneg, if_true, hj]
      refine ⟨?_, ?_, ?_⟩
      · simp only [List.map_cons, h1]
      · rw [List.filter_cons_of_neg (by simp [hc2]),
          List.filter_cons_of_neg (by simp [hc2]), h2]
      · rw [List.filter_cons_of_pos (by simp [hc2]), List.map_cons, h3,
          List.countP_cons_of_pos _ _ (by simp [hc2]), List.range'_succ, List.map_cons]
        rfl

/-- The routine `Rule_sort` on a list with distinct rule numbers `0 .. n-1`: the result
carries the numbers in the order `0, 1, .., n-1`. -/
theorem Rule_sort_numbered (r : List rule) (hlen : r.length < 4294967296)
    (hp : (r.map (fun x => x.iRule)).Perm ((List.range r.length).map Int.ofNat)) :
    ∃ s, Rule_sort r = .ok s ∧ s.Perm r ∧
      s.map (fun x => x.iRule) = (List.range r.length).map Int.ofNat := by
  obtain ⟨x, hx, hB, _, hpx⟩ := sortLoop_spec r (List.replicate 32 [])
    (buckets_replicate 32 0) (by simpa using hlen)
  obtain ⟨h1, h2⟩ := finalMerge_spec x [] List.Pairwise.nil (buckets_sorted x 0 hB)
  have hperm : (x.foldl (fun acc b => Rule_merge b acc) []).Perm r := by
    refine h2.trans ?_
    simp only [List.nil_append]
    refine hpx.trans ?_
    simp
  refine ⟨_, by simp only [Rule_sort, hx], hperm, ?_⟩
  refine List.eq_of_perm_of_sorted ((hperm.map _).trans hp) ?_ ?_ (r := fun a b : Int => a ≤ b)
  · unfold RuleSorted at h1
    exact List.pairwise_map.mpr h1
  · refine List.pairwise_map.mpr ?_
    refine (List.pairwise_lt_range r.length).imp ?_
    intro a b hab
    exact Int.ofNat_le.mpr (Nat.le_of_lt hab)

/-- C27, sequential rule numbers.  For a rule list of length `n` (an `int`) of which `c`
rules carry code, the numbering loops of `main` change no field but `iRule`; the rules with
code receive `0 .. c-1` in list order and the rules without code receive `c .. n-1` in list
order, so the `iRule` values are a rearrangement of `0 .. n-1`; and the following
`Rule_sort` returns the same rules in the order `iRule = 0, 1, .., n-1`. -/
theorem sequential_rule_numbers (l : List rule) (hlen : l.length < 2147483648) :
    (numberRules l).map (fun r => (r.index, r.code)) = l.map (fun r => (r.index, r.code)) ∧
    ((numberRules l).filter (fun r => r.code)).map (fun r => r.iRule) =
      (List.range' 0 (l.countP (fun r => r.code))).map Int.ofNat ∧
    ((numberRules l).filter (fun r => !r.code)).map (fun r => r.iRule) =
      (List.range' (l.countP (fun r => r.code))
        (l.length - l.countP (fun r => r.code))).map Int.ofNat ∧
    ((numberRules l).map (fun r => r.iRule)).Perm ((List.range l.length).map Int.ofNat) ∧
    ∃ s, Rule_sort (numberRules l) = .ok s ∧ s.Perm (numberRules l) ∧
      s.map (fun r => r.iRule) = (List.range l.length).map Int.ofNat := by
  have hs := numberCoded_spec l 0
  rw [show ((0 : Nat) : Int) = 0 from rfl, Nat.zero_add] at hs
  obtain ⟨a1, a2, a3, a4⟩ := hs
  have a2b : (numberCoded l 0).2 = ((l.countP (fun r => r.code) : Nat) : Int) := a2
  obtain ⟨b1, b2, b3⟩ := numberUncoded_spec (numberCoded l 0).1
    (l.countP (fun r => r.code)) a4
  rw [← a2b] at b1 b2 b3
  have hcnt : (numberCoded l 0).1.countP (fun r => !r.code) =
      l.length - l.countP (fun r => r.code) := by
    have e1 : (numberCoded l 0).1.countP (fun r => !r.code) =
        ((numberCoded l 0).1.map (fun r => (r.index, r.code))).countP (fun x => !x.2) := by
      rw [List.countP_map]
      rfl
    have e2 : l.countP (fun r => !r.code) =
        (l.map (fun r => (r.index, r.code))).countP (fun x => !x.2) := by
      rw [List.countP_map]
      rfl
    rw [e1, a1, ← e2]
    have := List.length_eq_countP_add_countP (p := fun r : rule => r.code) l
    have e3 : l.countP (fun a => decide ¬ a.code = true) = l.countP (fun r => !r.code) := by
      congr 1
      funext a
      cases a.code <;> rfl
    omega
  have hlen2 : (numberRules l).length = l.length := by
    have := congrArg List.length (b1.trans a1)
    simpa [numberRules] using this
  have h2 : ((numberRules l).filter (fun r => r.code)).map (fun r => r.iRule) =
      (List.range' 0 (l.countP (fun r => r.code))).map Int.ofNat := by
    unfold numberRules
    rw [b2, a3]
  have h3 : ((numberRules l).filter (fun r => !r.code)).map (fun r => r.iRule) =
      (List.range' (l.countP (fun r => r.code))
        (l.length - l.countP (fun r => r.code))).map Int.ofNat := by
    unfold numberRules
    rw [b3, hcnt]
  have hperm : ((numberRules l).map (fun r => r.iRule)).Perm
      ((List.range l.length).map Int.ofNat) := by
    have hf := (List.filter_append_perm (fun r : rule => r.code) (numberRules l)).map
      (fun r => r.iRule)
    refine hf.symm.trans ?_
    rw [List.map_append, h2, h3, ← List.map_append, List.range_eq_range']
    have hle : l.countP (fun r => r.code) ≤ l.length := List.countP_le_length _
    have := List.range'_append_1 0 (l.countP (fun r => r.code))
      (l.length - l.countP (fun r => r.code))
    rw [Nat.zero_add] at this
    rw [this, Nat.sub_add_cancel hle]
  refine ⟨b1.trans a1, h2, h3, hperm, ?_⟩
  have := Rule_sort_numbered (numberRules l) (by omega) (by rw [hlen2]; exact hperm)
  rw [hlen2] at this
  exact this

/-- Witness of C27: five rules, of which the second, third and fifth carry code. -/
theorem sequential_rule_numbers_witness :
    ([⟨0, 0, false⟩, ⟨1, 0, true⟩, ⟨2, 0, true⟩, ⟨3, 0, false⟩, ⟨4, 0, true⟩] :
      List rule).length < 2147483648 ∧
    numberRules [⟨0, 0, false⟩, ⟨1, 0, true⟩, ⟨2, 0, true⟩, ⟨3, 0, false⟩, ⟨4, 0, true⟩] =
      [⟨0, 3, false⟩, ⟨1, 0, true⟩, ⟨2, 1, true⟩, ⟨3, 4, false⟩, ⟨4, 2, true⟩] ∧
    Rule_sort [⟨0, 3, false⟩, ⟨1, 0, true⟩, ⟨2, 1, true⟩, ⟨3, 4, false⟩, ⟨4, 2, true⟩] =
      .ok [⟨1, 0, true⟩, ⟨2, 1, true⟩, ⟨4, 2, true⟩, ⟨0, 3, false⟩, ⟨3, 4, false⟩] ∧
    ∃ s, Rule_sort (numberRules
        [⟨0, 0, false⟩, ⟨1, 0, true⟩, ⟨2, 0, true⟩, ⟨3, 0, false⟩, ⟨4, 0, true⟩]) = .ok s ∧
      s.Perm (numberRules
        [⟨0, 0, false⟩, ⟨1, 0, true⟩, ⟨2, 0, true⟩, ⟨3, 0, false⟩, ⟨4, 0, true⟩]) ∧
      s.map (fun r => r.iRule) = (List.range ([⟨0, 0, false⟩, ⟨1, 0, true⟩, ⟨2, 0, true⟩,
        ⟨3, 0, false⟩, ⟨4, 0, true⟩] : List rule).length).map Int.ofNat :=
  ⟨by decide, rfl, rfl,
    (sequential_rule_numbers
      [⟨0, 0, false⟩, ⟨1, 0, true⟩, ⟨2, 0, true⟩, ⟨3, 0, false⟩, ⟨4, 0, true⟩]
      (by decide)).2.2.2.2⟩

end Lemon
